import Mathlib

/-!
# goeasystar: a verification development

A shallow embedding of `astar.go` and `node.go` (package `goeasystar`) and theorems
about `FindPath`.

Conventions of the embedding.

* Go `int` values are `Int`; slices are `List`; a Go `string` is the list of its bytes.
* A `*node` is an index into the list of allocated nodes (`heap`); following a
  pointer is `nodeAt`.  Nodes are allocated by `newNode` only and never freed.
* Maps are association lists read with `List.lookup`.
* The packages the program imports but does not contain (`float64` arithmetic and
  `math.Sqrt`, `sort.Sort`, `github.com/facebookgo/pqueue`) are the fields of an
  environment `Env`; every general theorem holds for every environment.  Concrete
  environments are given further down for evaluating the program on inputs.
* A call ends in an `Outcome`: a returned route, a returned error, a runtime panic
  (index out of range, nil dereference) or no return at all.
-/

set_option autoImplicit false

namespace Goeasystar

/-! ## Strings made from integers -/

/-- A Go string, as the list of its bytes. -/
abbrev GoString := List Nat

/-- The code point that the Go conversion `string(x)` encodes for an integer `x`:
`x` itself when it is a valid Unicode code point, and U+FFFD otherwise (negative
values, surrogate halves and values above U+10FFFF). -/
def runeOfInt (x : Int) : Nat :=
  if 0 ≤ x ∧ x ≤ 0x10FFFF ∧ ¬ (0xD800 ≤ x ∧ x ≤ 0xDFFF) then x.toNat else 0xFFFD

/-- UTF-8 encoding of one code point. -/
def utf8Encode (r : Nat) : List Nat :=
  if r < 0x80 then [r]
  else if r < 0x800 then [0xC0 + r / 64, 0x80 + r % 64]
  else if r < 0x10000 then [0xE0 + r / 4096, 0x80 + r / 64 % 64, 0x80 + r % 64]
  else [0xF0 + r / 262144, 0x80 + r / 4096 % 64, 0x80 + r / 64 % 64, 0x80 + r % 64]

/-- Go's `string(x)` for an `int` x. -/
def stringOfInt (x : Int) : GoString :=
  utf8Encode (runeOfInt x)

/-- Source: `getHashKeyForPoint`, `string(x) + "_" + string(y)`. -/
def getHashKeyForPoint (x y : Int) : GoString :=
  stringOfInt x ++ [0x5F] ++ stringOfInt y

/-! ## The imported packages -/

/-- The largest `int64`, `math.MaxInt64`. -/
def maxInt64 : Int := 9223372036854775807

/-- The operations on `float64` that the program uses. -/
structure Float64Ops (F : Type) where
  /-- The conversion `float64(i)`. -/
  ofInt : Int → F
  /-- Addition. -/
  add : F → F → F
  /-- Multiplication. -/
  mul : F → F → F
  /-- The comparison `a < b`. -/
  lt : F → F → Bool
  /-- The function `math.Sqrt`. -/
  sqrt : F → F
  /-- The conversion `int64(f)`. -/
  toInt64 : F → Int
  /-- The value `float64(0)`, also the zero value a map read yields for an absent key. -/
  zero : F
  /-- The constant `straightCost = 1.0`. -/
  straightCost : F
  /-- The constant `diagonalCost = 1.4`. -/
  diagonalCost : F
  /-- The constant `costPrecision = 100`. -/
  costPrecision : F
  /-- An `int64` is at most `math.MaxInt64`. -/
  toInt64_le : ∀ f, toInt64 f ≤ maxInt64

/-- Source: `pqueue.Item`; `value` is the `*node` it carries. -/
structure Item where
  value : Nat
  priority : Int
  deriving DecidableEq, Repr

/-- The priority queue package, as far as the program uses it: `New`, `Push`, `Len`
and `PeekAndShift`.  `items` lists what a queue holds; the laws say that the queue
is a bag: `Push` adds one item, and `PeekAndShift max` on a queue that holds items,
none with a priority above `max`, removes one of them and returns it. -/
structure PQueueOps (Q : Type) where
  /-- The constructor `pqueue.New(capacity)`. -/
  new : Nat → Q
  /-- The method `Push`. -/
  push : Q → Item → Q
  /-- The method `Len`. -/
  len : Q → Nat
  /-- The method `PeekAndShift(max)`: the item or nil, and the queue afterwards. -/
  peekAndShift : Q → Int → Option Item × Q
  /-- The items a queue holds. -/
  items : Q → List Item
  items_new : ∀ c, items (new c) = []
  items_push : ∀ q it, (items (push q it)).Perm (it :: items q)
  len_eq : ∀ q, len q = (items q).length
  peek_some : ∀ q max, items q ≠ [] → (∀ it ∈ items q, it.priority ≤ max) →
    ∃ it, (peekAndShift q max).1 = some it ∧ (items q).Perm (it :: items (peekAndShift q max).2)

/-! ## node.go -/

/-- Source: `type node struct`.  The field `list` is never read or written
and is left out. -/
structure Node (F : Type) where
  parent : Option Nat
  x : Int
  y : Int
  costSoFar : F
  simpleDistanceToTarget : F
  deriving Repr

/-- Source: `type Point struct`. -/
structure Point where
  X : Int
  Y : Int
  deriving DecidableEq, Repr

/-- Source: `type searchNode struct`; `parent` is a `*node`. -/
structure SearchNode (F : Type) where
  x : Int
  y : Int
  endX : Int
  endY : Int
  cost : F
  parent : Nat
  deriving DecidableEq, Repr

/-- The environment of the program: float arithmetic, the priority queue and
`sort.Sort`, which returns its input rearranged. -/
structure Env (F Q : Type) where
  f : Float64Ops F
  pq : PQueueOps Q
  /-- The function `sort.Sort` on a `searchNodes` slice ordered by `Less`. -/
  sort : (SearchNode F → SearchNode F → Bool) → List (SearchNode F) → List (SearchNode F)
  sort_perm : ∀ less l, (sort less l).Perm l

section Program

variable {F Q : Type}

/-- Following a `*node`. -/
def nodeAt (E : Env F Q) (heap : List (Node F)) (i : Nat) : Node F :=
  heap.getD i ⟨none, 0, 0, E.f.zero, E.f.zero⟩

/-- Source: `getDistance`. -/
def getDistance (E : Env F Q) (x1 y1 x2 y2 : Int) : F :=
  let xx := E.f.ofInt (x2 - x1)
  let yy := E.f.ofInt (y2 - y1)
  E.f.sqrt (E.f.add (E.f.mul xx xx) (E.f.mul yy yy))

/-- Source: `searchNodes.Less`, on two elements of the slice. -/
def searchNodesLess (E : Env F Q) (heap : List (Node F)) (a b : SearchNode F) : Bool :=
  let iCost := E.f.add a.cost (E.f.mul
    (getDistance E ((nodeAt E heap a.parent).x + a.x) ((nodeAt E heap a.parent).y + a.y)
      a.endX a.endY) E.f.costPrecision)
  let jCost := E.f.add b.cost (E.f.mul
    (getDistance E ((nodeAt E heap b.parent).x + b.x) ((nodeAt E heap b.parent).y + b.y)
      b.endX b.endY) E.f.costPrecision)
  E.f.lt jCost iCost

/-- Source: `newSearchNode`. -/
def newSearchNode (x y endX endY : Int) (cost : F) (parent : Nat) : SearchNode F :=
  { x := x, y := y, endX := endX, endY := endY, cost := cost, parent := parent }

/-- Source: `newNode`; the parent's `costSoFar` is read through the pointer. -/
def newNode (E : Env F Q) (heap : List (Node F)) (x y endX endY : Int)
    (parent : Option Nat) (cost : F) : Node F :=
  let simpleDistanceToTarget := getDistance E x y endX endY
  let costSoFar :=
    match parent with
    | some q => E.f.add (nodeAt E heap q).costSoFar cost
    | none => simpleDistanceToTarget
  { parent := parent, x := x, y := y, costSoFar := costSoFar,
    simpleDistanceToTarget := simpleDistanceToTarget }

/-- Source: `(*node).bestGuessDistance`. -/
def bestGuessDistance (E : Env F Q) (n : Node F) : F :=
  E.f.add n.costSoFar n.simpleDistanceToTarget

/-! ## astar.go -/

/-- Source: `type Pathfinder struct`.  `heap` holds the nodes that the pointers of
`coordinateToNode` and `openList` refer to. -/
structure Pathfinder (F Q : Type) where
  collisionGrid : Option (List (List Int))
  additionalPointsToAvoid : List (GoString × Bool)
  costMap : List (Int × F)
  additionalPointsToCost : List (GoString × F)
  allowCornerCutting : Bool
  acceptableTiles : List Int
  diagonalsEnabled : Bool
  startX : Int
  startY : Int
  endX : Int
  endY : Int
  coordinateToNode : List (GoString × Nat)
  openList : Q
  heap : List (Node F)

/-- Source: `NewPathfinder`; the fields it does not name hold zero values. -/
def NewPathfinder (E : Env F Q) : Pathfinder F Q :=
  { collisionGrid := none
    additionalPointsToAvoid := []
    costMap := []
    additionalPointsToCost := []
    allowCornerCutting := false
    acceptableTiles := []
    diagonalsEnabled := false
    startX := 0, startY := 0, endX := 0, endY := 0
    coordinateToNode := []
    openList := E.pq.new 0
    heap := [] }

/-- A map write `m[k] = v`. -/
def mapSet {K V : Type} [DecidableEq K] (m : List (K × V)) (k : K) (v : V) : List (K × V) :=
  (k, v) :: m.filter (fun e => e.1 ≠ k)

/-- A map `delete(m, k)`. -/
def mapDelete {K V : Type} [DecidableEq K] (m : List (K × V)) (k : K) : List (K × V) :=
  m.filter (fun e => e.1 ≠ k)

/-- Source: `SetAcceptableTiles`. -/
def SetAcceptableTiles (p : Pathfinder F Q) (t : List Int) : Pathfinder F Q :=
  { p with acceptableTiles := t }

/-- Source: `EnableDiagonals`. -/
def EnableDiagonals (p : Pathfinder F Q) : Pathfinder F Q :=
  { p with diagonalsEnabled := true }

/-- Source: `DisableDiagonals`. -/
def DisableDiagonals (p : Pathfinder F Q) : Pathfinder F Q :=
  { p with diagonalsEnabled := false }

/-- Source: `SetGrid`; a nil slice is `none`. -/
def SetGrid (p : Pathfinder F Q) (grid : Option (List (List Int))) : Pathfinder F Q :=
  { p with collisionGrid := grid }

/-- Source: `SetAdditionalPointCost`. -/
def SetAdditionalPointCost (p : Pathfinder F Q) (x y : Int) (cost : F) : Pathfinder F Q :=
  { p with additionalPointsToCost := mapSet p.additionalPointsToCost (getHashKeyForPoint x y) cost }

/-- Source: `RemoveAdditionalPointCost`. -/
def RemoveAdditionalPointCost (p : Pathfinder F Q) (x y : Int) : Pathfinder F Q :=
  { p with additionalPointsToCost := mapDelete p.additionalPointsToCost (getHashKeyForPoint x y) }

/-- Source: `RemoveAllAdditionalPointCosts`, which assigns a fresh map to
`additionalPointsToAvoid`. -/
def RemoveAllAdditionalPointCosts (p : Pathfinder F Q) : Pathfinder F Q :=
  { p with additionalPointsToAvoid := [] }

/-- Source: `AvoidAdditionalPoint`. -/
def AvoidAdditionalPoint (p : Pathfinder F Q) (x y : Int) : Pathfinder F Q :=
  { p with additionalPointsToAvoid := mapSet p.additionalPointsToAvoid (getHashKeyForPoint x y) true }

/-- Source: `StopAvoidingAdditionalPoint`. -/
def StopAvoidingAdditionalPoint (p : Pathfinder F Q) (x y : Int) : Pathfinder F Q :=
  { p with additionalPointsToAvoid := mapDelete p.additionalPointsToAvoid (getHashKeyForPoint x y) }

/-- Source: `EnableCornerCutting`. -/
def EnableCornerCutting (p : Pathfinder F Q) : Pathfinder F Q :=
  { p with allowCornerCutting := true }

/-- Source: `DisableCornerCutting`. -/
def DisableCornerCutting (p : Pathfinder F Q) : Pathfinder F Q :=
  { p with allowCornerCutting := false }

/-- Source: `StopAvoidingAllAdditionalPoints`. -/
def StopAvoidingAllAdditionalPoints (p : Pathfinder F Q) : Pathfinder F Q :=
  { p with additionalPointsToAvoid := [] }

/-- The read `grid[y][x]`; `none` is the index-out-of-range panic. -/
def gridAt (grid : List (List Int)) (x y : Int) : Option Int :=
  if 0 ≤ y ∧ 0 ≤ x then
    match grid.get? y.toNat with
    | some row => row.get? x.toNat
    | none => none
  else none

/-- What the program reads of a grid that has a first row: `len(grid[0])`, `len(grid)`
and the tiles `grid[y][x]`. -/
structure GridView where
  width : Int
  height : Int
  tileAt : Int → Int → Option Int

/-- The reads of a grid. -/
def gridView (grid : List (List Int)) : GridView :=
  { width := (grid.headD []).length, height := grid.length, tileAt := gridAt grid }

/-- Source: `getTileCost`, with `g` the reads of `p.collisionGrid`; `none` is a panic
of the grid read. -/
def getTileCost (E : Env F Q) (p : Pathfinder F Q) (g : GridView) (x y : Int) : Option F :=
  match p.additionalPointsToCost.lookup (getHashKeyForPoint x y) with
  | some cost => some cost
  | none =>
    match g.tileAt x y with
    | some tile => some ((p.costMap.lookup tile).getD E.f.zero)
    | none => none

/-- Source: `isTileWalkable`, with `g` the reads of `grid`; `none` is a panic of the grid
read, which the loop performs when it has a first tile to compare with. -/
def isTileWalkable (g : GridView) (acceptableTiles : List Int) (x y : Int) :
    Option Bool :=
  match acceptableTiles with
  | [] => some false
  | _ :: _ =>
    match g.tileAt x y with
    | some tile => some (acceptableTiles.contains tile)
    | none => none

/-- The result of a call of `FindPath`. -/
inductive Outcome where
  /-- The call returns `(path, nil)`. -/
  | route (path : List Point)
  /-- The call returns `(nil, errors.New(msg))`. -/
  | error (msg : String)
  /-- The call panics at run time (index out of range, nil dereference). -/
  | panic
  /-- The call does not return. -/
  | diverges
  deriving DecidableEq, Repr

/-- The part of the pathfinder that the search loop writes: the allocated nodes,
`coordinateToNode` and `openList`. -/
structure SearchState (F Q : Type) where
  heap : List (Node F)
  coordinateToNode : List (GoString × Nat)
  openList : Q

/-- One of the four straight candidates of the loop body: appended when `guard`
holds, with cost `straightCost * getTileCost(parent + (dx, dy))`. -/
def straightCandidate (E : Env F Q) (p : Pathfinder F Q) (g : GridView)
    (heap : List (Node F)) (parent : Nat) (guard : Bool) (dx dy : Int) :
    Option (List (SearchNode F)) :=
  if guard then
    match getTileCost E p g ((nodeAt E heap parent).x + dx) ((nodeAt E heap parent).y + dy) with
    | some c => some [newSearchNode dx dy p.endX p.endY (E.f.mul E.f.straightCost c) parent]
    | none => none
  else some []

/-- The test `allowCornerCutting || (isTileWalkable(x, y+dy) && isTileWalkable(x+dx, y))`
of a diagonal candidate, evaluated left to right. -/
def cornerAllowed (p : Pathfinder F Q) (g : GridView) (x y dx dy : Int) : Option Bool :=
  if p.allowCornerCutting then some true
  else
    match isTileWalkable g p.acceptableTiles x (y + dy) with
    | some true => isTileWalkable g p.acceptableTiles (x + dx) y
    | some false => some false
    | none => none

/-- One of the four diagonal candidates of the loop body: appended when `guard` and the
corner test hold, with cost `diagonalCost * getTileCost(parent + (dx, dy))`. -/
def diagonalCandidate (E : Env F Q) (p : Pathfinder F Q) (g : GridView)
    (heap : List (Node F)) (parent : Nat) (guard : Bool) (dx dy : Int) :
    Option (List (SearchNode F)) :=
  if guard then
    match cornerAllowed p g (nodeAt E heap parent).x (nodeAt E heap parent).y dx dy with
    | some true =>
      match getTileCost E p g ((nodeAt E heap parent).x + dx) ((nodeAt E heap parent).y + dy) with
      | some c => some [newSearchNode dx dy p.endX p.endY (E.f.mul E.f.diagonalCost c) parent]
      | none => none
    | some false => some []
    | none => none
  else some []

/-- Appending the candidates of two steps, a panic in either being a panic. -/
def appendCandidates (a b : Option (List (SearchNode F))) : Option (List (SearchNode F)) :=
  match a, b with
  | some l, some r => some (l ++ r)
  | _, _ => none

/-- Source: `FindPath`, the candidates `sn` built for `parent` before `sort.Sort`:
up, right, down, left, then with diagonals enabled up-left, down-right, up-right,
down-left. -/
def candidates (E : Env F Q) (p : Pathfinder F Q) (g : GridView) (heap : List (Node F))
    (parent : Nat) : Option (List (SearchNode F)) :=
  let px := (nodeAt E heap parent).x
  let py := (nodeAt E heap parent).y
  let straight :=
    appendCandidates (straightCandidate E p g heap parent (decide (py > 0)) 0 (-1))
    (appendCandidates (straightCandidate E p g heap parent (decide (px < g.width - 1)) 1 0)
    (appendCandidates (straightCandidate E p g heap parent (decide (py < g.height - 1)) 0 1)
      (straightCandidate E p g heap parent (decide (px > 0)) (-1) 0)))
  if p.diagonalsEnabled then
    appendCandidates straight
    (appendCandidates
      (diagonalCandidate E p g heap parent (decide (px > 0 ∧ py > 0)) (-1) (-1))
    (appendCandidates
      (diagonalCandidate E p g heap parent
        (decide (px < g.width - 1 ∧ py < g.height - 1)) 1 1)
    (appendCandidates
      (diagonalCandidate E p g heap parent (decide (px < g.width - 1 ∧ py > 0)) 1 (-1))
      (diagonalCandidate E p g heap parent (decide (px > 0 ∧ py < g.height - 1)) (-1) 1))))
  else straight

/-- How the loop over the sorted candidates ends. -/
inductive Explored (F Q : Type) where
  /-- A candidate is the goal: the expanded node and the goal's coordinates. -/
  | found (parent : Nat) (x y : Int) (st : SearchState F Q)
  /-- All candidates were handled. -/
  | done (st : SearchState F Q)
  /-- A grid read panicked. -/
  | panic

/-- The relaxation of an existing node: `costSoFar` and `parent` are overwritten when
the way through the expanded node costs less. -/
def relax (E : Env F Q) (heap : List (Node F)) (existing : Nat) (s : SearchNode F) :
    List (Node F) :=
  let viaParent := E.f.add (nodeAt E heap s.parent).costSoFar s.cost
  if E.f.lt viaParent (nodeAt E heap existing).costSoFar then
    heap.set existing
      { nodeAt E heap existing with costSoFar := viaParent, parent := some s.parent }
  else heap

/-- The allocation, registration and push of a node for a new coordinate. -/
def register (E : Env F Q) (p : Pathfinder F Q) (st : SearchState F Q) (hashKey : GoString)
    (x y : Int) (s : SearchNode F) : SearchState F Q :=
  let n := newNode E st.heap x y p.endX p.endY (some s.parent) s.cost
  { heap := st.heap ++ [n]
    coordinateToNode := mapSet st.coordinateToNode hashKey st.heap.length
    openList := E.pq.push st.openList
      ⟨st.heap.length, E.f.toInt64 (E.f.mul (bestGuessDistance E n) E.f.costPrecision)⟩ }

/-- Source: `FindPath`, the loop `for i := 0; i < len(sn); i++` over the sorted
candidates. -/
def explore (E : Env F Q) (p : Pathfinder F Q) (g : GridView) :
    List (SearchNode F) → SearchState F Q → Explored F Q
  | [], st => Explored.done st
  | s :: rest, st =>
    let adjacentCoordinateX := (nodeAt E st.heap s.parent).x + s.x
    let adjacentCoordinateY := (nodeAt E st.heap s.parent).y + s.y
    let hashKey := getHashKeyForPoint adjacentCoordinateX adjacentCoordinateY
    match p.additionalPointsToAvoid.lookup hashKey with
    | some _ => explore E p g rest st
    | none =>
      if s.endX = adjacentCoordinateX ∧ s.endY = adjacentCoordinateY then
        Explored.found s.parent adjacentCoordinateX adjacentCoordinateY st
      else
        match isTileWalkable g p.acceptableTiles adjacentCoordinateX adjacentCoordinateY with
        | none => Explored.panic
        | some false => explore E p g rest st
        | some true =>
          match st.coordinateToNode.lookup hashKey with
          | some existingNode =>
            explore E p g rest { st with heap := relax E st.heap existingNode s }
          | none =>
            explore E p g rest
              (register E p st hashKey adjacentCoordinateX adjacentCoordinateY s)

/-- How the search loop ends. -/
inductive Searched (F Q : Type) where
  /-- A candidate was the goal. -/
  | found (parent : Nat) (x y : Int) (st : SearchState F Q)
  /-- The open list was empty: `path not found`. -/
  | exhausted (st : SearchState F Q)
  /-- A panic. -/
  | panic (st : SearchState F Q)
  /-- The iteration bound was used up. -/
  | outOfFuel (st : SearchState F Q)

/-- Source: `FindPath`, the loop `for { ... }`, run for at most `fuel` iterations. -/
def searchLoop (E : Env F Q) (p : Pathfinder F Q) (g : GridView) :
    Nat → SearchState F Q → Searched F Q
  | 0, st => Searched.outOfFuel st
  | fuel + 1, st =>
    if E.pq.len st.openList = 0 then Searched.exhausted st
    else
      match E.pq.peekAndShift st.openList maxInt64 with
      | (none, q) => Searched.panic { st with openList := q }
      | (some item, q) =>
        match candidates E p g st.heap item.value with
        | none => Searched.panic { st with openList := q }
        | some sn =>
          match explore E p g (E.sort (searchNodesLess E st.heap) sn)
              { st with openList := q } with
          | Explored.found parent x y st1 => Searched.found parent x y st1
          | Explored.panic => Searched.panic { st with openList := q }
          | Explored.done st1 => searchLoop E p g fuel st1

/-- Source: `FindPath`, the loop `for { parent = parent.parent; ... }` that appends
the ancestors of the expanded node; `none` when `fuel` links do not reach a node
without a parent. -/
def parentWalk (E : Env F Q) (heap : List (Node F)) : Nat → Nat → Option (List Point)
  | 0, _ => none
  | fuel + 1, i =>
    match (nodeAt E heap i).parent with
    | none => some []
    | some q =>
      match parentWalk E heap fuel q with
      | some l => some (⟨(nodeAt E heap q).x, (nodeAt E heap q).y⟩ :: l)
      | none => none

/-- Source: `FindPath`, the path built when a candidate is the goal: the goal, the
expanded node and its ancestors, reversed.  A walk that meets more nodes than were
allocated is in a cycle of parent links and does not end. -/
def buildPath (E : Env F Q) (heap : List (Node F)) (parent : Nat) (x y : Int) : Outcome :=
  match parentWalk E heap heap.length parent with
  | some l =>
    Outcome.route
      ((⟨x, y⟩ :: ⟨(nodeAt E heap parent).x, (nodeAt E heap parent).y⟩ :: l).reverse)
  | none => Outcome.diverges

/-- The pathfinder as the search loop left it. -/
def withSearch (p : Pathfinder F Q) (st : SearchState F Q) : Pathfinder F Q :=
  { p with heap := st.heap, coordinateToNode := st.coordinateToNode, openList := st.openList }

/-- The state in which `FindPath` enters its loop: the start node allocated,
registered and pushed. -/
def initialState (E : Env F Q) (p : Pathfinder F Q) (g : GridView) (startX startY : Int) :
    SearchState F Q :=
  let n := newNode E [] p.startX p.startY p.endX p.endY none E.f.straightCost
  { heap := [n]
    coordinateToNode := mapSet [] (getHashKeyForPoint startX startY) 0
    openList := E.pq.push (E.pq.new (g.width * g.height).toNat)
      ⟨0, E.f.toInt64 (E.f.mul (bestGuessDistance E n) E.f.costPrecision)⟩ }

/-- The number of iterations after which the search loop has ended (see
`searchLoop_ends`): each iteration takes one item off the open list, and an item is
pushed for a new key only. -/
def loopBound (g : GridView) : Nat :=
  (g.width * g.height).toNat + 1

/-- Source: `FindPath`, from the assignment of `p.startX` on. -/
def search (E : Env F Q) (p : Pathfinder F Q) (g : GridView) (startX startY endX endY : Int) :
    Outcome × Pathfinder F Q :=
  let p1 := { p with startX := startX, startY := startY, endX := endX, endY := endY }
  match searchLoop E p1 g (loopBound g) (initialState E p1 g startX startY) with
  | Searched.found parent x y st => (buildPath E st.heap parent x y, withSearch p1 st)
  | Searched.exhausted st => (Outcome.error "path not found", withSearch p1 st)
  | Searched.panic st => (Outcome.panic, withSearch p1 st)
  | Searched.outOfFuel st => (Outcome.diverges, withSearch p1 st)

/-- Source: `FindPath`, from the test of the upper bounds on, with `g` the reads of
`p.collisionGrid`. -/
def findPathOn (E : Env F Q) (p : Pathfinder F Q) (g : GridView)
    (startX startY endX endY : Int) : Outcome × Pathfinder F Q :=
  if startX > g.width - 1 ∨ startY > g.height - 1 ∨
      endX > g.width - 1 ∨ endY > g.height - 1 then
    (Outcome.error "You can't find a path without first calling SetGrid()", p)
  else if startX = endX ∧ startY = endY then
    (Outcome.route [], p)
  else
    match g.tileAt endX endY with
    | none => (Outcome.panic, p)
    | some endTile =>
      if p.acceptableTiles.contains endTile then
        search E p g startX startY endX endY
      else (Outcome.route [], p)

/-- Source: `FindPath`.  The result and the pathfinder after the call.  The read
`p.collisionGrid[0]` of a grid without rows panics. -/
def FindPath (E : Env F Q) (p : Pathfinder F Q) (startX startY endX endY : Int) :
    Outcome × Pathfinder F Q :=
  if p.acceptableTiles.length = 0 then
    (Outcome.error "You can't find a path without first calling SetAcceptableTiles()", p)
  else
    match p.collisionGrid with
    | none => (Outcome.error "You can't find a path without first calling SetGrid()", p)
    | some grid =>
      if startX < 0 ∨ startY < 0 ∨ endX < 0 ∨ endX < 0 then
        (Outcome.error "You can't find a path without first calling SetGrid()", p)
      else
        match grid with
        | [] => (Outcome.panic, p)
        | _ :: _ => findPathOn E p (gridView grid) startX startY endX endY

end Program

/-! ## A concrete environment

`F64` is IEEE 754 binary64 with round-to-nearest-even; `goQueue` is the slice-backed
queue of the `pqueue` package over `container/heap`; `insertionSort` is what
`sort.Sort` does on a slice of at most twelve elements. -/

/-- A binary64 value: not-a-number, an infinity, or `(-1)^neg * m * 2^e`. -/
inductive F64 where
  | nan
  | inf (neg : Bool)
  | fin (neg : Bool) (m : Nat) (e : Int)
  deriving DecidableEq, Repr

namespace F64

/-- The number of binary digits of `m`, for `m` below `2^fuel`. -/
def bitLen : Nat → Nat → Nat
  | 0, _ => 0
  | fuel + 1, m => if m = 0 then 0 else bitLen fuel (m / 2) + 1

/-- Rounding of the exact value `(-1)^neg * m * 2^e` to binary64, ties to even;
values below the subnormal range round to zero and values from `2^1024` on to an
infinity. -/
def round (neg : Bool) (m : Nat) (e : Int) : F64 :=
  if m = 0 then fin false 0 0
  else
    let bits : Int := bitLen (m + 1) m
    let e1 : Int := max (e + bits - 53) (-1074)
    if e1 ≤ e then
      if e + bits > 1024 then inf neg else fin neg m e
    else
      let sh := (e1 - e).toNat
      let q := m / 2 ^ sh
      let r := m % 2 ^ sh
      let half := 2 ^ (sh - 1)
      let q1 := if r > half ∨ (r = half ∧ q % 2 = 1) then q + 1 else q
      if q1 = 0 then fin false 0 0
      else if e1 + (bitLen (q1 + 1) q1 : Int) > 1024 then inf neg
      else fin neg q1 e1

/-- The integer `(-1)^neg * m * 2^(e - e0)`, for `e0 ≤ e`. -/
def scaled (neg : Bool) (m : Nat) (e e0 : Int) : Int :=
  (if neg then -1 else 1) * ((m * 2 ^ (e - e0).toNat : Nat) : Int)

/-- Addition. -/
def add : F64 → F64 → F64
  | nan, _ => nan
  | _, nan => nan
  | inf a, inf b => if a = b then inf a else nan
  | inf a, fin _ _ _ => inf a
  | fin _ _ _, inf b => inf b
  | fin n1 m1 e1, fin n2 m2 e2 =>
    let e := min e1 e2
    let s := scaled n1 m1 e1 e + scaled n2 m2 e2 e
    round (decide (s < 0)) s.natAbs e

/-- Multiplication. -/
def mul : F64 → F64 → F64
  | nan, _ => nan
  | _, nan => nan
  | inf a, inf b => inf (xor a b)
  | inf a, fin n m _ => if m = 0 then nan else inf (xor a n)
  | fin n m _, inf b => if m = 0 then nan else inf (xor n b)
  | fin n1 m1 e1, fin n2 m2 e2 => round (xor n1 n2) (m1 * m2) (e1 + e2)

/-- Newton's iteration for the integer square root, from a start above the root. -/
def isqrtLoop (n : Nat) : Nat → Nat → Nat
  | 0, x => x
  | fuel + 1, x =>
    let y := (x + n / x) / 2
    if y < x then isqrtLoop n fuel y else x

/-- The integer square root. -/
def isqrt (n : Nat) : Nat :=
  if n = 0 then 0 else isqrtLoop n (bitLen (n + 1) n + 8) (2 ^ ((bitLen (n + 1) n + 1) / 2))

/-- Square root, correctly rounded: the root of the mantissa scaled to at least 110
bits, with one more bit that records an inexact root. -/
def sqrt : F64 → F64
  | nan => nan
  | inf neg => if neg then nan else inf false
  | fin neg m e =>
    if m = 0 then fin false 0 0
    else if neg then nan
    else
      let k0 : Int := max 0 (110 - (bitLen (m + 1) m : Int))
      let k : Int := if (e - k0) % 2 = 0 then k0 else k0 + 1
      let m1 := m * 2 ^ k.toNat
      let s := isqrt m1
      round false (2 * s + (if s * s = m1 then 0 else 1)) ((e - k) / 2 - 1)

/-- The comparison `a < b`. -/
def lt : F64 → F64 → Bool
  | nan, _ => false
  | _, nan => false
  | inf a, inf b => a && !b
  | inf a, fin _ _ _ => a
  | fin _ _ _, inf b => !b
  | fin n1 m1 e1, fin n2 m2 e2 =>
    let e := min e1 e2
    decide (scaled n1 m1 e1 e < scaled n2 m2 e2 e)

/-- The conversion `float64(i)`. -/
def ofInt (i : Int) : F64 :=
  round (decide (i < 0)) i.natAbs 0

/-- An integer in the range of `int64`, and the smallest `int64` for any other. -/
def clampInt64 (t : Int) : Int :=
  if -9223372036854775808 ≤ t ∧ t ≤ maxInt64 then t else -9223372036854775808

/-- The conversion `int64(f)`: truncation toward zero; a value outside the range of
`int64` converts to the smallest `int64`, as on amd64. -/
def toInt64 : F64 → Int
  | nan => -9223372036854775808
  | inf _ => -9223372036854775808
  | fin neg m e =>
    clampInt64 ((if neg then -1 else 1) *
      ((if 0 ≤ e then m * 2 ^ e.toNat else m / 2 ^ (-e).toNat : Nat) : Int))

theorem clampInt64_le (t : Int) : clampInt64 t ≤ maxInt64 := by
  unfold clampInt64
  split_ifs with h
  · exact h.2
  · simp [maxInt64]

end F64

/-- The `float64` operations on `F64`; `1.4` is the binary64 nearest to it,
`6305039478318694 * 2^-52`. -/
def ieee : Float64Ops F64 where
  ofInt := F64.ofInt
  add := F64.add
  mul := F64.mul
  lt := F64.lt
  sqrt := F64.sqrt
  toInt64 := F64.toInt64
  zero := F64.fin false 0 0
  straightCost := F64.fin false 1 0
  diagonalCost := F64.fin false 6305039478318694 (-52)
  costPrecision := F64.fin false 100 0
  toInt64_le := by
    intro f
    cases f with
    | nan => simp [F64.toInt64, maxInt64]
    | inf _ => simp [F64.toInt64, maxInt64]
    | fin neg m e => exact F64.clampInt64_le _

/-- The exchange of the elements at `i` and `j`, `Swap(i, j)` of the queue. -/
def swapAt (a : List Item) (i j : Nat) : List Item :=
  (a.set i (a.getD j ⟨0, 0⟩)).set j (a.getD i ⟨0, 0⟩)

/-- The function `down(h, i, n)` of `container/heap`, with `Less(j, i)` the comparison
of priorities: the element at `i` sinks below the smaller of its children among the
first `n` elements. -/
def heapDown (n : Nat) : Nat → List Item → Nat → List Item
  | 0, a, _ => a
  | fuel + 1, a, i =>
    let j1 := 2 * i + 1
    if j1 ≥ n then a
    else
      let j := if j1 + 1 < n ∧ (a.getD (j1 + 1) ⟨0, 0⟩).priority < (a.getD j1 ⟨0, 0⟩).priority
        then j1 + 1 else j1
      if (a.getD j ⟨0, 0⟩).priority < (a.getD i ⟨0, 0⟩).priority then
        heapDown n fuel (swapAt a i j) j
      else a

/-- The call `heap.Remove(pq, 0)`: the first and last elements are exchanged, the new
first element sinks among the others (`up(h, 0)` does nothing), and `Pop` takes the
last element off. -/
def heapRemove0 (a : List Item) : List Item :=
  let n := a.length - 1
  if n ≠ 0 then (heapDown n n (swapAt a 0 n) 0).take n else a.take n

/-- The queue of the `pqueue` package on a slice: `Push` appends the item without
restoring the heap order, `PeekAndShift(max)` returns the first item, unless its
priority is above `max`, and removes it with `heap.Remove(pq, 0)`. -/
def goQueuePeekAndShift (q : List Item) (max : Int) : Option Item × List Item :=
  match q with
  | [] => (none, q)
  | item :: _ => if item.priority > max then (none, q) else (some item, heapRemove0 q)

theorem swapAt_length (a : List Item) (i j : Nat) : (swapAt a i j).length = a.length := by
  simp [swapAt]

theorem swapAt_perm (a : List Item) (i j : Nat) (hi : i < a.length) (hj : j < a.length) :
    (swapAt a i j).Perm a := by
  rw [List.perm_iff_count]
  intro x
  unfold swapAt
  rw [List.count_set _ _ _ _ (by simpa using hj), List.count_set _ _ _ _ hi]
  simp only [List.getD_eq_getElem?_getD, List.getElem?_eq_getElem hi,
    List.getElem?_eq_getElem hj, Option.getD_some, List.getElem_set]
  have h1 : a[i] = x → 0 < List.count x a :=
    fun h => List.count_pos_iff.mpr (h ▸ List.getElem_mem hi)
  have h2 : a[j] = x → 0 < List.count x a :=
    fun h => List.count_pos_iff.mpr (h ▸ List.getElem_mem hj)
  by_cases hij : i = j
  · subst hij
    simp only [if_true, beq_iff_eq]
    split_ifs with h
    · have := h1 h; omega
    · omega
  · simp only [hij, if_false, beq_iff_eq]
    by_cases h3 : a[i] = x <;> by_cases h4 : a[j] = x <;>
      simp only [h3, h4, if_true, if_false] <;>
      (try have := h1 h3) <;> (try have := h2 h4) <;> omega

theorem swapAt_getD_of_ne (a : List Item) (i j k : Nat) (hi : i ≠ k) (hj : j ≠ k) (d : Item) :
    (swapAt a i j).getD k d = a.getD k d := by
  simp [swapAt, List.getD_eq_getElem?_getD, List.getElem?_set, hi, hj]

theorem heapDown_length (n fuel : Nat) (a : List Item) (i : Nat) :
    (heapDown n fuel a i).length = a.length := by
  induction fuel generalizing a i with
  | zero => rfl
  | succ fuel ih =>
    simp only [heapDown]
    split_ifs <;> simp [ih, swapAt_length]

theorem heapDown_perm (n fuel : Nat) (a : List Item) (i : Nat) (hn : n ≤ a.length) :
    (heapDown n fuel a i).Perm a := by
  induction fuel generalizing a i with
  | zero => exact List.Perm.refl _
  | succ fuel ih =>
    simp only [heapDown]
    split_ifs with h1 h2 h3 h4
    · exact List.Perm.refl _
    · exact (ih _ _ (by rw [swapAt_length]; exact hn)).trans
        (swapAt_perm _ _ _ (by omega) (by omega))
    · exact List.Perm.refl _
    · exact (ih _ _ (by rw [swapAt_length]; exact hn)).trans
        (swapAt_perm _ _ _ (by omega) (by omega))
    · exact List.Perm.refl _

theorem heapDown_getD_of_le (n fuel : Nat) (a : List Item) (i k : Nat) (hk : n ≤ k) (d : Item) :
    (heapDown n fuel a i).getD k d = a.getD k d := by
  induction fuel generalizing a i with
  | zero => rfl
  | succ fuel ih =>
    simp only [heapDown]
    split_ifs with h1 h2 h3 h4
    · rfl
    · rw [ih, swapAt_getD_of_ne] <;> omega
    · rfl
    · rw [ih, swapAt_getD_of_ne] <;> omega
    · rfl

theorem take_append_getD (a : List Item) (n : Nat) (h : n + 1 = a.length) (d : Item) :
    a.take n ++ [a.getD n d] = a := by
  have hn : n < a.length := by omega
  rw [List.getD_eq_getElem?_getD, List.getElem?_eq_getElem hn, Option.getD_some]
  have := List.take_append_drop n a
  conv_rhs => rw [← this]
  congr 1
  rw [List.drop_eq_getElem_cons hn, List.drop_of_length_le (by omega)]

theorem heapRemove0_perm (item : Item) (rest : List Item) :
    (item :: rest).Perm (item :: heapRemove0 (item :: rest)) := by
  unfold heapRemove0
  simp only [List.length_cons, Nat.add_sub_cancel]
  split_ifs with h
  · have hlen : rest.length < (item :: rest).length := by simp
    have hs := swapAt_perm (item :: rest) 0 rest.length (by simp) hlen
    have hd := heapDown_perm rest.length rest.length (swapAt (item :: rest) 0 rest.length) 0
      (by rw [swapAt_length]; simp)
    have hl : (heapDown rest.length rest.length (swapAt (item :: rest) 0 rest.length) 0).getD
        rest.length ⟨0, 0⟩ = item := by
      rw [heapDown_getD_of_le _ _ _ _ _ (le_refl _)]
      have hpos : 0 < rest.length := Nat.pos_of_ne_zero h
      simp [swapAt, List.getD_eq_getElem?_getD, List.getElem?_set, hpos.ne]
    have ht := take_append_getD
      (heapDown rest.length rest.length (swapAt (item :: rest) 0 rest.length) 0) rest.length
      (by rw [heapDown_length, swapAt_length]; simp) ⟨0, 0⟩
    rw [hl] at ht
    calc (item :: rest).Perm (swapAt (item :: rest) 0 rest.length) := hs.symm
      _ |>.Perm (heapDown rest.length rest.length (swapAt (item :: rest) 0 rest.length) 0) := hd.symm
      _ = _ := ht.symm
      _ |>.Perm _ := List.perm_append_comm
  · have : rest = [] := by
      cases rest with
      | nil => rfl
      | cons _ _ => simp at h
    subst this
    simp

/-- The slice-backed queue of the `pqueue` package. -/
def goQueue : PQueueOps (List Item) where
  new := fun _ => []
  push := fun q it => q ++ [it]
  len := List.length
  peekAndShift := goQueuePeekAndShift
  items := id
  items_new := fun _ => rfl
  items_push := fun _ _ => List.perm_append_comm
  len_eq := fun _ => rfl
  peek_some := by
    intro q max hq hmax
    cases q with
    | nil => exact absurd rfl hq
    | cons item rest =>
      have : ¬ item.priority > max := not_lt.mpr (hmax item (by simp))
      refine ⟨item, ?_, ?_⟩
      · simp [goQueuePeekAndShift, this]
      · simp only [goQueuePeekAndShift, this, if_false, id]
        exact heapRemove0_perm item rest

/-- The step of insertion sort on the reversed sorted part: `x` moves left past the
elements it is less than. -/
def insertRev {α : Type} (less : α → α → Bool) (x : α) : List α → List α
  | [] => [x]
  | e :: r => if less x e then e :: insertRev less x r else x :: e :: r

/-- The function `insertionSort` of package `sort`, which `sort.Sort` runs on a slice
of at most twelve elements. -/
def insertionSort {α : Type} (less : α → α → Bool) (l : List α) : List α :=
  (l.foldl (fun acc x => insertRev less x acc) []).reverse

theorem insertRev_perm {α : Type} (less : α → α → Bool) (x : α) (l : List α) :
    (insertRev less x l).Perm (x :: l) := by
  induction l with
  | nil => exact List.Perm.refl _
  | cons e r ih =>
    simp only [insertRev]
    split_ifs
    · exact (ih.cons e).trans (List.Perm.swap x e r)
    · exact List.Perm.refl _

theorem foldl_insertRev_perm {α : Type} (less : α → α → Bool) (l acc : List α) :
    (l.foldl (fun acc x => insertRev less x acc) acc).Perm (l ++ acc) := by
  induction l generalizing acc with
  | nil => exact List.Perm.refl _
  | cons x r ih =>
    simp only [List.foldl_cons, List.cons_append]
    exact (ih _).trans (((insertRev_perm less x acc).append_left r).trans List.perm_middle)

theorem insertionSort_perm {α : Type} (less : α → α → Bool) (l : List α) :
    (insertionSort less l).Perm l := by
  unfold insertionSort
  exact (List.reverse_perm _).trans (by simpa using foldl_insertRev_perm less l [])

/-- The environment of a Go program on amd64: binary64 arithmetic, the slice-backed
queue and insertion sort. -/
def goEnv : Env F64 (List Item) where
  f := ieee
  pq := goQueue
  sort := insertionSort
  sort_perm := insertionSort_perm

end Goeasystar

/-! ## Preconditions -/

namespace Goeasystar

section Basics

variable {F Q : Type}

/-- A non-empty rectangular grid: `H` rows of `W` tiles each, with `0 < W` and `0 < H`. -/
def Rectangular (grid : List (List Int)) (W H : Nat) : Prop :=
  grid.length = H ∧ 0 < H ∧ 0 < W ∧ ∀ row ∈ grid, row.length = W

instance (grid : List (List Int)) (W H : Nat) : Decidable (Rectangular grid W H) := by
  unfold Rectangular
  infer_instance

/-- The coordinate `(x, y)` lies in `[0, W) × [0, H)`. -/
def InBounds (W H : Nat) (x y : Int) : Prop :=
  0 ≤ x ∧ x < W ∧ 0 ≤ y ∧ y < H

instance (W H : Nat) (x y : Int) : Decidable (InBounds W H x y) := by
  unfold InBounds
  infer_instance

theorem gridView_width {grid : List (List Int)} {W H : Nat} (h : Rectangular grid W H) :
    (gridView grid).width = W := by
  obtain ⟨h1, h2, _, h4⟩ := h
  cases grid with
  | nil => simp at h1; omega
  | cons row rest =>
    simp only [gridView, List.headD_cons]
    rw [h4 row (List.mem_cons_self _ _)]

theorem gridView_height {grid : List (List Int)} {W H : Nat} (h : Rectangular grid W H) :
    (gridView grid).height = H := by
  simp only [gridView, h.1]

theorem gridAt_isSome {grid : List (List Int)} {W H : Nat} (h : Rectangular grid W H)
    {x y : Int} (hb : InBounds W H x y) : ∃ t, gridAt grid x y = some t := by
  obtain ⟨h1, _, _, h4⟩ := h
  obtain ⟨hx0, hx1, hy0, hy1⟩ := hb
  unfold gridAt
  rw [if_pos ⟨hy0, hx0⟩]
  have hy : y.toNat < grid.length := by omega
  rw [List.get?_eq_getElem?, List.getElem?_eq_getElem hy]
  simp only []
  have hrow : (grid[y.toNat]).length = W := h4 _ (List.getElem_mem hy)
  have hx : x.toNat < (grid[y.toNat]).length := by omega
  rw [List.get?_eq_getElem?, List.getElem?_eq_getElem hx]
  exact ⟨_, rfl⟩

theorem gridAt_eq_none_of_neg (grid : List (List Int)) (x y : Int) (h : y < 0) :
    gridAt grid x y = none := by
  unfold gridAt
  rw [if_neg (by omega)]

/-- After the tests of the acceptable tiles, of the grid and of the lower bounds,
`FindPath` continues with the reads of a grid that has a first row. -/
theorem FindPath_eq_findPathOn (E : Env F Q) (p : Pathfinder F Q)
    (row0 : List Int) (rest : List (List Int)) {sx sy ex ey : Int}
    (ht : p.acceptableTiles ≠ []) (hg : p.collisionGrid = some (row0 :: rest))
    (h1 : 0 ≤ sx) (h2 : 0 ≤ sy) (h3 : 0 ≤ ex) :
    FindPath E p sx sy ex ey = findPathOn E p (gridView (row0 :: rest)) sx sy ex ey := by
  unfold FindPath
  have : ¬ p.acceptableTiles.length = 0 := by
    intro h; exact ht (List.length_eq_zero.mp h)
  rw [if_neg this, hg]
  simp only []
  rw [if_neg (by omega)]

theorem FindPath_of_rectangular (E : Env F Q) (p : Pathfinder F Q)
    {grid : List (List Int)} {W H : Nat} {sx sy ex ey : Int}
    (ht : p.acceptableTiles ≠ []) (hg : p.collisionGrid = some grid)
    (hr : Rectangular grid W H) (h1 : 0 ≤ sx) (h2 : 0 ≤ sy) (h3 : 0 ≤ ex) :
    FindPath E p sx sy ex ey = findPathOn E p (gridView grid) sx sy ex ey := by
  cases grid with
  | nil => obtain ⟨h1, h2, _⟩ := hr; simp at h1; omega
  | cons row0 rest => exact FindPath_eq_findPathOn E p row0 rest ht hg h1 h2 h3

end Basics

/-! ## Same start and goal, and coordinates out of bounds -/

section Trivial

variable {F Q : Type}

/-- C10. With acceptable tiles set and a non-empty rectangular grid, `FindPath(x, y, x, y)`
for an in-bounds `(x, y)` returns the empty route and no error, whatever the tile at
`(x, y)`, and leaves the pathfinder as it was. -/
theorem FindPath_same_tile (E : Env F Q) (p : Pathfinder F Q) (grid : List (List Int))
    (W H : Nat) (x y : Int) (ht : p.acceptableTiles ≠ []) (hg : p.collisionGrid = some grid)
    (hr : Rectangular grid W H) (hb : InBounds W H x y) :
    FindPath E p x y x y = (Outcome.route [], p) := by
  obtain ⟨hx0, hx1, hy0, hy1⟩ := hb
  rw [FindPath_of_rectangular E p ht hg hr hx0 hy0 hx0]
  unfold findPathOn
  rw [gridView_width hr, gridView_height hr, if_neg (by omega), if_pos ⟨rfl, rfl⟩]

/-- C8. On the one-tile grid `[[1]]` the call `FindPath(0, 0, 0, -1)`, whose `endY` is
negative, passes the bounds test (which tests `endX < 0` twice and never `endY < 0`)
and panics at the read `p.collisionGrid[-1][0]`; it does not return an error. -/
theorem FindPath_negative_endY_panics (E : Env F Q) :
    (FindPath E (SetAcceptableTiles (SetGrid (NewPathfinder E) (some [[1]])) [1])
      0 0 0 (-1)).1 = Outcome.panic := by
  rw [FindPath_eq_findPathOn E _ [1] [] (by simp [SetAcceptableTiles]) rfl
    (le_refl _) (le_refl _) (le_refl _)]
  simp [findPathOn, gridView, gridAt]

end Trivial

end Goeasystar

/-! ## The heap of nodes -/

namespace Goeasystar

section Heap

variable {F Q : Type}

theorem nodeAt_of_lt (E : Env F Q) (heap : List (Node F)) (i : Nat) (h : i < heap.length) :
    heap[i]? = some (nodeAt E heap i) := by
  simp [nodeAt, List.getD_eq_getElem?_getD, List.getElem?_eq_getElem h]

theorem nodeAt_set (E : Env F Q) (heap : List (Node F)) (e i : Nat) (n : Node F) :
    nodeAt E (heap.set e n) i = if i = e ∧ e < heap.length then n else nodeAt E heap i := by
  unfold nodeAt
  rw [List.getD_eq_getElem?_getD, List.getD_eq_getElem?_getD, List.getElem?_set]
  by_cases h : e = i
  · subst h
    by_cases h2 : e < heap.length
    · simp [h2]
    · simp [h2, List.getElem?_eq_none (not_lt.mp h2)]
  · have : ¬ (i = e ∧ e < heap.length) := fun hh => h hh.1.symm
    simp [h, this]

theorem nodeAt_append_of_lt (E : Env F Q) (heap : List (Node F)) (n : Node F) (i : Nat)
    (h : i < heap.length) : nodeAt E (heap ++ [n]) i = nodeAt E heap i := by
  unfold nodeAt
  rw [List.getD_eq_getElem?_getD, List.getD_eq_getElem?_getD, List.getElem?_append_left h]

theorem nodeAt_append_length (E : Env F Q) (heap : List (Node F)) (n : Node F) :
    nodeAt E (heap ++ [n]) heap.length = n := by
  unfold nodeAt
  rw [List.getD_eq_getElem?_getD, List.getElem?_append_right (le_refl _)]
  simp

theorem relax_length (E : Env F Q) (heap : List (Node F)) (e : Nat) (s : SearchNode F) :
    (relax E heap e s).length = heap.length := by
  unfold relax
  simp only []
  split_ifs <;> simp

theorem relax_x (E : Env F Q) (heap : List (Node F)) (e : Nat) (s : SearchNode F) (i : Nat) :
    (nodeAt E (relax E heap e s) i).x = (nodeAt E heap i).x := by
  unfold relax
  simp only []
  split_ifs
  · rw [nodeAt_set]
    split_ifs with h
    · rw [h.1]
    · rfl
  · rfl

theorem relax_y (E : Env F Q) (heap : List (Node F)) (e : Nat) (s : SearchNode F) (i : Nat) :
    (nodeAt E (relax E heap e s) i).y = (nodeAt E heap i).y := by
  unfold relax
  simp only []
  split_ifs
  · rw [nodeAt_set]
    split_ifs with h
    · rw [h.1]
    · rfl
  · rfl

theorem relax_parent (E : Env F Q) (heap : List (Node F)) (e : Nat) (s : SearchNode F)
    (i : Nat) :
    (nodeAt E (relax E heap e s) i).parent = (nodeAt E heap i).parent ∨
      (i = e ∧ e < heap.length ∧ (nodeAt E (relax E heap e s) i).parent = some s.parent ∧
        E.f.lt (E.f.add (nodeAt E heap s.parent).costSoFar s.cost)
          (nodeAt E heap e).costSoFar = true) := by
  unfold relax
  simp only []
  split_ifs with hlt
  · rw [nodeAt_set]
    split_ifs with h
    · exact Or.inr ⟨h.1, h.2, rfl, hlt⟩
    · exact Or.inl rfl
  · exact Or.inl rfl

end Heap

/-! ## Induction over the two loops -/

section Loops

variable {F Q : Type}

/-- The coordinate `adjacentCoordinateX` of a candidate. -/
def adjX (E : Env F Q) (st : SearchState F Q) (s : SearchNode F) : Int :=
  (nodeAt E st.heap s.parent).x + s.x

/-- The coordinate `adjacentCoordinateY` of a candidate. -/
def adjY (E : Env F Q) (st : SearchState F Q) (s : SearchNode F) : Int :=
  (nodeAt E st.heap s.parent).y + s.y

/-- The key `hashKey` of a candidate. -/
def adjKey (E : Env F Q) (st : SearchState F Q) (s : SearchNode F) : GoString :=
  getHashKeyForPoint (adjX E st s) (adjY E st s)

/-- Induction over the loop on the candidates: a property `J` of the state that the
relaxation and the registration of a candidate keep holds when the loop is done, and
when the loop meets the goal the property `R` that follows from `J` there holds. -/
theorem explore_induction (E : Env F Q) (p : Pathfinder F Q) (g : GridView)
    (J : SearchState F Q → Prop) (P : SearchNode F → Prop)
    (R : Nat → Int → Int → SearchState F Q → Prop) (Rp : Prop)
    (hrelax : ∀ st s e, J st → P s →
      p.additionalPointsToAvoid.lookup (adjKey E st s) = none →
      ¬ (s.endX = adjX E st s ∧ s.endY = adjY E st s) →
      isTileWalkable g p.acceptableTiles (adjX E st s) (adjY E st s) = some true →
      st.coordinateToNode.lookup (adjKey E st s) = some e →
      J { st with heap := relax E st.heap e s })
    (hreg : ∀ st s, J st → P s →
      p.additionalPointsToAvoid.lookup (adjKey E st s) = none →
      ¬ (s.endX = adjX E st s ∧ s.endY = adjY E st s) →
      isTileWalkable g p.acceptableTiles (adjX E st s) (adjY E st s) = some true →
      st.coordinateToNode.lookup (adjKey E st s) = none →
      J (register E p st (adjKey E st s) (adjX E st s) (adjY E st s) s))
    (hfound : ∀ st s, J st → P s →
      p.additionalPointsToAvoid.lookup (adjKey E st s) = none →
      (s.endX = adjX E st s ∧ s.endY = adjY E st s) →
      R s.parent (adjX E st s) (adjY E st s) st)
    (hpanic : ∀ st s, J st → P s →
      p.additionalPointsToAvoid.lookup (adjKey E st s) = none →
      ¬ (s.endX = adjX E st s ∧ s.endY = adjY E st s) →
      isTileWalkable g p.acceptableTiles (adjX E st s) (adjY E st s) = none → Rp) :
    ∀ (l : List (SearchNode F)) (st : SearchState F Q), (∀ s ∈ l, P s) → J st →
      match explore E p g l st with
      | Explored.found par x y st1 => R par x y st1
      | Explored.done st1 => J st1
      | Explored.panic => Rp := by
  intro l
  induction l with
  | nil => intro st _ hJ; simpa [explore] using hJ
  | cons s rest ih =>
    intro st hP hJ
    have hs : P s := hP s (List.mem_cons_self _ _)
    have hrest : ∀ t ∈ rest, P t := fun t ht => hP t (List.mem_cons_of_mem _ ht)
    unfold explore
    simp only []
    cases hav : p.additionalPointsToAvoid.lookup
        (getHashKeyForPoint ((nodeAt E st.heap s.parent).x + s.x)
          ((nodeAt E st.heap s.parent).y + s.y)) with
    | some b => exact ih st hrest hJ
    | none =>
      simp only []
      by_cases hgoal : s.endX = (nodeAt E st.heap s.parent).x + s.x ∧
          s.endY = (nodeAt E st.heap s.parent).y + s.y
      · rw [if_pos hgoal]
        exact hfound st s hJ hs hav hgoal
      · rw [if_neg hgoal]
        cases hw : isTileWalkable g p.acceptableTiles
            ((nodeAt E st.heap s.parent).x + s.x) ((nodeAt E st.heap s.parent).y + s.y) with
        | none => exact hpanic st s hJ hs hav hgoal hw
        | some b =>
          cases b with
          | false => exact ih st hrest hJ
          | true =>
            simp only []
            cases hl : st.coordinateToNode.lookup
                (getHashKeyForPoint ((nodeAt E st.heap s.parent).x + s.x)
                  ((nodeAt E st.heap s.parent).y + s.y)) with
            | some e => exact ih _ hrest (hrelax st s e hJ hs hav hgoal hw hl)
            | none => exact ih _ hrest (hreg st s hJ hs hav hgoal hw hl)

/-- Induction over the search loop: from a property `I` of the state at the head of
the loop, kept by an iteration, to what holds of each way the loop ends.  `I` and `J`
may depend on the iterations left. -/
theorem searchLoop_induction (E : Env F Q) (p : Pathfinder F Q) (g : GridView)
    (I : Nat → SearchState F Q → Prop)
    (J : Nat → SearchState F Q → Item → SearchState F Q → Prop)
    (P : SearchState F Q → Item → SearchNode F → Prop)
    (R : Nat → Int → Int → SearchState F Q → Prop) (Rx : SearchState F Q → Prop) (Rp : Prop)
    (hpeek : ∀ fuel st, I (fuel + 1) st → E.pq.len st.openList ≠ 0 →
      (E.pq.peekAndShift st.openList maxInt64).1 = none → Rp)
    (hcand : ∀ fuel st item, I (fuel + 1) st → E.pq.len st.openList ≠ 0 →
      (E.pq.peekAndShift st.openList maxInt64).1 = some item →
      candidates E p g st.heap item.value = none → Rp)
    (hpop : ∀ fuel st item sn, I (fuel + 1) st → E.pq.len st.openList ≠ 0 →
      (E.pq.peekAndShift st.openList maxInt64).1 = some item →
      candidates E p g st.heap item.value = some sn →
      J fuel st item { st with openList := (E.pq.peekAndShift st.openList maxInt64).2 } ∧
        ∀ s ∈ sn, P st item s)
    (hrelax : ∀ fuel st0 item st s e, J fuel st0 item st → P st0 item s →
      p.additionalPointsToAvoid.lookup (adjKey E st s) = none →
      ¬ (s.endX = adjX E st s ∧ s.endY = adjY E st s) →
      isTileWalkable g p.acceptableTiles (adjX E st s) (adjY E st s) = some true →
      st.coordinateToNode.lookup (adjKey E st s) = some e →
      J fuel st0 item { st with heap := relax E st.heap e s })
    (hreg : ∀ fuel st0 item st s, J fuel st0 item st → P st0 item s →
      p.additionalPointsToAvoid.lookup (adjKey E st s) = none →
      ¬ (s.endX = adjX E st s ∧ s.endY = adjY E st s) →
      isTileWalkable g p.acceptableTiles (adjX E st s) (adjY E st s) = some true →
      st.coordinateToNode.lookup (adjKey E st s) = none →
      J fuel st0 item (register E p st (adjKey E st s) (adjX E st s) (adjY E st s) s))
    (hfound : ∀ fuel st0 item st s, J fuel st0 item st → P st0 item s →
      p.additionalPointsToAvoid.lookup (adjKey E st s) = none →
      (s.endX = adjX E st s ∧ s.endY = adjY E st s) →
      R s.parent (adjX E st s) (adjY E st s) st)
    (hpanic : ∀ fuel st0 item st s, J fuel st0 item st → P st0 item s →
      p.additionalPointsToAvoid.lookup (adjKey E st s) = none →
      ¬ (s.endX = adjX E st s ∧ s.endY = adjY E st s) →
      isTileWalkable g p.acceptableTiles (adjX E st s) (adjY E st s) = none → Rp)
    (hdone : ∀ fuel st0 item st, J fuel st0 item st → I fuel st)
    (hexh : ∀ fuel st, I (fuel + 1) st → E.pq.len st.openList = 0 → Rx st) :
    ∀ (fuel : Nat) (st : SearchState F Q), I fuel st →
      match searchLoop E p g fuel st with
      | Searched.found par x y st1 => R par x y st1
      | Searched.exhausted st1 => Rx st1
      | Searched.panic _ => Rp
      | Searched.outOfFuel st1 => I 0 st1 := by
  intro fuel
  induction fuel with
  | zero => intro st hI; simpa [searchLoop] using hI
  | succ fuel ih =>
    intro st hI
    unfold searchLoop
    by_cases hlen : E.pq.len st.openList = 0
    · rw [if_pos hlen]
      exact hexh fuel st hI hlen
    · rw [if_neg hlen]
      rcases hpk : E.pq.peekAndShift st.openList maxInt64 with ⟨oi, q⟩
      have h1 : (E.pq.peekAndShift st.openList maxInt64).1 = oi := by rw [hpk]
      have h2 : (E.pq.peekAndShift st.openList maxInt64).2 = q := by rw [hpk]
      cases oi with
      | none => exact hpeek fuel st hI hlen h1
      | some item =>
        simp only []
        cases hc : candidates E p g st.heap item.value with
        | none => exact hcand fuel st item hI hlen h1 hc
        | some sn =>
          simp only []
          obtain ⟨hJ, hP⟩ := hpop fuel st item sn hI hlen h1 hc
          rw [h2] at hJ
          have hP' : ∀ s ∈ E.sort (searchNodesLess E st.heap) sn, P st item s :=
            fun s hs => hP s ((E.sort_perm _ _).mem_iff.mp hs)
          have hex := explore_induction E p g (J fuel st item) (P st item) R Rp
            (hrelax fuel st item) (hreg fuel st item) (hfound fuel st item)
            (hpanic fuel st item)
            (E.sort (searchNodesLess E st.heap) sn) { st with openList := q } hP' hJ
          cases hr : explore E p g (E.sort (searchNodesLess E st.heap) sn)
              { st with openList := q } with
          | found par x y st1 => rw [hr] at hex; exact hex
          | panic => rw [hr] at hex; exact hex
          | done st1 =>
            rw [hr] at hex
            exact ih st1 (hdone fuel st item st1 hex)

end Loops

end Goeasystar

/-! ## The candidates of an expansion -/

namespace Goeasystar

section Candidates

variable {F Q : Type}

/-- The guards under which the loop body builds the candidate in direction `(dx, dy)`
from `(x, y)`. -/
def Guarded (g : GridView) (x y dx dy : Int) : Prop :=
  (dx = -1 → x > 0) ∧ (dx = 1 → x < g.width - 1) ∧
  (dy = -1 → y > 0) ∧ (dy = 1 → y < g.height - 1)

/-- The directions of candidates: the four straight ones, and with diagonals enabled
the four diagonal ones that pass the corner test. -/
def Direction (p : Pathfinder F Q) (g : GridView) (x y dx dy : Int) : Prop :=
  ((dx = 0 ∧ (dy = -1 ∨ dy = 1)) ∨ (dy = 0 ∧ (dx = -1 ∨ dx = 1))) ∨
  (p.diagonalsEnabled = true ∧ (dx = -1 ∨ dx = 1) ∧ (dy = -1 ∨ dy = 1) ∧
    cornerAllowed p g x y dx dy = some true)

/-- The cost of a candidate: the base cost of its direction times the tile cost of
its destination. -/
def CostOK (E : Env F Q) (p : Pathfinder F Q) (g : GridView) (x y : Int)
    (s : SearchNode F) : Prop :=
  ∃ c, getTileCost E p g (x + s.x) (y + s.y) = some c ∧
    (s.cost = E.f.mul E.f.straightCost c ∨ s.cost = E.f.mul E.f.diagonalCost c)

/-- What holds of a candidate built for the node `parent` at `(x, y)`. -/
def CandOK (E : Env F Q) (p : Pathfinder F Q) (g : GridView) (parent : Nat) (x y : Int)
    (s : SearchNode F) : Prop :=
  s.parent = parent ∧ s.endX = p.endX ∧ s.endY = p.endY ∧
  Guarded g x y s.x s.y ∧ Direction p g x y s.x s.y ∧ CostOK E p g x y s

theorem appendCandidates_eq_some {a b : Option (List (SearchNode F))}
    {l : List (SearchNode F)} (h : appendCandidates a b = some l) :
    ∃ l1 l2, a = some l1 ∧ b = some l2 ∧ l = l1 ++ l2 := by
  cases a with
  | none => simp [appendCandidates] at h
  | some l1 =>
    cases b with
    | none => simp [appendCandidates] at h
    | some l2 =>
      simp only [appendCandidates, Option.some.injEq] at h
      exact ⟨l1, l2, rfl, rfl, h.symm⟩

theorem straightCandidate_mem (E : Env F Q) (p : Pathfinder F Q) (g : GridView)
    (heap : List (Node F)) (parent : Nat) (guard : Bool) (dx dy : Int)
    {l : List (SearchNode F)} (h : straightCandidate E p g heap parent guard dx dy = some l)
    {s : SearchNode F} (hs : s ∈ l) :
    guard = true ∧ ∃ c,
      getTileCost E p g ((nodeAt E heap parent).x + dx) ((nodeAt E heap parent).y + dy)
        = some c ∧
      s = newSearchNode dx dy p.endX p.endY (E.f.mul E.f.straightCost c) parent := by
  unfold straightCandidate at h
  cases guard with
  | false =>
    simp only [Bool.false_eq_true, if_false, Option.some.injEq] at h
    subst h; simp at hs
  | true =>
    simp only [if_true] at h
    cases hc : getTileCost E p g ((nodeAt E heap parent).x + dx)
        ((nodeAt E heap parent).y + dy) with
    | none => rw [hc] at h; simp at h
    | some c =>
      rw [hc] at h
      simp only [Option.some.injEq] at h
      subst h
      simp only [List.mem_singleton] at hs
      exact ⟨rfl, c, rfl, hs⟩

theorem diagonalCandidate_mem (E : Env F Q) (p : Pathfinder F Q) (g : GridView)
    (heap : List (Node F)) (parent : Nat) (guard : Bool) (dx dy : Int)
    {l : List (SearchNode F)} (h : diagonalCandidate E p g heap parent guard dx dy = some l)
    {s : SearchNode F} (hs : s ∈ l) :
    guard = true ∧
      cornerAllowed p g (nodeAt E heap parent).x (nodeAt E heap parent).y dx dy = some true ∧
      ∃ c,
      getTileCost E p g ((nodeAt E heap parent).x + dx) ((nodeAt E heap parent).y + dy)
        = some c ∧
      s = newSearchNode dx dy p.endX p.endY (E.f.mul E.f.diagonalCost c) parent := by
  unfold diagonalCandidate at h
  cases guard with
  | false =>
    simp only [Bool.false_eq_true, if_false, Option.some.injEq] at h
    subst h; simp at hs
  | true =>
    simp only [if_true] at h
    cases hca : cornerAllowed p g (nodeAt E heap parent).x (nodeAt E heap parent).y dx dy with
    | none => rw [hca] at h; simp at h
    | some b =>
      rw [hca] at h
      cases b with
      | false =>
        simp only [Option.some.injEq] at h
        subst h; simp at hs
      | true =>
        simp only [] at h
        cases hc : getTileCost E p g ((nodeAt E heap parent).x + dx)
            ((nodeAt E heap parent).y + dy) with
        | none => rw [hc] at h; simp at h
        | some c =>
          rw [hc] at h
          simp only [Option.some.injEq] at h
          subst h
          simp only [List.mem_singleton] at hs
          exact ⟨rfl, rfl, c, rfl, hs⟩

theorem candOK_straight (E : Env F Q) (p : Pathfinder F Q) (g : GridView)
    (heap : List (Node F)) (parent : Nat) (guard : Bool) (dx dy : Int)
    (hdir : (dx = 0 ∧ (dy = -1 ∨ dy = 1)) ∨ (dy = 0 ∧ (dx = -1 ∨ dx = 1)))
    (hg : guard = true → Guarded g (nodeAt E heap parent).x (nodeAt E heap parent).y dx dy)
    {l : List (SearchNode F)} (h : straightCandidate E p g heap parent guard dx dy = some l)
    {s : SearchNode F} (hs : s ∈ l) :
    CandOK E p g parent (nodeAt E heap parent).x (nodeAt E heap parent).y s := by
  obtain ⟨hgd, c, hc, rfl⟩ := straightCandidate_mem E p g heap parent guard dx dy h hs
  exact ⟨rfl, rfl, rfl, hg hgd, Or.inl hdir, c, hc, Or.inl rfl⟩

theorem candOK_diagonal (E : Env F Q) (p : Pathfinder F Q) (g : GridView)
    (heap : List (Node F)) (parent : Nat) (guard : Bool) (dx dy : Int)
    (hd : p.diagonalsEnabled = true)
    (hdir : (dx = -1 ∨ dx = 1) ∧ (dy = -1 ∨ dy = 1))
    (hg : guard = true → Guarded g (nodeAt E heap parent).x (nodeAt E heap parent).y dx dy)
    {l : List (SearchNode F)} (h : diagonalCandidate E p g heap parent guard dx dy = some l)
    {s : SearchNode F} (hs : s ∈ l) :
    CandOK E p g parent (nodeAt E heap parent).x (nodeAt E heap parent).y s := by
  obtain ⟨hgd, hca, c, hc, rfl⟩ := diagonalCandidate_mem E p g heap parent guard dx dy h hs
  exact ⟨rfl, rfl, rfl, hg hgd, Or.inr ⟨hd, hdir.1, hdir.2, hca⟩, c, hc, Or.inr rfl⟩

/-- Every candidate that the loop body builds for `parent` is in one of the
directions, under its guard, and carries the goal and its cost. -/
theorem candidates_candOK (E : Env F Q) (p : Pathfinder F Q) (g : GridView)
    (heap : List (Node F)) (parent : Nat) {sn : List (SearchNode F)}
    (h : candidates E p g heap parent = some sn) :
    ∀ s ∈ sn, CandOK E p g parent (nodeAt E heap parent).x (nodeAt E heap parent).y s := by
  intro s hs
  unfold candidates at h
  simp only [] at h
  have hstraight : ∀ l, appendCandidates
      (straightCandidate E p g heap parent (decide ((nodeAt E heap parent).y > 0)) 0 (-1))
      (appendCandidates
        (straightCandidate E p g heap parent
          (decide ((nodeAt E heap parent).x < g.width - 1)) 1 0)
        (appendCandidates
          (straightCandidate E p g heap parent
            (decide ((nodeAt E heap parent).y < g.height - 1)) 0 1)
          (straightCandidate E p g heap parent
            (decide ((nodeAt E heap parent).x > 0)) (-1) 0))) = some l →
      ∀ t ∈ l, CandOK E p g parent (nodeAt E heap parent).x (nodeAt E heap parent).y t := by
    intro l hl t ht
    obtain ⟨l1, r1, h1, hr1, rfl⟩ := appendCandidates_eq_some hl
    obtain ⟨l2, r2, h2, hr2, rfl⟩ := appendCandidates_eq_some hr1
    obtain ⟨l3, l4, h3, h4, rfl⟩ := appendCandidates_eq_some hr2
    simp only [List.mem_append] at ht
    rcases ht with ht | ht | ht | ht
    · refine candOK_straight E p g heap parent _ 0 (-1) (by simp) ?_ h1 ht
      intro hg; simp only [decide_eq_true_eq] at hg
      refine ⟨by intro h; simp at h, by intro h; simp at h, fun _ => hg, by intro h; simp at h⟩
    · refine candOK_straight E p g heap parent _ 1 0 (by simp) ?_ h2 ht
      intro hg; simp only [decide_eq_true_eq] at hg
      refine ⟨by intro h; simp at h, fun _ => hg, by intro h; simp at h, by intro h; simp at h⟩
    · refine candOK_straight E p g heap parent _ 0 1 (by simp) ?_ h3 ht
      intro hg; simp only [decide_eq_true_eq] at hg
      refine ⟨by intro h; simp at h, by intro h; simp at h, by intro h; simp at h, fun _ => hg⟩
    · refine candOK_straight E p g heap parent _ (-1) 0 (by simp) ?_ h4 ht
      intro hg; simp only [decide_eq_true_eq] at hg
      refine ⟨fun _ => hg, by intro h; simp at h, by intro h; simp at h, by intro h; simp at h⟩
  by_cases hd : p.diagonalsEnabled = true
  · rw [if_pos hd] at h
    obtain ⟨l0, r0, h0, hr0, rfl⟩ := appendCandidates_eq_some h
    obtain ⟨l1, r1, h1, hr1, rfl⟩ := appendCandidates_eq_some hr0
    obtain ⟨l2, r2, h2, hr2, rfl⟩ := appendCandidates_eq_some hr1
    obtain ⟨l3, l4, h3, h4, rfl⟩ := appendCandidates_eq_some hr2
    simp only [List.mem_append] at hs
    rcases hs with hs | hs | hs | hs | hs
    · exact hstraight l0 h0 s hs
    · refine candOK_diagonal E p g heap parent _ (-1) (-1) hd (by simp) ?_ h1 hs
      intro hg; simp only [decide_eq_true_eq] at hg
      refine ⟨fun _ => hg.1, by intro h; simp at h, fun _ => hg.2, by intro h; simp at h⟩
    · refine candOK_diagonal E p g heap parent _ 1 1 hd (by simp) ?_ h2 hs
      intro hg; simp only [decide_eq_true_eq] at hg
      refine ⟨by intro h; simp at h, fun _ => hg.1, by intro h; simp at h, fun _ => hg.2⟩
    · refine candOK_diagonal E p g heap parent _ 1 (-1) hd (by simp) ?_ h3 hs
      intro hg; simp only [decide_eq_true_eq] at hg
      refine ⟨by intro h; simp at h, fun _ => hg.1, fun _ => hg.2, by intro h; simp at h⟩
    · refine candOK_diagonal E p g heap parent _ (-1) 1 hd (by simp) ?_ h4 hs
      intro hg; simp only [decide_eq_true_eq] at hg
      refine ⟨fun _ => hg.1, by intro h; simp at h, by intro h; simp at h, fun _ => hg.2⟩
  · rw [if_neg hd] at h
    exact hstraight sn h s hs

end Candidates

end Goeasystar

/-! ## Nodes, parents and the open list -/

namespace Goeasystar

section Invariant

variable {F Q : Type}

/-- The point `(x, y)` is avoided: `additionalPointsToAvoid` has an entry under its key. -/
def Avoided (p : Pathfinder F Q) (x y : Int) : Prop :=
  (p.additionalPointsToAvoid.lookup (getHashKeyForPoint x y)).isSome = true

instance (p : Pathfinder F Q) (x y : Int) : Decidable (Avoided p x y) := by
  unfold Avoided
  infer_instance

/-- The tile at `(x, y)` is one of the acceptable tiles. -/
def Walkable (p : Pathfinder F Q) (g : GridView) (x y : Int) : Prop :=
  isTileWalkable g p.acceptableTiles x y = some true

instance (p : Pathfinder F Q) (g : GridView) (x y : Int) : Decidable (Walkable p g x y) := by
  unfold Walkable
  infer_instance

theorem not_avoided_of_lookup {p : Pathfinder F Q} {x y : Int}
    (h : p.additionalPointsToAvoid.lookup (getHashKeyForPoint x y) = none) :
    ¬ Avoided p x y := by
  simp [Avoided, h]

theorem lookup_filter_ne {K V : Type} [DecidableEq K] [BEq K] [LawfulBEq K]
    (m : List (K × V)) (key k : K) (h : k ≠ key) :
    (m.filter (fun e => decide (e.1 ≠ key))).lookup k = m.lookup k := by
  induction m with
  | nil => rfl
  | cons e rest ih =>
    obtain ⟨a, b⟩ := e
    rw [List.filter_cons]
    by_cases ha : a = key
    · have hd : decide ((a, b).1 ≠ key) = false := by simp [ha]
      have hka : (k == a) = false := by
        rw [beq_eq_false_iff_ne]; rw [ha]; exact h
      rw [hd]
      simp only [Bool.false_eq_true, if_false, List.lookup, hka]
      exact ih
    · have hd : decide ((a, b).1 ≠ key) = true := by simp [ha]
      rw [hd]
      simp only [if_true, List.lookup]
      rw [ih]

theorem lookup_mapSet {K V : Type} [DecidableEq K] [BEq K] [LawfulBEq K]
    (m : List (K × V)) (key k : K) (v : V) :
    (mapSet m key v).lookup k = if k = key then some v else m.lookup k := by
  unfold mapSet
  by_cases h : k = key
  · subst h
    simp [List.lookup]
  · rw [if_neg h]
    have hb : (k == key) = false := by
      rw [beq_eq_false_iff_ne]; exact h
    simp only [List.lookup, hb]
    exact lookup_filter_ne m key k h

/-- `AvoidAdditionalPoint` makes its point avoided. -/
theorem avoided_AvoidAdditionalPoint (p : Pathfinder F Q) (x y : Int) :
    Avoided (AvoidAdditionalPoint p x y) x y := by
  simp [Avoided, AvoidAdditionalPoint, lookup_mapSet]

theorem nodeAt_of_ge (E : Env F Q) (heap : List (Node F)) (i : Nat) (h : heap.length ≤ i) :
    nodeAt E heap i = ⟨none, 0, 0, E.f.zero, E.f.zero⟩ := by
  simp [nodeAt, List.getD_eq_getElem?_getD, List.getElem?_eq_none h]

/-- What holds of the search state throughout `FindPath`: node 0 is the start node;
every other node has a parent, is not avoided and has an acceptable tile; parents,
open-list items and registered nodes are allocated nodes. -/
structure Inv (E : Env F Q) (p : Pathfinder F Q) (g : GridView) (sx sy : Int)
    (st : SearchState F Q) : Prop where
  pos : 0 < st.heap.length
  startX : (nodeAt E st.heap 0).x = sx
  startY : (nodeAt E st.heap 0).y = sy
  parentSome : ∀ i, 0 < i → i < st.heap.length → (nodeAt E st.heap i).parent ≠ none
  parentLt : ∀ i j, (nodeAt E st.heap i).parent = some j → j < st.heap.length
  openOK : ∀ it ∈ E.pq.items st.openList, it.value < st.heap.length ∧ it.priority ≤ maxInt64
  regLt : ∀ k i, st.coordinateToNode.lookup k = some i → i < st.heap.length
  nodeOK : ∀ i, 0 < i → i < st.heap.length →
    ¬ Avoided p (nodeAt E st.heap i).x (nodeAt E st.heap i).y ∧
    Walkable p g (nodeAt E st.heap i).x (nodeAt E st.heap i).y

theorem Inv.relax {E : Env F Q} {p : Pathfinder F Q} {g : GridView} {sx sy : Int}
    {st : SearchState F Q} (h : Inv E p g sx sy st) (e : Nat) (s : SearchNode F)
    (hs : s.parent < st.heap.length) :
    Inv E p g sx sy { st with heap := relax E st.heap e s } where
  pos := by simpa [relax_length] using h.pos
  startX := by simpa [relax_x] using h.startX
  startY := by simpa [relax_y] using h.startY
  parentSome := by
    intro i hi hlt
    simp only [relax_length] at hlt
    rcases relax_parent E st.heap e s i with hp | ⟨_, _, hp, _⟩
    · simp only [hp]; exact h.parentSome i hi hlt
    · simp only [hp]; exact Option.some_ne_none _
  parentLt := by
    intro i j hj
    simp only [relax_length]
    rcases relax_parent E st.heap e s i with hp | ⟨_, _, hp, _⟩
    · simp only [hp] at hj; exact h.parentLt i j hj
    · simp only [hp, Option.some.injEq] at hj; omega
  openOK := by
    intro it hit
    simp only [relax_length]
    exact h.openOK it hit
  regLt := by
    intro k i hk
    simp only [relax_length]
    exact h.regLt k i hk
  nodeOK := by
    intro i hi hlt
    simp only [relax_length] at hlt
    simp only [relax_x, relax_y]
    exact h.nodeOK i hi hlt

theorem register_heap (E : Env F Q) (p : Pathfinder F Q) (st : SearchState F Q)
    (k : GoString) (x y : Int) (s : SearchNode F) :
    (register E p st k x y s).heap =
      st.heap ++ [newNode E st.heap x y p.endX p.endY (some s.parent) s.cost] := rfl

theorem register_node (E : Env F Q) (p : Pathfinder F Q) (st : SearchState F Q)
    (k : GoString) (x y : Int) (s : SearchNode F) (i : Nat) :
    nodeAt E (register E p st k x y s).heap i =
      if i < st.heap.length then nodeAt E st.heap i
      else if i = st.heap.length then
        newNode E st.heap x y p.endX p.endY (some s.parent) s.cost
      else ⟨none, 0, 0, E.f.zero, E.f.zero⟩ := by
  rw [register_heap]
  by_cases h1 : i < st.heap.length
  · rw [if_pos h1, nodeAt_append_of_lt E _ _ _ h1]
  · rw [if_neg h1]
    by_cases h2 : i = st.heap.length
    · rw [if_pos h2, h2, nodeAt_append_length]
    · rw [if_neg h2, nodeAt_of_ge]
      simp; omega

theorem register_length (E : Env F Q) (p : Pathfinder F Q) (st : SearchState F Q)
    (k : GoString) (x y : Int) (s : SearchNode F) :
    (register E p st k x y s).heap.length = st.heap.length + 1 := by
  simp [register_heap]

theorem Inv.register {E : Env F Q} {p : Pathfinder F Q} {g : GridView} {sx sy : Int}
    {st : SearchState F Q} (h : Inv E p g sx sy st) (k : GoString) (x y : Int)
    (s : SearchNode F) (hs : s.parent < st.heap.length)
    (hav : ¬ Avoided p x y) (hw : Walkable p g x y) :
    Inv E p g sx sy (register E p st k x y s) where
  pos := by rw [register_length]; omega
  startX := by rw [register_node, if_pos h.pos]; exact h.startX
  startY := by rw [register_node, if_pos h.pos]; exact h.startY
  parentSome := by
    intro i hi hlt
    rw [register_length] at hlt
    rw [register_node]
    by_cases h1 : i < st.heap.length
    · rw [if_pos h1]; exact h.parentSome i hi h1
    · rw [if_neg h1, if_pos (by omega)]
      simp [newNode]
  parentLt := by
    intro i j hj
    rw [register_length]
    rw [register_node] at hj
    by_cases h1 : i < st.heap.length
    · rw [if_pos h1] at hj
      have := h.parentLt i j hj
      omega
    · rw [if_neg h1] at hj
      by_cases h2 : i = st.heap.length
      · rw [if_pos h2] at hj
        simp only [newNode, Option.some.injEq] at hj
        omega
      · rw [if_neg h2] at hj
        simp at hj
  openOK := by
    intro it hit
    rw [register_length]
    have hperm := E.pq.items_push st.openList
      ⟨st.heap.length, E.f.toInt64 (E.f.mul
        (bestGuessDistance E (newNode E st.heap x y p.endX p.endY (some s.parent) s.cost))
        E.f.costPrecision)⟩
    have hmem := hperm.mem_iff.mp hit
    rcases List.mem_cons.mp hmem with rfl | hold
    · exact ⟨by simp, E.f.toInt64_le _⟩
    · have := h.openOK it hold
      exact ⟨by omega, this.2⟩
  regLt := by
    intro k1 i hk
    rw [register_length]
    have hk' : (mapSet st.coordinateToNode k st.heap.length).lookup k1 = some i := hk
    rw [lookup_mapSet] at hk'
    by_cases h1 : k1 = k
    · rw [if_pos h1] at hk'
      simp only [Option.some.injEq] at hk'
      omega
    · rw [if_neg h1] at hk'
      have := h.regLt k1 i hk'
      omega
  nodeOK := by
    intro i hi hlt
    rw [register_length] at hlt
    rw [register_node]
    by_cases h1 : i < st.heap.length
    · rw [if_pos h1]; exact h.nodeOK i hi h1
    · rw [if_neg h1, if_pos (by omega)]
      exact ⟨hav, hw⟩

theorem Inv.pop {E : Env F Q} {p : Pathfinder F Q} {g : GridView} {sx sy : Int}
    {st : SearchState F Q} (h : Inv E p g sx sy st) (hlen : E.pq.len st.openList ≠ 0)
    {item : Item} (hpk : (E.pq.peekAndShift st.openList maxInt64).1 = some item) :
    Inv E p g sx sy { st with openList := (E.pq.peekAndShift st.openList maxInt64).2 } ∧
      item.value < st.heap.length ∧
      (E.pq.items st.openList).Perm
        (item :: E.pq.items (E.pq.peekAndShift st.openList maxInt64).2) := by
  have hne : E.pq.items st.openList ≠ [] := by
    intro h0
    apply hlen
    rw [E.pq.len_eq, h0]; rfl
  obtain ⟨it, hit, hperm⟩ := E.pq.peek_some st.openList maxInt64 hne
    (fun it hit => (h.openOK it hit).2)
  rw [hpk] at hit
  simp only [Option.some.injEq] at hit
  subst hit
  refine ⟨?_, (h.openOK item (hperm.mem_iff.mpr (List.mem_cons_self _ _))).1, hperm⟩
  exact {
    pos := h.pos
    startX := h.startX
    startY := h.startY
    parentSome := h.parentSome
    parentLt := h.parentLt
    openOK := fun it hit => h.openOK it (hperm.mem_iff.mpr (List.mem_cons_of_mem _ hit))
    regLt := h.regLt
    nodeOK := h.nodeOK }

theorem peek_isSome {E : Env F Q} {p : Pathfinder F Q} {g : GridView} {sx sy : Int}
    {st : SearchState F Q} (h : Inv E p g sx sy st) (hlen : E.pq.len st.openList ≠ 0) :
    (E.pq.peekAndShift st.openList maxInt64).1 ≠ none := by
  have hne : E.pq.items st.openList ≠ [] := by
    intro h0
    apply hlen
    rw [E.pq.len_eq, h0]; rfl
  obtain ⟨it, hit, _⟩ := E.pq.peek_some st.openList maxInt64 hne
    (fun it hit => (h.openOK it hit).2)
  rw [hit]
  exact Option.some_ne_none _

theorem Inv.initial (E : Env F Q) (p : Pathfinder F Q) (g : GridView) (sx sy : Int) :
    Inv E p g p.startX p.startY (initialState E p g sx sy) where
  pos := by simp [initialState]
  startX := by simp [initialState, nodeAt, newNode]
  startY := by simp [initialState, nodeAt, newNode]
  parentSome := by
    intro i hi hlt
    simp [initialState] at hlt
    omega
  parentLt := by
    intro i j hj
    cases i with
    | zero => simp [initialState, nodeAt, newNode] at hj
    | succ k => simp [initialState, nodeAt] at hj
  openOK := by
    intro it hit
    simp only [initialState] at hit
    have hperm := E.pq.items_push (E.pq.new (g.width * g.height).toNat)
      ⟨0, E.f.toInt64 (E.f.mul (bestGuessDistance E
        (newNode E [] p.startX p.startY p.endX p.endY none E.f.straightCost))
        E.f.costPrecision)⟩
    have hmem := hperm.mem_iff.mp hit
    rw [E.pq.items_new] at hmem
    simp only [List.mem_singleton] at hmem
    subst hmem
    exact ⟨by simp [initialState], E.f.toInt64_le _⟩
  regLt := by
    intro k i hk
    simp only [initialState] at hk
    rw [lookup_mapSet] at hk
    split_ifs at hk
    · simp only [Option.some.injEq] at hk
      subst hk
      simp [initialState]
    · simp at hk
  nodeOK := by
    intro i hi hlt
    simp [initialState] at hlt
    omega

end Invariant

end Goeasystar

/-! ## What the search loop keeps, and the returned route -/

namespace Goeasystar

section Route

variable {F Q : Type}

/-- The search loop keeps `Inv`; when it meets the goal, the expanded node is an
allocated node and the goal is not avoided. -/
theorem searchLoop_inv (E : Env F Q) (p : Pathfinder F Q) (g : GridView) (sx sy : Int)
    (fuel : Nat) (st : SearchState F Q) (h : Inv E p g sx sy st) :
    match searchLoop E p g fuel st with
    | Searched.found par x y st1 =>
      Inv E p g sx sy st1 ∧ par < st1.heap.length ∧ x = p.endX ∧ y = p.endY ∧ ¬ Avoided p x y
    | Searched.exhausted st1 => Inv E p g sx sy st1
    | Searched.panic _ => True
    | Searched.outOfFuel st1 => Inv E p g sx sy st1 := by
  refine searchLoop_induction E p g
    (fun _ st => Inv E p g sx sy st)
    (fun _ _ item st => Inv E p g sx sy st ∧ item.value < st.heap.length)
    (fun _ item s => s.parent = item.value ∧ s.endX = p.endX ∧ s.endY = p.endY)
    (fun par x y st1 =>
      Inv E p g sx sy st1 ∧ par < st1.heap.length ∧ x = p.endX ∧ y = p.endY ∧ ¬ Avoided p x y)
    (fun st1 => Inv E p g sx sy st1) True
    ?_ ?_ ?_ ?_ ?_ ?_ ?_ ?_ ?_ fuel st h
  · intros; trivial
  · intros; trivial
  · intro fuel st item sn hI hlen hpk hc
    obtain ⟨hinv, hlt, _⟩ := hI.pop hlen hpk
    refine ⟨⟨hinv, hlt⟩, ?_⟩
    intro s hs
    obtain ⟨h1, h2, h3, _⟩ := candidates_candOK E p g st.heap item.value hc s hs
    exact ⟨h1, h2, h3⟩
  · intro fuel _ item st s e hJ hP _ _ _ _
    refine ⟨hJ.1.relax e s (by rw [hP.1]; exact hJ.2), ?_⟩
    simp only [relax_length]
    exact hJ.2
  · intro fuel _ item st s hJ hP hav _ hw _
    refine ⟨hJ.1.register _ _ _ s (by rw [hP.1]; exact hJ.2) (not_avoided_of_lookup hav) hw, ?_⟩
    rw [register_length]
    exact Nat.lt_succ_of_lt hJ.2
  · intro fuel _ item st s hJ hP hav hgoal
    refine ⟨hJ.1, by rw [hP.1]; exact hJ.2, ?_, ?_, not_avoided_of_lookup hav⟩
    · rw [← hgoal.1]; exact hP.2.1
    · rw [← hgoal.2]; exact hP.2.2
  · intros; trivial
  · intro fuel _ item st hJ; exact hJ.1
  · intro fuel st hI _; exact hI

/-- The point of a node. -/
def pointOf (E : Env F Q) (heap : List (Node F)) (i : Nat) : Point :=
  ⟨(nodeAt E heap i).x, (nodeAt E heap i).y⟩

/-- A walk along the parent links that ends has ended at node 0: node 0 has no
parent. -/
theorem parentWalk_root {E : Env F Q} {p : Pathfinder F Q} {g : GridView} {sx sy : Int}
    {st : SearchState F Q} (h : Inv E p g sx sy st) :
    ∀ (fuel i : Nat) (l : List Point), i < st.heap.length →
      parentWalk E st.heap fuel i = some l → (nodeAt E st.heap 0).parent = none := by
  intro fuel
  induction fuel with
  | zero => intro i l _ hw; simp [parentWalk] at hw
  | succ fuel ih =>
    intro i l hi hw
    unfold parentWalk at hw
    cases hp : (nodeAt E st.heap i).parent with
    | none =>
      by_cases h0 : i = 0
      · rw [← h0]; exact hp
      · exact absurd hp (h.parentSome i (Nat.pos_of_ne_zero h0) hi)
    | some q =>
      rw [hp] at hw
      simp only [] at hw
      cases hq : parentWalk E st.heap fuel q with
      | none => rw [hq] at hw; simp at hw
      | some l1 => exact ih q l1 (h.parentLt i q hp) hq

/-- The points of a walk along the parent links that ends: nodes other than the
start node, which are not avoided and have acceptable tiles, and last the start. -/
theorem parentWalk_points {E : Env F Q} {p : Pathfinder F Q} {g : GridView} {sx sy : Int}
    {st : SearchState F Q} (h : Inv E p g sx sy st) :
    ∀ (fuel i : Nat) (l : List Point), i < st.heap.length →
      parentWalk E st.heap fuel i = some l →
      ∃ mid : List Point, pointOf E st.heap i :: l = mid ++ [⟨sx, sy⟩] ∧
        ∀ q ∈ mid, ¬ Avoided p q.X q.Y ∧ Walkable p g q.X q.Y := by
  intro fuel
  induction fuel with
  | zero => intro i l _ hw; simp [parentWalk] at hw
  | succ fuel ih =>
    intro i l hi hw
    have hroot := parentWalk_root h (fuel + 1) i l hi hw
    unfold parentWalk at hw
    cases hp : (nodeAt E st.heap i).parent with
    | none =>
      rw [hp] at hw
      simp only [Option.some.injEq] at hw
      subst hw
      have h0 : i = 0 := by
        by_contra h0
        exact h.parentSome i (Nat.pos_of_ne_zero h0) hi hp
      subst h0
      refine ⟨[], ?_, by simp⟩
      simp [pointOf, h.startX, h.startY]
    | some q =>
      rw [hp] at hw
      simp only [] at hw
      cases hq : parentWalk E st.heap fuel q with
      | none => rw [hq] at hw; simp at hw
      | some l1 =>
        rw [hq] at hw
        simp only [Option.some.injEq] at hw
        subst hw
        obtain ⟨mid, hmid, hok⟩ := ih q l1 (h.parentLt i q hp) hq
        have hi0 : 0 < i := by
          apply Nat.pos_of_ne_zero
          intro h0
          rw [h0, hroot] at hp
          simp at hp
        refine ⟨pointOf E st.heap i :: mid, ?_, ?_⟩
        · have : (⟨(nodeAt E st.heap q).x, (nodeAt E st.heap q).y⟩ : Point) :: l1
              = mid ++ [⟨sx, sy⟩] := hmid
          rw [this]; rfl
        · intro pt hpt
          rcases List.mem_cons.mp hpt with rfl | hpt
          · exact h.nodeOK i hi0 hi
          · exact hok pt hpt

/-- A route that the search returns: the start, then points that are not avoided and
have acceptable tiles, then the goal, which is not avoided. -/
theorem search_route (E : Env F Q) (p : Pathfinder F Q) (g : GridView)
    (sx sy ex ey : Int) (r : List Point)
    (h : (search E p g sx sy ex ey).1 = Outcome.route r) :
    ∃ mid : List Point, r = ⟨sx, sy⟩ :: (mid ++ [⟨ex, ey⟩]) ∧
      (∀ q ∈ mid, ¬ Avoided p q.X q.Y ∧ Walkable p g q.X q.Y) ∧ ¬ Avoided p ex ey := by
  unfold search at h
  simp only [] at h
  have hinv := searchLoop_inv E
    { p with startX := sx, startY := sy, endX := ex, endY := ey } g sx sy (loopBound g) _
    (Inv.initial E { p with startX := sx, startY := sy, endX := ex, endY := ey } g sx sy)
  cases hs : searchLoop E { p with startX := sx, startY := sy, endX := ex, endY := ey } g
      (loopBound g)
      (initialState E { p with startX := sx, startY := sy, endX := ex, endY := ey } g sx sy) with
  | exhausted st1 => rw [hs] at h; simp at h
  | panic st1 => rw [hs] at h; simp at h
  | outOfFuel st1 => rw [hs] at h; simp at h
  | found par x y st1 =>
    rw [hs] at h hinv
    simp only [] at h hinv
    obtain ⟨hI, hpar, hx, hy, hav⟩ := hinv
    subst hx hy
    unfold buildPath at h
    cases hw : parentWalk E st1.heap st1.heap.length par with
    | none => rw [hw] at h; simp at h
    | some l =>
      rw [hw] at h
      simp only [Outcome.route.injEq] at h
      obtain ⟨mid, hmid, hok⟩ := parentWalk_points hI _ par l hpar hw
      refine ⟨mid.reverse, ?_, ?_, hav⟩
      · rw [← h]
        have : (⟨(nodeAt E st1.heap par).x, (nodeAt E st1.heap par).y⟩ : Point) :: l
            = mid ++ [⟨sx, sy⟩] := hmid
        rw [List.reverse_cons, this]
        simp
      · intro q hq
        exact hok q (List.mem_reverse.mp hq)

/-- A route that `FindPath` returns is empty or is a route of the search. -/
theorem FindPath_route_cases (E : Env F Q) (p : Pathfinder F Q) (sx sy ex ey : Int)
    (r : List Point) (h : (FindPath E p sx sy ex ey).1 = Outcome.route r) :
    r = [] ∨ ∃ grid, p.collisionGrid = some grid ∧
      (search E p (gridView grid) sx sy ex ey).1 = Outcome.route r := by
  unfold FindPath at h
  by_cases h1 : p.acceptableTiles.length = 0
  · rw [if_pos h1] at h; simp at h
  · rw [if_neg h1] at h
    cases hg : p.collisionGrid with
    | none => rw [hg] at h; simp at h
    | some grid =>
      rw [hg] at h
      by_cases h2 : sx < 0 ∨ sy < 0 ∨ ex < 0 ∨ ex < 0
      · simp only [if_pos h2] at h; simp at h
      · simp only [if_neg h2] at h
        cases grid with
        | nil => simp at h
        | cons row0 rest =>
          simp only [] at h
          unfold findPathOn at h
          by_cases h3 : sx > (gridView (row0 :: rest)).width - 1 ∨
              sy > (gridView (row0 :: rest)).height - 1 ∨
              ex > (gridView (row0 :: rest)).width - 1 ∨
              ey > (gridView (row0 :: rest)).height - 1
          · rw [if_pos h3] at h; simp at h
          · rw [if_neg h3] at h
            by_cases h4 : sx = ex ∧ sy = ey
            · rw [if_pos h4] at h
              simp only [Outcome.route.injEq] at h
              exact Or.inl h.symm
            · rw [if_neg h4] at h
              cases ht : (gridView (row0 :: rest)).tileAt ex ey with
              | none => rw [ht] at h; simp at h
              | some t =>
                rw [ht] at h
                simp only [] at h
                by_cases h5 : p.acceptableTiles.contains t = true
                · rw [if_pos h5] at h
                  exact Or.inr ⟨_, rfl, h⟩
                · rw [if_neg h5] at h
                  simp only [Outcome.route.injEq] at h
                  exact Or.inl h.symm

/-- With the preconditions met, a start other than the goal and an acceptable goal
tile, `FindPath` is the search. -/
theorem FindPath_eq_search (E : Env F Q) (p : Pathfinder F Q) (grid : List (List Int))
    (W H : Nat) (sx sy ex ey : Int) (ht : p.acceptableTiles ≠ [])
    (hg : p.collisionGrid = some grid) (hr : Rectangular grid W H)
    (hs : InBounds W H sx sy) (he : InBounds W H ex ey) (hne : ¬ (sx = ex ∧ sy = ey))
    (hacc : ∃ t, gridAt grid ex ey = some t ∧ t ∈ p.acceptableTiles) :
    FindPath E p sx sy ex ey = search E p (gridView grid) sx sy ex ey := by
  obtain ⟨hx0, hx1, hy0, hy1⟩ := hs
  obtain ⟨ex0, ex1, ey0, ey1⟩ := he
  obtain ⟨t, htile, hmem⟩ := hacc
  rw [FindPath_of_rectangular E p ht hg hr hx0 hy0 ex0]
  unfold findPathOn
  rw [gridView_width hr, gridView_height hr, if_neg (by omega), if_neg hne]
  have : (gridView grid).tileAt ex ey = some t := htile
  rw [this]
  simp only []
  rw [if_pos (by simpa using hmem)]

end Route

end Goeasystar

/-! ## The configurations of the tests -/

set_option maxRecDepth 1000000

namespace Goeasystar

/-- The grid of `TestSuccessfulPath`, `TestAvoidAdditionalPoint` and `TestSameTile`. -/
def wallGrid : List (List Int) :=
  [[1, 1, 0, 1, 1], [1, 1, 0, 1, 1], [1, 1, 0, 1, 1], [1, 1, 1, 1, 1], [1, 1, 1, 1, 1]]

/-- The pathfinder of `TestSuccessfulPath` and `TestSameTile`. -/
def wallPathfinder : Pathfinder F64 (List Item) :=
  SetAcceptableTiles (SetGrid (NewPathfinder goEnv) (some wallGrid)) [1]

/-- The pathfinder of `TestAvoidAdditionalPoint`. -/
def wallAvoidPathfinder : Pathfinder F64 (List Item) :=
  SetAcceptableTiles (AvoidAdditionalPoint (SetGrid (NewPathfinder goEnv) (some wallGrid)) 2 3) [1]

/-- A pathfinder on the grid `[[1, 1]]` that avoids the point `(0, 0)`. -/
def avoidStartPathfinder : Pathfinder F64 (List Item) :=
  AvoidAdditionalPoint (SetAcceptableTiles (SetGrid (NewPathfinder goEnv) (some [[1, 1]])) [1]) 0 0

/-! ## Endpoints and avoided points -/

section Endpoints

variable {F Q : Type}

/-- C1. With acceptable tiles set, a non-empty rectangular grid, an in-bounds start and
goal that differ and an acceptable goal tile, a route that `FindPath` returns has at
least two points, the first being the start and the last the goal. -/
theorem FindPath_endpoints (E : Env F Q) (p : Pathfinder F Q) (grid : List (List Int))
    (W H : Nat) (sx sy ex ey : Int) (r : List Point) (ht : p.acceptableTiles ≠ [])
    (hg : p.collisionGrid = some grid) (hr : Rectangular grid W H)
    (hs : InBounds W H sx sy) (he : InBounds W H ex ey) (hne : ¬ (sx = ex ∧ sy = ey))
    (hacc : ∃ t, gridAt grid ex ey = some t ∧ t ∈ p.acceptableTiles)
    (h : (FindPath E p sx sy ex ey).1 = Outcome.route r) :
    2 ≤ r.length ∧ r.head? = some ⟨sx, sy⟩ ∧ r.getLast? = some ⟨ex, ey⟩ := by
  rw [FindPath_eq_search E p grid W H sx sy ex ey ht hg hr hs he hne hacc] at h
  obtain ⟨mid, rfl, _, _⟩ := search_route E p (gridView grid) sx sy ex ey r h
  refine ⟨by simp, by simp, ?_⟩
  rw [← List.cons_append, List.getLast?_append]
  simp

/-- C1, on the configuration of `TestSuccessfulPath`. -/
theorem FindPath_endpoints_witness :
    (FindPath goEnv wallPathfinder 1 2 3 2).1 =
        Outcome.route [⟨1, 2⟩, ⟨1, 3⟩, ⟨2, 3⟩, ⟨3, 3⟩, ⟨3, 2⟩] ∧
      (2 ≤ [(⟨1, 2⟩ : Point), ⟨1, 3⟩, ⟨2, 3⟩, ⟨3, 3⟩, ⟨3, 2⟩].length ∧
        [(⟨1, 2⟩ : Point), ⟨1, 3⟩, ⟨2, 3⟩, ⟨3, 3⟩, ⟨3, 2⟩].head? = some ⟨1, 2⟩ ∧
        [(⟨1, 2⟩ : Point), ⟨1, 3⟩, ⟨2, 3⟩, ⟨3, 3⟩, ⟨3, 2⟩].getLast? = some ⟨3, 2⟩) :=
  ⟨by decide,
    FindPath_endpoints goEnv wallPathfinder wallGrid 5 5 1 2 3 2 _ (by decide) rfl
      (by decide) (by decide) (by decide) (by decide) ⟨1, by decide, by decide⟩ (by decide)⟩

/-- C4, as the code has it. In a route that `FindPath` returns no point after the first
is avoided; the first point, the start, is not tested. -/
theorem FindPath_avoids_after_start (E : Env F Q) (p : Pathfinder F Q) (sx sy ex ey : Int)
    (r : List Point) (h : (FindPath E p sx sy ex ey).1 = Outcome.route r) :
    ∀ q ∈ r.tail, ¬ Avoided p q.X q.Y := by
  rcases FindPath_route_cases E p sx sy ex ey r h with rfl | ⟨grid, _, hs⟩
  · simp
  · obtain ⟨mid, rfl, hmid, hgoal⟩ := search_route E p (gridView grid) sx sy ex ey r hs
    intro q hq
    simp only [List.tail_cons, List.mem_append, List.mem_singleton] at hq
    rcases hq with hq | rfl
    · exact (hmid q hq).1
    · exact hgoal

/-- C4 as amended, on the configuration of `TestAvoidAdditionalPoint`, which avoids the
point `(2, 3)`. -/
theorem FindPath_avoids_after_start_witness :
    Avoided wallAvoidPathfinder 2 3 ∧
      ∀ q ∈ [(⟨1, 2⟩ : Point), ⟨1, 3⟩, ⟨1, 4⟩, ⟨2, 4⟩, ⟨3, 4⟩, ⟨3, 3⟩, ⟨3, 2⟩].tail,
        ¬ Avoided wallAvoidPathfinder q.X q.Y :=
  ⟨by decide, FindPath_avoids_after_start goEnv wallAvoidPathfinder 1 2 3 2 _ (by decide)⟩

/-- C4 fails for the start: with `(0, 0)` avoided, `FindPath(0, 0, 1, 0)` on the grid
`[[1, 1]]` returns the route `(0, 0), (1, 0)`, whose first point is avoided. -/
theorem FindPath_route_has_avoided_start :
    Avoided avoidStartPathfinder 0 0 ∧
      (FindPath goEnv avoidStartPathfinder 0 0 1 0).1 = Outcome.route [⟨0, 0⟩, ⟨1, 0⟩] ∧
      (⟨0, 0⟩ : Point) ∈ [(⟨0, 0⟩ : Point), ⟨1, 0⟩] :=
  ⟨by decide, by decide, by decide⟩

/-- C10, on the configuration of `TestSameTile`. -/
theorem FindPath_same_tile_witness :
    FindPath goEnv wallPathfinder 1 2 1 2 = (Outcome.route [], wallPathfinder) :=
  FindPath_same_tile goEnv wallPathfinder wallGrid 5 5 1 2 (by decide) rfl (by decide)
    (by decide)

end Endpoints

end Goeasystar

/-! ## Permitted routes and their cost -/

namespace Goeasystar

section Permitted

variable {F Q : Type}

/-- A permitted step from `(x, y)` to `(x1, y1)`: the destination is in bounds, has an
acceptable tile and is not avoided, and the step is a unit straight move or, with
diagonals enabled, a unit diagonal move that is allowed when corner cutting is enabled
or both flanking cells have acceptable tiles. -/
def PermittedStep (p : Pathfinder F Q) (g : GridView) (a b : Point) : Prop :=
  (0 ≤ b.X ∧ b.X < g.width ∧ 0 ≤ b.Y ∧ b.Y < g.height) ∧
  Walkable p g b.X b.Y ∧ ¬ Avoided p b.X b.Y ∧
  (((b.X - a.X).natAbs + (b.Y - a.Y).natAbs = 1) ∨
    (p.diagonalsEnabled = true ∧ (b.X - a.X).natAbs = 1 ∧ (b.Y - a.Y).natAbs = 1 ∧
      (p.allowCornerCutting = true ∨ (Walkable p g a.X b.Y ∧ Walkable p g b.X a.Y))))

instance (p : Pathfinder F Q) (g : GridView) (a b : Point) :
    Decidable (PermittedStep p g a b) := by
  delta PermittedStep
  infer_instance

/-- Every step of the sequence is permitted. -/
def PermittedChain (p : Pathfinder F Q) (g : GridView) : List Point → Prop
  | a :: b :: rest => PermittedStep p g a b ∧ PermittedChain p g (b :: rest)
  | _ => True

/-- Whether every step of a sequence is permitted can be computed. -/
def decPermittedChain (p : Pathfinder F Q) (g : GridView) :
    (r : List Point) → Decidable (PermittedChain p g r)
  | [] => isTrue trivial
  | [_] => isTrue trivial
  | a :: b :: rest =>
    have : Decidable (PermittedChain p g (b :: rest)) := decPermittedChain p g (b :: rest)
    inferInstanceAs (Decidable (PermittedStep p g a b ∧ PermittedChain p g (b :: rest)))

instance (p : Pathfinder F Q) (g : GridView) (r : List Point) :
    Decidable (PermittedChain p g r) :=
  decPermittedChain p g r

/-- A permitted route from `s` to `t`: a sequence of cells that starts at `s`, which is
in bounds, ends at `t`, and whose steps are permitted. -/
def PermittedRoute (p : Pathfinder F Q) (g : GridView) (s t : Point) (r : List Point) : Prop :=
  r.head? = some s ∧ r.getLast? = some t ∧
  (0 ≤ s.X ∧ s.X < g.width ∧ 0 ≤ s.Y ∧ s.Y < g.height) ∧
  PermittedChain p g r

instance (p : Pathfinder F Q) (g : GridView) (s t : Point) (r : List Point) :
    Decidable (PermittedRoute p g s t r) := by
  delta PermittedRoute
  infer_instance

/-- The cost of the step from `a` to `b`: `1.0` for a straight and `1.4` for a diagonal
step, times `getTileCost` of the cell entered. -/
def stepCost (E : Env F Q) (p : Pathfinder F Q) (g : GridView) (a b : Point) : F :=
  E.f.mul (if a.X ≠ b.X ∧ a.Y ≠ b.Y then E.f.diagonalCost else E.f.straightCost)
    ((getTileCost E p g b.X b.Y).getD E.f.zero)

/-- The total cost of a route: the sum of the costs of its steps. -/
def routeCost (E : Env F Q) (p : Pathfinder F Q) (g : GridView) : List Point → F
  | a :: b :: rest => E.f.add (stepCost E p g a b) (routeCost E p g (b :: rest))
  | _ => E.f.zero

/-- The grid `[[1, 1], [1, 1]]`. -/
def squareGrid : List (List Int) := [[1, 1], [1, 1]]

/-- A pathfinder on the grid `[[1, 1], [1, 1]]` with diagonals enabled and the cost `1`
set for the point `(1, 1)`. -/
def squarePathfinder : Pathfinder F64 (List Item) :=
  SetAdditionalPointCost
    (EnableDiagonals (SetAcceptableTiles (SetGrid (NewPathfinder goEnv) (some squareGrid)) [1]))
    1 1 (F64.ofInt 1)

theorem getTileCost_no_overrides (E : Env F Q) (p : Pathfinder F Q) (g : GridView)
    (hc : p.additionalPointsToCost = []) (hm : p.costMap = []) (x y : Int) :
    (getTileCost E p g x y).getD E.f.zero = E.f.zero := by
  unfold getTileCost
  rw [hc, hm]
  simp only [List.lookup]
  cases g.tileAt x y <;> simp

theorem routeCost_no_overrides (E : Env F Q) (p : Pathfinder F Q) (g : GridView)
    (hc : p.additionalPointsToCost = []) (hm : p.costMap = [])
    (h1 : E.f.mul E.f.straightCost E.f.zero = E.f.zero)
    (h2 : E.f.mul E.f.diagonalCost E.f.zero = E.f.zero)
    (h3 : E.f.add E.f.zero E.f.zero = E.f.zero) (r : List Point) :
    routeCost E p g r = E.f.zero := by
  induction r with
  | nil => rfl
  | cons a rest ih =>
    cases rest with
    | nil => rfl
    | cons b rest1 =>
      simp only [routeCost, stepCost, getTileCost_no_overrides E p g hc hm]
      rw [ih]
      split_ifs
      · rw [h2, h3]
      · rw [h1, h3]

end Permitted

/-! ## Cost of the returned route -/

section Cost

variable {F Q : Type}

/-- C6 fails with a point cost set. With diagonals enabled and the cost `1` set for
`(1, 1)` on the grid `[[1, 1], [1, 1]]`, `FindPath(0, 0, 1, 1)` returns the diagonal
route `(0, 0), (1, 1)` of cost `1.4 * 1`, as soon as the goal is a candidate of the
start; the permitted route `(0, 0), (1, 0), (1, 1)` costs `1.0 * 0 + 1.0 * 1`, which is
less. -/
theorem FindPath_route_not_cheapest :
    (FindPath goEnv squarePathfinder 0 0 1 1).1 = Outcome.route [⟨0, 0⟩, ⟨1, 1⟩] ∧
      PermittedRoute squarePathfinder (gridView squareGrid) ⟨0, 0⟩ ⟨1, 1⟩
        [⟨0, 0⟩, ⟨1, 0⟩, ⟨1, 1⟩] ∧
      goEnv.f.lt
        (routeCost goEnv squarePathfinder (gridView squareGrid) [⟨0, 0⟩, ⟨1, 0⟩, ⟨1, 1⟩])
        (routeCost goEnv squarePathfinder (gridView squareGrid) [⟨0, 0⟩, ⟨1, 1⟩]) = true :=
  ⟨by decide, by decide, by decide⟩

end Cost

end Goeasystar

/-! ## Grids wider than the range of distinct keys -/

namespace Goeasystar

section Padded

/-- A row of `n` tiles `0` followed by the tiles `l`. -/
def paddedRow (n : Nat) (l : List Int) : List Int := List.replicate n 0 ++ l

/-- The grid whose rows are `n` tiles `0` followed by the rows of `rows`. -/
def paddedGrid (n : Nat) (rows : List (List Int)) : List (List Int) :=
  rows.map (paddedRow n)

/-- The reads of `paddedGrid n rows` in closed form. -/
def paddedView (n : Nat) (rows : List (List Int)) : GridView :=
  { width := ((n + (rows.headD []).length : Nat) : Int)
    height := (rows.length : Int)
    tileAt := fun x y =>
      if 0 ≤ y ∧ 0 ≤ x then
        match rows.get? y.toNat with
        | some l => if x < n then some 0 else l.get? (x.toNat - n)
        | none => none
      else none }

theorem paddedRow_get? (n : Nat) (l : List Int) (k : Nat) :
    (paddedRow n l).get? k = if (k : Int) < n then some 0 else l.get? (k - n) := by
  unfold paddedRow
  rw [List.get?_eq_getElem?, List.get?_eq_getElem?]
  by_cases hk : k < n
  · rw [if_pos (by omega), List.getElem?_append_left (by simpa using hk)]
    simp [List.getElem?_replicate, hk]
  · rw [if_neg (by omega), List.getElem?_append_right (by simpa using hk)]
    simp

theorem gridView_padded (n : Nat) (r0 : List Int) (rs : List (List Int)) :
    gridView (paddedRow n r0 :: paddedGrid n rs) = paddedView n (r0 :: rs) := by
  have hw : (((paddedRow n r0 :: paddedGrid n rs).headD []).length : Int)
      = ((n + ((r0 :: rs).headD []).length : Nat) : Int) := by
    simp [paddedRow]
  have hh : ((paddedRow n r0 :: paddedGrid n rs).length : Int) = ((r0 :: rs).length : Int) := by
    simp [paddedGrid]
  have ht : gridAt (paddedRow n r0 :: paddedGrid n rs) = (paddedView n (r0 :: rs)).tileAt := by
    funext x y
    have hm : paddedRow n r0 :: paddedGrid n rs = (r0 :: rs).map (paddedRow n) := rfl
    rw [hm]
    unfold gridAt paddedView
    by_cases hc : 0 ≤ y ∧ 0 ≤ x
    · simp only [if_pos hc]
      rw [List.get?_eq_getElem?, List.getElem?_map, ← List.get?_eq_getElem?]
      cases (r0 :: rs).get? y.toNat with
      | none => rfl
      | some l =>
        simp only [Option.map_some']
        rw [paddedRow_get?]
        have : ((x.toNat : Nat) : Int) = x := Int.toNat_of_nonneg hc.2
        rw [this]
    · simp only [if_neg hc]
  unfold gridView
  rw [ht, hw, hh]
  rfl

end Padded

end Goeasystar

/-! ## Coordinates whose keys coincide

`getHashKeyForPoint` converts each coordinate to the string of one code point; the
surrogate range `55296 .. 57343` and everything above `1114111` gives the replacement
character, so on a grid wider than `55296` the cells `(55296, y)`, `(55297, y)`, ...
share one key and the search takes one for another. -/

namespace Goeasystar

section Collisions

/-- The keys of the columns `55296`, `55297` and `55298` coincide in every row. -/
theorem getHashKeyForPoint_collision (y : Int) :
    getHashKeyForPoint 55296 y = getHashKeyForPoint 55297 y ∧
      getHashKeyForPoint 55296 y = getHashKeyForPoint 55298 y :=
  ⟨rfl, rfl⟩

/-- One row of `55299` cells: `55295` tiles `0`, then four tiles `1`. -/
def stripGrid : List (List Int) := paddedGrid 55295 [[1, 1, 1, 1]]

/-- A pathfinder on `stripGrid` with the acceptable tile `1`. -/
def stripPathfinder : Pathfinder F64 (List Item) :=
  SetAcceptableTiles (SetGrid (NewPathfinder goEnv) (some stripGrid)) [1]

theorem gridView_stripGrid : gridView stripGrid = paddedView 55295 [[1, 1, 1, 1]] :=
  gridView_padded 55295 [1, 1, 1, 1] []

end Collisions

end Goeasystar

namespace Goeasystar

section CollisionRoutes

set_option maxHeartbeats 40000000

theorem length_paddedRow (n : Nat) (l : List Int) : (paddedRow n l).length = n + l.length := by
  unfold paddedRow
  rw [List.length_append, List.length_replicate]

theorem rectangular_paddedGrid (n : Nat) {rows : List (List Int)} {W H : Nat}
    (h : Rectangular rows W H) : Rectangular (paddedGrid n rows) (n + W) H := by
  obtain ⟨h1, h2, h3, h4⟩ := h
  refine ⟨by simpa [paddedGrid] using h1, h2, by omega, ?_⟩
  intro row hrow
  obtain ⟨l, hl, rfl⟩ := List.mem_map.mp hrow
  rw [length_paddedRow, h4 l hl]

/-- A unit move from `a` to `b`: exactly one of `|dx|`, `|dy|` is `1` and the other `0`
or, with diagonals enabled only, `|dx| = |dy| = 1`. -/
def UnitMove (diagonals : Bool) (a b : Point) : Prop :=
  ((b.X - a.X).natAbs = 1 ∧ (b.Y - a.Y).natAbs = 0) ∨
  ((b.X - a.X).natAbs = 0 ∧ (b.Y - a.Y).natAbs = 1) ∨
  (diagonals = true ∧ (b.X - a.X).natAbs = 1 ∧ (b.Y - a.Y).natAbs = 1)

instance (diagonals : Bool) (a b : Point) : Decidable (UnitMove diagonals a b) := by
  delta UnitMove
  infer_instance

/-- The corner-cutting gate for the step from `a` to `b`: if the step is diagonal, both
flanking cells have an acceptable tile. -/
def GateOK {F Q : Type} (p : Pathfinder F Q) (g : GridView) (a b : Point) : Prop :=
  (b.X - a.X).natAbs = 1 ∧ (b.Y - a.Y).natAbs = 1 →
    Walkable p g a.X b.Y ∧ Walkable p g b.X a.Y

instance {F Q : Type} (p : Pathfinder F Q) (g : GridView) (a b : Point) :
    Decidable (GateOK p g a b) := by
  delta GateOK
  infer_instance

/-- Five rows of four tiles, placed in the columns `55295 .. 55298`. -/
def jumpRows : List (List Int) :=
  [[0, 1, 0, 0], [1, 0, 1, 0], [1, 0, 0, 1], [0, 1, 0, 1], [0, 0, 1, 0]]

/-- The rows `jumpRows` behind `55295` columns of tiles `0`. -/
def jumpGrid : List (List Int) := paddedGrid 55295 jumpRows

/-- A pathfinder on `jumpGrid` with the acceptable tile `1`, diagonals and corner cutting
enabled, and the point costs `100` at `(55296, 3)` and `3` at `(55298, 2)`. -/
def jumpPathfinder : Pathfinder F64 (List Item) :=
  SetAdditionalPointCost
    (SetAdditionalPointCost
      (EnableCornerCutting
        (EnableDiagonals (SetAcceptableTiles (SetGrid (NewPathfinder goEnv) (some jumpGrid)) [1])))
      55296 3 (F64.ofInt 100))
    55298 2 (F64.ofInt 3)

/-- Five rows of six tiles, placed in the columns `55293 .. 55298`. -/
def cornerRows : List (List Int) :=
  [[1, 1, 1, 1, 1, 0], [1, 1, 1, 1, 1, 0], [1, 1, 0, 0, 1, 0], [1, 1, 0, 1, 1, 1],
    [1, 1, 1, 1, 0, 0]]

/-- The rows `cornerRows` behind `55293` columns of tiles `0`. -/
def cornerGrid : List (List Int) := paddedGrid 55293 cornerRows

/-- A pathfinder on `cornerGrid` with the acceptable tile `1`, diagonals enabled, corner
cutting disabled, and the point costs `100` at `(55297, 3)` and `0.5` at `(55297, 2)`. -/
def cornerPathfinder : Pathfinder F64 (List Item) :=
  SetAdditionalPointCost
    (SetAdditionalPointCost
      (EnableDiagonals (SetAcceptableTiles (SetGrid (NewPathfinder goEnv) (some cornerGrid)) [1]))
      55297 3 (F64.ofInt 100))
    55297 2 (F64.fin false 1 (-1))

theorem gridView_jumpGrid : gridView jumpGrid = paddedView 55295 jumpRows :=
  gridView_padded 55295 _ _

theorem gridView_cornerGrid : gridView cornerGrid = paddedView 55293 cornerRows :=
  gridView_padded 55293 _ _

/-- C2 fails on a grid wider than `55296`. On the grid `jumpGrid` of `55299` columns and
five rows, with diagonals and corner cutting enabled and the point costs `100` at
`(55296, 3)` and `3` at `(55298, 2)`, `FindPath(55296, 0, 55297, 4)` returns a route
whose step from `(55298, 2)` to `(55296, 3)` moves two columns: the node found under the
key of the candidate `(55298, 3)` of `(55298, 2)` is the node of `(55296, 3)`, which has
the same key, and its parent becomes `(55298, 2)`. -/
theorem FindPath_route_not_continuous :
    Rectangular jumpGrid 55299 5 ∧
      jumpPathfinder.collisionGrid = some jumpGrid ∧
      jumpPathfinder.diagonalsEnabled = true ∧
      (FindPath goEnv jumpPathfinder 55296 0 55297 4).1 =
        Outcome.route [⟨55296, 0⟩, ⟨55297, 1⟩, ⟨55298, 2⟩, ⟨55296, 3⟩, ⟨55297, 4⟩] ∧
      ¬ UnitMove jumpPathfinder.diagonalsEnabled ⟨55298, 2⟩ ⟨55296, 3⟩ := by
  refine ⟨rectangular_paddedGrid 55295 (by decide : Rectangular jumpRows 4 5), rfl, rfl,
    ?_, by decide⟩
  rw [FindPath_eq_findPathOn goEnv jumpPathfinder (paddedRow 55295 [0, 1, 0, 0])
      (paddedGrid 55295 [[1, 0, 1, 0], [1, 0, 0, 1], [0, 1, 0, 1], [0, 0, 1, 0]])
      (by decide) rfl (by decide) (by decide) (by decide)]
  rw [gridView_padded]
  decide

/-- C3 fails on a grid wider than `55296`. On the one-row grid of `55295` tiles `0`
followed by four tiles `1`, with the acceptable tile `1` and nothing else configured,
`FindPath(55295, 0, 55298, 0)` returns the error "path not found", although the four
cells `(55295, 0) .. (55298, 0)` are a permitted route from the start to the goal: the
candidate `(55297, 0)` has the key of `(55296, 0)`, which is already registered, so no
node is created for it and the frontier runs empty. -/
theorem FindPath_misses_permitted_route :
    Rectangular stripGrid 55299 1 ∧
      stripPathfinder.collisionGrid = some stripGrid ∧
      stripPathfinder.acceptableTiles = [1] ∧
      stripPathfinder.additionalPointsToCost = [] ∧
      PermittedRoute stripPathfinder (gridView stripGrid) ⟨55295, 0⟩ ⟨55298, 0⟩
        [⟨55295, 0⟩, ⟨55296, 0⟩, ⟨55297, 0⟩, ⟨55298, 0⟩] ∧
      (FindPath goEnv stripPathfinder 55295 0 55298 0).1 = Outcome.error "path not found" := by
  refine ⟨rectangular_paddedGrid 55295 (by decide : Rectangular [[1, 1, 1, 1]] 4 1),
    rfl, rfl, rfl, ?_, ?_⟩
  · rw [gridView_stripGrid]
    decide
  · rw [FindPath_eq_findPathOn goEnv stripPathfinder (paddedRow 55295 [1, 1, 1, 1])
      (paddedGrid 55295 []) (by decide) rfl (by decide) (by decide) (by decide)]
    rw [gridView_padded]
    decide

/-- C5 fails on a grid wider than `55296`. On the grid `cornerGrid` of `55299` columns
and five rows, with diagonals enabled, corner cutting disabled and the point costs `100`
at `(55297, 3)` and `0.5` at `(55297, 2)`, `FindPath(55297, 1, 55298, 3)` returns a route
with the diagonal step from `(55296, 4)` to `(55297, 3)`, whose flanking cell
`(55297, 4)` has the tile `0`, which is not acceptable: the node found under the key of
the candidate `(55296, 3)` of `(55296, 4)` is the node of `(55297, 3)`, and its parent
becomes `(55296, 4)`. -/
theorem FindPath_route_cuts_corner :
    Rectangular cornerGrid 55299 5 ∧
      cornerPathfinder.collisionGrid = some cornerGrid ∧
      cornerPathfinder.diagonalsEnabled = true ∧
      cornerPathfinder.allowCornerCutting = false ∧
      (FindPath goEnv cornerPathfinder 55297 1 55298 3).1 =
        Outcome.route [⟨55297, 1⟩, ⟨55296, 0⟩, ⟨55295, 1⟩, ⟨55294, 1⟩, ⟨55294, 2⟩,
          ⟨55294, 3⟩, ⟨55294, 4⟩, ⟨55295, 4⟩, ⟨55296, 4⟩, ⟨55297, 3⟩, ⟨55298, 3⟩] ∧
      ¬ Walkable cornerPathfinder (gridView cornerGrid) 55297 4 ∧
      ¬ GateOK cornerPathfinder (gridView cornerGrid) ⟨55296, 4⟩ ⟨55297, 3⟩ := by
  refine ⟨rectangular_paddedGrid 55293 (by decide : Rectangular cornerRows 6 5), rfl, rfl,
    rfl, ?_, ?_, ?_⟩
  · rw [FindPath_eq_findPathOn goEnv cornerPathfinder (paddedRow 55293 [1, 1, 1, 1, 1, 0])
        (paddedGrid 55293 [[1, 1, 1, 1, 1, 0], [1, 1, 0, 0, 1, 0], [1, 1, 0, 1, 1, 1],
          [1, 1, 1, 1, 0, 0]])
        (by decide) rfl (by decide) (by decide) (by decide)]
    rw [gridView_padded]
    decide
  · rw [gridView_cornerGrid]
    decide
  · rw [gridView_cornerGrid]
    decide

end CollisionRoutes

end Goeasystar

/-! ## Routes with the fewest cells -/

namespace Goeasystar

section Reach

variable {F Q : Type}

/-- The eight unit offsets. -/
def unitOffsets : List (Int × Int) :=
  [(0, -1), (1, 0), (0, 1), (-1, 0), (-1, -1), (1, -1), (1, 1), (-1, 1)]

/-- The cells one permitted step away from `a`. -/
def permittedNeighbours (p : Pathfinder F Q) (g : GridView) (a : Point) : List Point :=
  (unitOffsets.map (fun d => (⟨a.X + d.1, a.Y + d.2⟩ : Point))).filter
    (fun b => decide (PermittedStep p g a b))

/-- The list `acc` with `b` added unless it is there. -/
def addNew (acc : List Point) (b : Point) : List Point :=
  if b ∈ acc then acc else b :: acc

/-- The cells that end a sequence of exactly `k` permitted steps from `s`. -/
def reach (p : Pathfinder F Q) (g : GridView) (s : Point) : Nat → List Point
  | 0 => [s]
  | k + 1 => ((reach p g s k).flatMap (permittedNeighbours p g)).foldl addNew []

theorem mem_foldl_addNew (l acc : List Point) (b : Point) :
    b ∈ l.foldl addNew acc ↔ b ∈ acc ∨ b ∈ l := by
  induction l generalizing acc with
  | nil => simp
  | cons x r ih =>
    rw [List.foldl_cons, ih]
    unfold addNew
    by_cases hx : x ∈ acc
    · rw [if_pos hx]
      constructor
      · rintro (h | h)
        · exact Or.inl h
        · exact Or.inr (List.mem_cons_of_mem _ h)
      · rintro (h | h)
        · exact Or.inl h
        · rcases List.mem_cons.mp h with rfl | h
          · exact Or.inl hx
          · exact Or.inr h
    · rw [if_neg hx]
      simp only [List.mem_cons]
      tauto

theorem mem_permittedNeighbours (p : Pathfinder F Q) (g : GridView) (a b : Point)
    (h : PermittedStep p g a b) : b ∈ permittedNeighbours p g a := by
  unfold permittedNeighbours
  rw [List.mem_filter]
  refine ⟨?_, by simpa using h⟩
  obtain ⟨_, _, _, hmove⟩ := h
  have hx : b.X - a.X = -1 ∨ b.X - a.X = 0 ∨ b.X - a.X = 1 := by
    rcases hmove with h1 | ⟨_, h1, _⟩ <;> omega
  have hy : b.Y - a.Y = -1 ∨ b.Y - a.Y = 0 ∨ b.Y - a.Y = 1 := by
    rcases hmove with h1 | ⟨_, _, h1, _⟩ <;> omega
  have hne : ¬ (b.X - a.X = 0 ∧ b.Y - a.Y = 0) := by
    rcases hmove with h1 | ⟨_, h1, _⟩ <;> omega
  have hb : b = ⟨a.X + (b.X - a.X), a.Y + (b.Y - a.Y)⟩ := by
    cases b
    simp
  rw [hb]
  rcases hx with hx | hx | hx <;> rcases hy with hy | hy | hy <;> rw [hx, hy] <;>
    first
    | exact (hne (by omega)).elim
    | simp [unitOffsets]

theorem reach_step (p : Pathfinder F Q) (g : GridView) (s a b : Point) (k : Nat)
    (ha : a ∈ reach p g s k) (h : PermittedStep p g a b) : b ∈ reach p g s (k + 1) := by
  show b ∈ ((reach p g s k).flatMap (permittedNeighbours p g)).foldl addNew []
  rw [mem_foldl_addNew]
  right
  exact List.mem_flatMap.mpr ⟨a, ha, mem_permittedNeighbours p g a b h⟩

theorem reach_of_chain (p : Pathfinder F Q) (g : GridView) (s : Point) :
    ∀ (r : List Point) (a : Point) (k : Nat), a ∈ reach p g s k →
      PermittedChain p g (a :: r) → ∀ t, (a :: r).getLast? = some t →
      t ∈ reach p g s (k + r.length) := by
  intro r
  induction r with
  | nil =>
    intro a k ha _ t ht
    simp at ht
    subst ht
    simpa using ha
  | cons b r1 ih =>
    intro a k ha hch t ht
    obtain ⟨hstep, hrest⟩ := hch
    have hb := reach_step p g s a b k ha hstep
    have ht1 : (b :: r1).getLast? = some t := by
      rw [List.getLast?_cons_cons] at ht
      exact ht
    have := ih b (k + 1) hb hrest t ht1
    rw [List.length_cons]
    have e : k + (r1.length + 1) = k + 1 + r1.length := by omega
    rw [e]
    exact this

/-- The last cell of a permitted route of `n + 1` cells from `s` ends `n` permitted
steps from `s`. -/
theorem reach_of_permittedRoute (p : Pathfinder F Q) (g : GridView) (s t : Point)
    (r : List Point) (h : PermittedRoute p g s t r) :
    r ≠ [] ∧ t ∈ reach p g s (r.length - 1) := by
  obtain ⟨hhead, hlast, _, hch⟩ := h
  cases r with
  | nil => simp at hhead
  | cons a rest =>
    simp at hhead
    subst hhead
    refine ⟨by simp, ?_⟩
    have := reach_of_chain p g a rest a 0 (by simp [reach]) hch t hlast
    simpa using this

/-- A cell that ends no sequence of fewer than `n` permitted steps from `s` ends no
permitted route of `n` cells or fewer. -/
theorem length_of_not_reach (p : Pathfinder F Q) (g : GridView) (s t : Point) (n : Nat)
    (hn : ∀ m, m < n → t ∉ reach p g s m) (r : List Point)
    (h : PermittedRoute p g s t r) : n + 1 ≤ r.length := by
  obtain ⟨hne, hmem⟩ := reach_of_permittedRoute p g s t r h
  have hpos : 0 < r.length := List.length_pos.mpr hne
  by_contra hlt
  exact hn (r.length - 1) (by omega) hmem

end Reach

end Goeasystar

namespace Goeasystar

section Shortest

set_option maxHeartbeats 40000000

/-- A test that asserts the number of cells of the route: the pathfinder, its grid, the
start, the goal and the asserted number. -/
structure LengthTest where
  pathfinder : Pathfinder F64 (List Item)
  grid : List (List Int)
  startX : Int
  startY : Int
  endX : Int
  endY : Int
  cells : Nat

/-- The grid of `TestDiagonals`. -/
def openGrid : List (List Int) :=
  [[1, 1, 1, 1, 1], [1, 1, 1, 1, 1], [1, 1, 1, 1, 1], [1, 1, 1, 1, 1], [1, 1, 1, 1, 1]]

/-- The pathfinder of `TestDiagonals`. -/
def openPathfinder : Pathfinder F64 (List Item) :=
  SetAcceptableTiles (EnableDiagonals (SetGrid (NewPathfinder goEnv) (some openGrid))) [1]

/-- The grid of `TestPreferDiagonalPaths`. -/
def zeroGrid : List (List Int) :=
  [[0, 0, 0, 0, 0], [0, 0, 0, 0, 0], [0, 0, 0, 0, 0], [0, 0, 0, 0, 0], [0, 0, 0, 0, 0]]

/-- The pathfinder of `TestPreferDiagonalPaths`. -/
def zeroPathfinder : Pathfinder F64 (List Item) :=
  SetAcceptableTiles (EnableDiagonals (SetGrid (NewPathfinder goEnv) (some zeroGrid))) [0]

/-- The tests `TestSuccessfulPath`, `TestAvoidAdditionalPoint`, `TestDiagonals` and
`TestPreferDiagonalPaths` with the lengths they assert. -/
def lengthTests : List LengthTest :=
  [⟨wallPathfinder, wallGrid, 1, 2, 3, 2, 5⟩,
   ⟨wallAvoidPathfinder, wallGrid, 1, 2, 3, 2, 7⟩,
   ⟨openPathfinder, openGrid, 0, 0, 4, 4, 5⟩,
   ⟨zeroPathfinder, zeroGrid, 4, 4, 2, 2, 3⟩]

/-- A grid with a wall in the row `y = 2` that is open at both ends and a second opening
of the row `y = 0`. -/
def detourGrid : List (List Int) :=
  [[1, 1, 0, 1, 0], [1, 1, 1, 1, 1], [1, 0, 0, 0, 1], [1, 1, 1, 1, 1], [1, 1, 1, 1, 1]]

/-- A pathfinder on `detourGrid` with the acceptable tile `1` and nothing else set. -/
def detourPathfinder : Pathfinder F64 (List Item) :=
  SetAcceptableTiles (SetGrid (NewPathfinder goEnv) (some detourGrid)) [1]

/-- On the configurations of the tests that assert a length, `FindPath` returns a route
of the asserted number of cells (5, 7, 5 and 3), and no permitted route from the start
to the goal has fewer cells. -/
theorem FindPath_tests_shortest (c : LengthTest) (hc : c ∈ lengthTests)
    (r1 : List Point)
    (h : PermittedRoute c.pathfinder (gridView c.grid) ⟨c.startX, c.startY⟩
      ⟨c.endX, c.endY⟩ r1) :
    c.pathfinder.collisionGrid = some c.grid ∧
      c.pathfinder.additionalPointsToCost = [] ∧
      ∃ r, (FindPath goEnv c.pathfinder c.startX c.startY c.endX c.endY).1 = Outcome.route r ∧
        r.length = c.cells ∧ r.length ≤ r1.length := by
  simp only [lengthTests, List.mem_cons, List.mem_singleton, List.not_mem_nil, or_false] at hc
  rcases hc with rfl | rfl | rfl | rfl
  · refine ⟨rfl, rfl, [⟨1, 2⟩, ⟨1, 3⟩, ⟨2, 3⟩, ⟨3, 3⟩, ⟨3, 2⟩], by decide, rfl, ?_⟩
    exact length_of_not_reach _ _ _ _ 4 (by decide) r1 h
  · refine ⟨rfl, rfl, [⟨1, 2⟩, ⟨1, 3⟩, ⟨1, 4⟩, ⟨2, 4⟩, ⟨3, 4⟩, ⟨3, 3⟩, ⟨3, 2⟩], by decide,
      rfl, ?_⟩
    exact length_of_not_reach _ _ _ _ 6 (by decide) r1 h
  · refine ⟨rfl, rfl, [⟨0, 0⟩, ⟨1, 1⟩, ⟨2, 2⟩, ⟨3, 3⟩, ⟨4, 4⟩], by decide, rfl, ?_⟩
    exact length_of_not_reach _ _ _ _ 4 (by decide) r1 h
  · refine ⟨rfl, rfl, [⟨4, 4⟩, ⟨3, 3⟩, ⟨2, 2⟩], by decide, rfl, ?_⟩
    exact length_of_not_reach _ _ _ _ 2 (by decide) r1 h

/-- C7 fails in general. On `detourGrid`, with the acceptable tile `1`, diagonals
disabled, no avoided point and no point cost, `FindPath(4, 4, 1, 1)` returns a route of
nine cells that passes the wall at its left end, and the route of seven cells that
passes it at its right end is permitted: without costs the search expands the node
that looks nearest to the goal and stops when the goal is a candidate. -/
theorem FindPath_route_not_shortest :
    detourPathfinder.collisionGrid = some detourGrid ∧
      detourPathfinder.additionalPointsToCost = [] ∧
      detourPathfinder.additionalPointsToAvoid = [] ∧
      (FindPath goEnv detourPathfinder 4 4 1 1).1 =
        Outcome.route [⟨4, 4⟩, ⟨4, 3⟩, ⟨3, 3⟩, ⟨2, 3⟩, ⟨1, 3⟩, ⟨0, 3⟩, ⟨0, 2⟩, ⟨0, 1⟩, ⟨1, 1⟩] ∧
      PermittedRoute detourPathfinder (gridView detourGrid) ⟨4, 4⟩ ⟨1, 1⟩
        [⟨4, 4⟩, ⟨4, 3⟩, ⟨4, 2⟩, ⟨4, 1⟩, ⟨3, 1⟩, ⟨2, 1⟩, ⟨1, 1⟩] ∧
      [(⟨4, 4⟩ : Point), ⟨4, 3⟩, ⟨4, 2⟩, ⟨4, 1⟩, ⟨3, 1⟩, ⟨2, 1⟩, ⟨1, 1⟩].length <
        [(⟨4, 4⟩ : Point), ⟨4, 3⟩, ⟨3, 3⟩, ⟨2, 3⟩, ⟨1, 3⟩, ⟨0, 3⟩, ⟨0, 2⟩, ⟨0, 1⟩,
          ⟨1, 1⟩].length :=
  ⟨rfl, rfl, rfl, by decide, by decide, by decide⟩

end Shortest

end Goeasystar

/-! ## Grid reads in bounds, and the length of the search loop -/

namespace Goeasystar

section Bounds

variable {F Q : Type}

/-- The cell `(x, y)` is one of the cells of the grid. -/
def InView (g : GridView) (x y : Int) : Prop :=
  0 ≤ x ∧ x < g.width ∧ 0 ≤ y ∧ y < g.height

/-- Every read of a cell of the grid succeeds. -/
def Readable (g : GridView) : Prop :=
  ∀ x y, InView g x y → ∃ t, g.tileAt x y = some t

theorem readable_gridView {grid : List (List Int)} {W H : Nat} (h : Rectangular grid W H) :
    Readable (gridView grid) := by
  intro x y hb
  have hw := gridView_width h
  have hh := gridView_height h
  obtain ⟨h1, h2, h3, h4⟩ := hb
  exact gridAt_isSome h ⟨h1, by rw [← hw]; exact h2, h3, by rw [← hh]; exact h4⟩

theorem getTileCost_isSome (E : Env F Q) (p : Pathfinder F Q) {g : GridView}
    (hr : Readable g) {x y : Int} (hb : InView g x y) :
    ∃ c, getTileCost E p g x y = some c := by
  unfold getTileCost
  cases p.additionalPointsToCost.lookup (getHashKeyForPoint x y) with
  | some c => exact ⟨c, rfl⟩
  | none =>
    obtain ⟨t, ht⟩ := hr x y hb
    simp only [ht]
    exact ⟨_, rfl⟩

theorem isTileWalkable_isSome {g : GridView} (hr : Readable g) (tiles : List Int)
    {x y : Int} (hb : InView g x y) : ∃ b, isTileWalkable g tiles x y = some b := by
  unfold isTileWalkable
  obtain ⟨t, ht⟩ := hr x y hb
  simp only [ht]
  cases tiles with
  | nil => exact ⟨false, rfl⟩
  | cons a l => exact ⟨_, rfl⟩

theorem cornerAllowed_isSome (p : Pathfinder F Q) {g : GridView} (hr : Readable g)
    {x y dx dy : Int} (h1 : InView g x (y + dy)) (h2 : InView g (x + dx) y) :
    ∃ b, cornerAllowed p g x y dx dy = some b := by
  unfold cornerAllowed
  split_ifs
  · exact ⟨true, rfl⟩
  · obtain ⟨b1, hb1⟩ := isTileWalkable_isSome hr p.acceptableTiles h1
    obtain ⟨b2, hb2⟩ := isTileWalkable_isSome hr p.acceptableTiles h2
    rw [hb1]
    cases b1 with
    | true => exact ⟨b2, hb2⟩
    | false => exact ⟨false, rfl⟩

theorem straightCandidate_isSome (E : Env F Q) (p : Pathfinder F Q) {g : GridView}
    (hr : Readable g) (heap : List (Node F)) (parent : Nat) (guard : Bool) (dx dy : Int)
    (hb : guard = true →
      InView g ((nodeAt E heap parent).x + dx) ((nodeAt E heap parent).y + dy)) :
    ∃ l, straightCandidate E p g heap parent guard dx dy = some l := by
  unfold straightCandidate
  cases guard with
  | false => exact ⟨[], rfl⟩
  | true =>
    obtain ⟨c, hc⟩ := getTileCost_isSome E p hr (hb rfl)
    simp only [if_true, hc]
    exact ⟨_, rfl⟩

theorem diagonalCandidate_isSome (E : Env F Q) (p : Pathfinder F Q) {g : GridView}
    (hr : Readable g) (heap : List (Node F)) (parent : Nat) (guard : Bool) (dx dy : Int)
    (hb : guard = true →
      InView g ((nodeAt E heap parent).x + dx) ((nodeAt E heap parent).y + dy) ∧
      InView g (nodeAt E heap parent).x ((nodeAt E heap parent).y + dy) ∧
      InView g ((nodeAt E heap parent).x + dx) (nodeAt E heap parent).y) :
    ∃ l, diagonalCandidate E p g heap parent guard dx dy = some l := by
  unfold diagonalCandidate
  cases guard with
  | false => exact ⟨[], rfl⟩
  | true =>
    obtain ⟨h1, h2, h3⟩ := hb rfl
    obtain ⟨b, hbb⟩ := cornerAllowed_isSome p hr h2 h3
    obtain ⟨c, hc⟩ := getTileCost_isSome E p hr h1
    simp only [if_true, hbb]
    cases b with
    | true => simp only [hc]; exact ⟨_, rfl⟩
    | false => exact ⟨[], rfl⟩

theorem appendCandidates_isSome {a b : Option (List (SearchNode F))}
    (ha : ∃ l, a = some l) (hb : ∃ l, b = some l) : ∃ l, appendCandidates a b = some l := by
  obtain ⟨l1, rfl⟩ := ha
  obtain ⟨l2, rfl⟩ := hb
  exact ⟨l1 ++ l2, rfl⟩

/-- The candidates of a node in bounds are built without a panic. -/
theorem candidates_isSome (E : Env F Q) (p : Pathfinder F Q) {g : GridView}
    (hr : Readable g) (heap : List (Node F)) (parent : Nat)
    (hb : InView g (nodeAt E heap parent).x (nodeAt E heap parent).y) :
    ∃ sn, candidates E p g heap parent = some sn := by
  obtain ⟨h1, h2, h3, h4⟩ := hb
  have hs : ∃ l, appendCandidates
      (straightCandidate E p g heap parent (decide ((nodeAt E heap parent).y > 0)) 0 (-1))
      (appendCandidates
        (straightCandidate E p g heap parent
          (decide ((nodeAt E heap parent).x < g.width - 1)) 1 0)
      (appendCandidates
        (straightCandidate E p g heap parent
          (decide ((nodeAt E heap parent).y < g.height - 1)) 0 1)
        (straightCandidate E p g heap parent
          (decide ((nodeAt E heap parent).x > 0)) (-1) 0))) = some l := by
    refine appendCandidates_isSome (straightCandidate_isSome E p hr _ _ _ _ _ ?_)
      (appendCandidates_isSome (straightCandidate_isSome E p hr _ _ _ _ _ ?_)
      (appendCandidates_isSome (straightCandidate_isSome E p hr _ _ _ _ _ ?_)
        (straightCandidate_isSome E p hr _ _ _ _ _ ?_)))
    all_goals
      intro hg
      simp only [decide_eq_true_eq] at hg
      unfold InView
      omega
  unfold candidates
  simp only []
  split_ifs
  · refine appendCandidates_isSome hs
      (appendCandidates_isSome (diagonalCandidate_isSome E p hr _ _ _ _ _ ?_)
      (appendCandidates_isSome (diagonalCandidate_isSome E p hr _ _ _ _ _ ?_)
      (appendCandidates_isSome (diagonalCandidate_isSome E p hr _ _ _ _ _ ?_)
        (diagonalCandidate_isSome E p hr _ _ _ _ _ ?_))))
    all_goals
      intro hg
      simp only [decide_eq_true_eq] at hg
      unfold InView
      omega
  · exact hs

/-- A candidate built under its guards is a cell of the grid. -/
theorem inView_of_guarded (p : Pathfinder F Q) {g : GridView} {x y dx dy : Int}
    (hb : InView g x y) (hg : Guarded g x y dx dy) (hd : Direction p g x y dx dy) :
    InView g (x + dx) (y + dy) := by
  obtain ⟨h1, h2, h3, h4⟩ := hb
  obtain ⟨g1, g2, g3, g4⟩ := hg
  have hdx : dx = -1 ∨ dx = 0 ∨ dx = 1 := by
    rcases hd with (⟨hx, _⟩ | ⟨_, hx | hx⟩) | ⟨_, hx | hx, _, _⟩ <;> omega
  have hdy : dy = -1 ∨ dy = 0 ∨ dy = 1 := by
    rcases hd with (⟨_, hy | hy⟩ | ⟨hy, _⟩) | ⟨_, _, hy | hy, _⟩ <;> omega
  unfold InView
  omega

end Bounds

end Goeasystar

namespace Goeasystar

section Budget

variable {F Q : Type}

theorem lookup_none_ne {K V : Type} [BEq K] [LawfulBEq K] (m : List (K × V)) (k : K)
    (h : m.lookup k = none) : ∀ e ∈ m, e.1 ≠ k := by
  induction m with
  | nil => intro e he; simp at he
  | cons a r ih =>
    obtain ⟨a1, a2⟩ := a
    intro e he
    rw [List.lookup_cons] at h
    by_cases hk : (k == a1) = true
    · rw [hk] at h; simp at h
    · have hk1 : (k == a1) = false := by simpa using hk
      rw [hk1] at h
      rcases List.mem_cons.mp he with rfl | he
      · intro heq
        have heq1 : a1 = k := heq
        subst heq1
        exact hk (by simp)
      · exact ih h e he

theorem mapSet_of_lookup_none {K V : Type} [DecidableEq K] [BEq K] [LawfulBEq K]
    (m : List (K × V)) (k : K) (v : V) (h : m.lookup k = none) :
    mapSet m k v = (k, v) :: m := by
  unfold mapSet
  congr 1
  rw [List.filter_eq_self]
  intro e he
  simpa using lookup_none_ne m k h e he

/-- The keys that a search has registered are distinct keys of cells of the grid. -/
structure Bounded (E : Env F Q) (g : GridView) (st : SearchState F Q) : Prop where
  inB : ∀ i, i < st.heap.length → InView g (nodeAt E st.heap i).x (nodeAt E st.heap i).y
  keysNodup : (st.coordinateToNode.map Prod.fst).Nodup
  keysIn : ∀ k ∈ st.coordinateToNode.map Prod.fst,
    ∃ x y, InView g x y ∧ k = getHashKeyForPoint x y

/-- The iterations left are more than the items of the open list and the keys not yet
registered. -/
def Budget (E : Env F Q) (g : GridView) (fuel : Nat) (st : SearchState F Q) : Prop :=
  E.pq.len st.openList + (g.width * g.height).toNat < fuel + st.coordinateToNode.length

/-- The keys of the cells of a grid with `W` columns and `H` rows. -/
def cellKeys (W H : Nat) : List GoString :=
  (List.product (List.range W) (List.range H)).map
    (fun c => getHashKeyForPoint (c.1 : Int) (c.2 : Int))

theorem length_cellKeys (W H : Nat) : (cellKeys W H).length = W * H := by
  unfold cellKeys
  rw [List.length_map]
  exact (List.length_product _ _).trans (by simp)

theorem Bounded.count_le {E : Env F Q} {g : GridView} {st : SearchState F Q}
    (h : Bounded E g st) (hw : 0 ≤ g.width) (hh : 0 ≤ g.height) :
    st.coordinateToNode.length ≤ (g.width * g.height).toNat := by
  obtain ⟨W, hW⟩ := Int.eq_ofNat_of_zero_le hw
  obtain ⟨H, hH⟩ := Int.eq_ofNat_of_zero_le hh
  have hsub : st.coordinateToNode.map Prod.fst ⊆ cellKeys W H := by
    intro k hk
    obtain ⟨x, y, ⟨hx0, hx1, hy0, hy1⟩, rfl⟩ := h.keysIn k hk
    obtain ⟨a, rfl⟩ := Int.eq_ofNat_of_zero_le hx0
    obtain ⟨b, rfl⟩ := Int.eq_ofNat_of_zero_le hy0
    unfold cellKeys
    rw [List.mem_map]
    refine ⟨(a, b), ?_, rfl⟩
    rw [hW] at hx1
    rw [hH] at hy1
    exact List.pair_mem_product.mpr
      ⟨List.mem_range.mpr (by exact_mod_cast hx1), List.mem_range.mpr (by exact_mod_cast hy1)⟩
  have hle := (List.subperm_of_subset h.keysNodup hsub).length_le
  rw [List.length_map, length_cellKeys] at hle
  rw [hW, hH]
  have : ((W : Int) * (H : Int)).toNat = W * H := by
    rw [← Int.ofNat_mul]
    exact Int.toNat_ofNat _
  rw [this]
  exact hle

theorem len_push (E : Env F Q) (q : Q) (it : Item) :
    E.pq.len (E.pq.push q it) = E.pq.len q + 1 := by
  rw [E.pq.len_eq, E.pq.len_eq, (E.pq.items_push q it).length_eq]
  rfl

theorem bounded_relax {E : Env F Q} {g : GridView} {st : SearchState F Q}
    (h : Bounded E g st) (e : Nat) (s : SearchNode F) :
    Bounded E g { st with heap := relax E st.heap e s } where
  inB := by
    intro i hi
    simp only [relax_length] at hi
    simp only [relax_x, relax_y]
    exact h.inB i hi
  keysNodup := h.keysNodup
  keysIn := h.keysIn

theorem bounded_register {E : Env F Q} (p : Pathfinder F Q) {g : GridView}
    {st : SearchState F Q} (h : Bounded E g st) (x y : Int) (s : SearchNode F)
    (hb : InView g x y)
    (hl : st.coordinateToNode.lookup (getHashKeyForPoint x y) = none) :
    Bounded E g (register E p st (getHashKeyForPoint x y) x y s) where
  inB := by
    intro i hi
    rw [register_length] at hi
    rw [register_node]
    by_cases h1 : i < st.heap.length
    · rw [if_pos h1]; exact h.inB i h1
    · rw [if_neg h1, if_pos (by omega)]
      exact hb
  keysNodup := by
    show ((mapSet st.coordinateToNode (getHashKeyForPoint x y) st.heap.length).map
      Prod.fst).Nodup
    rw [mapSet_of_lookup_none _ _ _ hl, List.map_cons, List.nodup_cons]
    refine ⟨?_, h.keysNodup⟩
    intro hmem
    obtain ⟨e, he, hk⟩ := List.mem_map.mp hmem
    exact lookup_none_ne _ _ hl e he hk
  keysIn := by
    intro k hk
    have hk1 : k ∈ (mapSet st.coordinateToNode (getHashKeyForPoint x y) st.heap.length).map
      Prod.fst := hk
    rw [mapSet_of_lookup_none _ _ _ hl, List.map_cons, List.mem_cons] at hk1
    rcases hk1 with rfl | hk1
    · exact ⟨x, y, hb, rfl⟩
    · exact h.keysIn k hk1

theorem budget_register {E : Env F Q} (p : Pathfinder F Q) {g : GridView} {fuel : Nat}
    {st : SearchState F Q} (h : Budget E g fuel st) (k : GoString) (x y : Int)
    (s : SearchNode F) (hl : st.coordinateToNode.lookup k = none) :
    Budget E g fuel (register E p st k x y s) := by
  unfold Budget at *
  have h1 : (Goeasystar.register E p st k x y s).coordinateToNode.length
      = st.coordinateToNode.length + 1 := by
    show (mapSet st.coordinateToNode k st.heap.length).length = _
    rw [mapSet_of_lookup_none _ _ _ hl]
    rfl
  have h2 : E.pq.len (Goeasystar.register E p st k x y s).openList
      = E.pq.len st.openList + 1 :=
    len_push E _ _
  rw [h1, h2]
  omega

theorem budget_pop {E : Env F Q} {g : GridView} {fuel : Nat} {st : SearchState F Q}
    (h : Budget E g (fuel + 1) st) {item : Item}
    (hperm : (E.pq.items st.openList).Perm
      (item :: E.pq.items (E.pq.peekAndShift st.openList maxInt64).2)) :
    Budget E g fuel { st with openList := (E.pq.peekAndShift st.openList maxInt64).2 } := by
  unfold Budget at *
  have h1 : E.pq.len st.openList
      = E.pq.len (E.pq.peekAndShift st.openList maxInt64).2 + 1 := by
    rw [E.pq.len_eq, E.pq.len_eq, hperm.length_eq]
    rfl
  simp only
  omega

theorem bounded_initial (E : Env F Q) (p : Pathfinder F Q) (g : GridView) (sx sy : Int)
    (hs : p.startX = sx ∧ p.startY = sy) (hb : InView g sx sy) :
    Bounded E g (initialState E p g sx sy) where
  inB := by
    intro i hi
    have : i = 0 := by simp [initialState] at hi; omega
    subst this
    simp only [initialState, nodeAt, newNode, List.getD_cons_zero, hs.1, hs.2]
    exact hb
  keysNodup := by simp [initialState, mapSet]
  keysIn := by
    intro k hk
    simp only [initialState, mapSet, List.filter_nil, List.map_cons, List.map_nil,
      List.mem_singleton] at hk
    exact ⟨sx, sy, hb, hk⟩

theorem budget_initial (E : Env F Q) (p : Pathfinder F Q) (g : GridView) (sx sy : Int) :
    Budget E g (loopBound g) (initialState E p g sx sy) := by
  unfold Budget loopBound
  have h1 : E.pq.len (initialState E p g sx sy).openList = 1 := by
    show E.pq.len (E.pq.push _ _) = 1
    rw [len_push, E.pq.len_eq, E.pq.items_new]
    rfl
  have h2 : (initialState E p g sx sy).coordinateToNode.length = 1 := by
    simp [initialState, mapSet]
  rw [h1, h2]
  omega

/-- With no iteration left the budget is used up, which the number of keys excludes. -/
theorem Budget.not_zero {E : Env F Q} {g : GridView} {st : SearchState F Q}
    (h : Budget E g 0 st) (hb : Bounded E g st) (hw : 0 ≤ g.width) (hh : 0 ≤ g.height) :
    False := by
  unfold Budget at h
  have := hb.count_le hw hh
  omega

end Budget

end Goeasystar

/-! ## Parent links under non-negative costs -/

namespace Goeasystar

section Chains

variable {F Q : Type}

/-- The nodes met by following the parent links from node `i` up to a node without a
parent. -/
inductive IsChain (E : Env F Q) (heap : List (Node F)) : Nat → List Nat → Prop where
  | root (i : Nat) : (nodeAt E heap i).parent = none → IsChain E heap i [i]
  | link (i q : Nat) (l : List Nat) : (nodeAt E heap i).parent = some q →
      IsChain E heap q l → IsChain E heap i (i :: l)

theorem IsChain.eq_cons {E : Env F Q} {heap : List (Node F)} {i : Nat} {l : List Nat}
    (h : IsChain E heap i l) : ∃ t, l = i :: t := by
  cases h with
  | root _ _ => exact ⟨[], rfl⟩
  | link _ q l0 _ _ => exact ⟨l0, rfl⟩

theorem IsChain.unique {E : Env F Q} {heap : List (Node F)} {i : Nat} {l1 l2 : List Nat}
    (h1 : IsChain E heap i l1) (h2 : IsChain E heap i l2) : l1 = l2 := by
  induction h1 generalizing l2 with
  | root i hp =>
    cases h2 with
    | root _ _ => rfl
    | link _ q l0 hq _ => rw [hp] at hq; cases hq
  | link i q l0 hp _ ih =>
    cases h2 with
    | root _ hq => rw [hp] at hq; cases hq
    | link _ q2 l2 hq hc =>
      rw [hp] at hq
      cases hq
      rw [ih hc]

/-- From every node of a chain a chain starts that is no longer. -/
theorem IsChain.suffix {E : Env F Q} {heap : List (Node F)} {i : Nat} {l : List Nat}
    (h : IsChain E heap i l) : ∀ j ∈ l, ∃ s, IsChain E heap j s ∧ s.length ≤ l.length := by
  induction h with
  | root i hp =>
    intro j hj
    simp only [List.mem_singleton] at hj
    subst hj
    exact ⟨[j], IsChain.root j hp, le_refl _⟩
  | link i q l0 hp hc ih =>
    intro j hj
    rcases List.mem_cons.mp hj with rfl | hj
    · exact ⟨j :: l0, IsChain.link j q l0 hp hc, le_refl _⟩
    · obtain ⟨s, hs, hlen⟩ := ih j hj
      exact ⟨s, hs, by simp only [List.length_cons]; omega⟩

theorem IsChain.nodup {E : Env F Q} {heap : List (Node F)} {i : Nat} {l : List Nat}
    (h : IsChain E heap i l) : l.Nodup := by
  induction h with
  | root i _ => simp
  | link i q l0 hp hc ih =>
    rw [List.nodup_cons]
    refine ⟨?_, ih⟩
    intro hmem
    obtain ⟨s, hs, hlen⟩ := hc.suffix i hmem
    have := hs.unique (IsChain.link i q l0 hp hc)
    rw [this] at hlen
    simp only [List.length_cons] at hlen
    omega

theorem IsChain.lt_length {E : Env F Q} {heap : List (Node F)} {i : Nat} {l : List Nat}
    (h : IsChain E heap i l) (hi : i < heap.length)
    (hp : ∀ a b, (nodeAt E heap a).parent = some b → b < heap.length) :
    ∀ j ∈ l, j < heap.length := by
  induction h with
  | root i _ =>
    intro j hj
    simp only [List.mem_singleton] at hj
    subst hj
    exact hi
  | link i q l0 hq _ ih =>
    intro j hj
    rcases List.mem_cons.mp hj with rfl | hj
    · exact hi
    · exact ih (hp _ _ hq) j hj

/-- A chain has at most as many nodes as are allocated. -/
theorem IsChain.length_le {E : Env F Q} {heap : List (Node F)} {i : Nat} {l : List Nat}
    (h : IsChain E heap i l) (hi : i < heap.length)
    (hp : ∀ a b, (nodeAt E heap a).parent = some b → b < heap.length) :
    l.length ≤ heap.length := by
  have hsub : l ⊆ List.range heap.length := fun j hj =>
    List.mem_range.mpr (h.lt_length hi hp j hj)
  have := (List.subperm_of_subset h.nodup hsub).length_le
  simpa using this

/-- The walk over the parent links ends when it has as many steps as the chain has
nodes. -/
theorem parentWalk_of_chain {E : Env F Q} {heap : List (Node F)} {i : Nat} {l : List Nat}
    (h : IsChain E heap i l) :
    ∀ fuel, l.length ≤ fuel → ∃ r, parentWalk E heap fuel i = some r := by
  induction h with
  | root i hp =>
    intro fuel hf
    cases fuel with
    | zero => simp at hf
    | succ fuel =>
      unfold parentWalk
      rw [hp]
      exact ⟨[], rfl⟩
  | link i q l0 hp _ ih =>
    intro fuel hf
    cases fuel with
    | zero => simp at hf
    | succ fuel =>
      obtain ⟨r, hr⟩ := ih fuel (by simp only [List.length_cons] at hf; omega)
      unfold parentWalk
      rw [hp]
      simp only [hr]
      exact ⟨_, rfl⟩

/-- A chain is a chain of every heap with the same parent links on its nodes. -/
theorem IsChain.congr {E : Env F Q} {heap heap1 : List (Node F)} {i : Nat} {l : List Nat}
    (h : IsChain E heap i l)
    (hp : ∀ j ∈ l, (nodeAt E heap1 j).parent = (nodeAt E heap j).parent) :
    IsChain E heap1 i l := by
  induction h with
  | root i hq =>
    exact IsChain.root i (by rw [hp i (List.mem_singleton_self i)]; exact hq)
  | link i q l0 hq _ ih =>
    exact IsChain.link i q l0 (by rw [hp i (List.mem_cons_self _ _)]; exact hq)
      (ih (fun j hj => hp j (List.mem_cons_of_mem _ hj)))

end Chains

end Goeasystar

namespace Goeasystar

section Costs

variable {F Q : Type}

/-- What the search needs of the float operations: `T` holds of the tile costs and `N`
of the costs of nodes; adding the cost of a step to a node cost gives a node cost that
is not less; and `<` is asymmetric, with `a ≤ b` (not `b < a`) transitive on node
costs. -/
structure CostLaws (E : Env F Q) (T N : F → Prop) : Prop where
  zero : T E.f.zero
  dist : ∀ x y ex ey, N (getDistance E x y ex ey)
  straight : ∀ a c, N a → T c → N (E.f.add a (E.f.mul E.f.straightCost c)) ∧
    E.f.lt (E.f.add a (E.f.mul E.f.straightCost c)) a = false
  diagonal : ∀ a c, N a → T c → N (E.f.add a (E.f.mul E.f.diagonalCost c)) ∧
    E.f.lt (E.f.add a (E.f.mul E.f.diagonalCost c)) a = false
  asymm : ∀ a b, E.f.lt a b = true → E.f.lt b a = false
  trans : ∀ a b c, N a → N b → N c → E.f.lt b a = false → E.f.lt c b = false →
    E.f.lt c a = false

/-- The point costs and the tile costs of the pathfinder satisfy `T`. -/
def TileCosts (p : Pathfinder F Q) (T : F → Prop) : Prop :=
  (∀ k c, p.additionalPointsToCost.lookup k = some c → T c) ∧
  (∀ t c, p.costMap.lookup t = some c → T c)

/-- The cost of a step: added to a node cost it gives a node cost that is not less. -/
def StepCost (E : Env F Q) (N : F → Prop) (c : F) : Prop :=
  ∀ a, N a → N (E.f.add a c) ∧ E.f.lt (E.f.add a c) a = false

theorem CostLaws.irrefl {E : Env F Q} {T N : F → Prop} (L : CostLaws E T N) (a : F) :
    E.f.lt a a = false := by
  cases h : E.f.lt a a with
  | false => rfl
  | true => have := L.asymm a a h; rw [h] at this; cases this

theorem getTileCost_tile {E : Env F Q} {T N : F → Prop} (L : CostLaws E T N)
    {p : Pathfinder F Q} (hp : TileCosts p T) {g : GridView} {x y : Int} {c : F}
    (h : getTileCost E p g x y = some c) : T c := by
  unfold getTileCost at h
  cases ho : p.additionalPointsToCost.lookup (getHashKeyForPoint x y) with
  | some c1 =>
    rw [ho] at h
    simp only [Option.some.injEq] at h
    subst h
    exact hp.1 _ _ ho
  | none =>
    rw [ho] at h
    cases ht : g.tileAt x y with
    | none => rw [ht] at h; simp at h
    | some t =>
      rw [ht] at h
      simp only [Option.some.injEq] at h
      subst h
      cases hm : p.costMap.lookup t with
      | none => simpa using L.zero
      | some c2 => simpa using hp.2 _ _ hm

theorem stepCost_of_costOK {E : Env F Q} {T N : F → Prop} (L : CostLaws E T N)
    {p : Pathfinder F Q} (hp : TileCosts p T) {g : GridView} {x y : Int}
    {s : SearchNode F} (h : CostOK E p g x y s) : StepCost E N s.cost := by
  obtain ⟨c, hc, hs | hs⟩ := h
  · intro a ha
    rw [hs]
    exact L.straight a c ha (getTileCost_tile L hp hc)
  · intro a ha
    rw [hs]
    exact L.diagonal a c ha (getTileCost_tile L hp hc)

/-- What the costs of the nodes keep: every cost is a node cost, no node costs less
than its parent, and the parent links of every node lead to a node without a parent. -/
structure CostInv (E : Env F Q) (N : F → Prop) (heap : List (Node F)) : Prop where
  costN : ∀ i, i < heap.length → N (nodeAt E heap i).costSoFar
  mono : ∀ i q, i < heap.length → (nodeAt E heap i).parent = some q →
    E.f.lt (nodeAt E heap i).costSoFar (nodeAt E heap q).costSoFar = false
  rooted : ∀ i, i < heap.length → ∃ l, IsChain E heap i l

/-- No node of a chain costs more than the node the chain starts from. -/
theorem IsChain.cost_le {E : Env F Q} {T N : F → Prop} (L : CostLaws E T N)
    {heap : List (Node F)} (hc : CostInv E N heap)
    (hp : ∀ a b, (nodeAt E heap a).parent = some b → b < heap.length)
    {i : Nat} {l : List Nat} (h : IsChain E heap i l) (hi : i < heap.length) :
    ∀ j ∈ l, E.f.lt (nodeAt E heap i).costSoFar (nodeAt E heap j).costSoFar = false := by
  induction h with
  | root i _ =>
    intro j hj
    simp only [List.mem_singleton] at hj
    subst hj
    exact L.irrefl _
  | link i q l0 hq hch ih =>
    intro j hj
    rcases List.mem_cons.mp hj with rfl | hj
    · exact L.irrefl _
    · have hql : q < heap.length := hp _ _ hq
      have hjl : j < heap.length := hch.lt_length hql hp j hj
      exact L.trans _ _ _ (hc.costN j hjl) (hc.costN q hql) (hc.costN i hi)
        (ih hql j hj) (hc.mono i q hi hq)

theorem costInv_initial {E : Env F Q} {T N : F → Prop} (L : CostLaws E T N)
    (x y ex ey : Int) (c : F) :
    CostInv E N [newNode E [] x y ex ey none c] where
  costN := by
    intro i hi
    have : i = 0 := by simp at hi; omega
    subst this
    simp only [nodeAt, newNode, List.getD_cons_zero]
    exact L.dist _ _ _ _
  mono := by
    intro i q hi hq
    have : i = 0 := by simp at hi; omega
    subst this
    simp [nodeAt, newNode] at hq
  rooted := by
    intro i hi
    have : i = 0 := by simp at hi; omega
    subst this
    exact ⟨[0], IsChain.root 0 (by simp [nodeAt, newNode])⟩

theorem CostInv.append {E : Env F Q} {N : F → Prop}
    {heap : List (Node F)} (hc : CostInv E N heap)
    (hp : ∀ a b, (nodeAt E heap a).parent = some b → b < heap.length)
    (x y ex ey : Int) (q : Nat) (c : F) (hq : q < heap.length) (hs : StepCost E N c) :
    CostInv E N (heap ++ [newNode E heap x y ex ey (some q) c]) := by
  have hold : ∀ i, i < heap.length →
      nodeAt E (heap ++ [newNode E heap x y ex ey (some q) c]) i = nodeAt E heap i :=
    fun i hi => nodeAt_append_of_lt E heap _ i hi
  have hnew : nodeAt E (heap ++ [newNode E heap x y ex ey (some q) c]) heap.length
      = newNode E heap x y ex ey (some q) c := nodeAt_append_length E heap _
  have hstep := hs _ (hc.costN q hq)
  refine ⟨?_, ?_, ?_⟩
  · intro i hi
    simp only [List.length_append, List.length_singleton] at hi
    by_cases h1 : i < heap.length
    · rw [hold i h1]; exact hc.costN i h1
    · have : i = heap.length := by omega
      subst this
      rw [hnew]
      exact hstep.1
  · intro i q1 hi hq1
    simp only [List.length_append, List.length_singleton] at hi
    by_cases h1 : i < heap.length
    · rw [hold i h1] at hq1 ⊢
      rw [hold q1 (hp _ _ hq1)]
      exact hc.mono i q1 h1 hq1
    · have : i = heap.length := by omega
      subst this
      rw [hnew] at hq1 ⊢
      simp only [newNode, Option.some.injEq] at hq1
      subst hq1
      rw [hold _ hq]
      exact hstep.2
  · intro i hi
    simp only [List.length_append, List.length_singleton] at hi
    have hchain : ∀ j, j < heap.length →
        ∃ l, IsChain E (heap ++ [newNode E heap x y ex ey (some q) c]) j l := by
      intro j hj
      obtain ⟨l, hl⟩ := hc.rooted j hj
      exact ⟨l, hl.congr (fun a ha => by rw [hold a (hl.lt_length hj hp a ha)])⟩
    by_cases h1 : i < heap.length
    · exact hchain i h1
    · have : i = heap.length := by omega
      subst this
      obtain ⟨l, hl⟩ := hchain q hq
      exact ⟨heap.length :: l, IsChain.link _ q l (by rw [hnew]; rfl) hl⟩

end Costs

end Goeasystar

namespace Goeasystar

section Relaxation

variable {F Q : Type}

/-- After the parent of `e` is set to a node whose chain does not pass `e`, the parent
links of every node still lead to a node without a parent. -/
theorem IsChain.reparent {E : Env F Q} {heap heap1 : List (Node F)} {e : Nat}
    {le : List Nat} (he : IsChain E heap1 e le)
    (hsame : ∀ j, j ≠ e → (nodeAt E heap1 j).parent = (nodeAt E heap j).parent)
    {i : Nat} {l : List Nat} (h : IsChain E heap i l) : ∃ l1, IsChain E heap1 i l1 := by
  induction h with
  | root i hp =>
    by_cases hie : i = e
    · subst hie; exact ⟨le, he⟩
    · exact ⟨[i], IsChain.root i (by rw [hsame i hie]; exact hp)⟩
  | link i q l0 hp _ ih =>
    by_cases hie : i = e
    · subst hie; exact ⟨le, he⟩
    · obtain ⟨l1, hl1⟩ := ih
      exact ⟨i :: l1, IsChain.link i q l1 (by rw [hsame i hie]; exact hp) hl1⟩

theorem costInv_relax {E : Env F Q} {T N : F → Prop} (L : CostLaws E T N)
    {heap : List (Node F)} (hc : CostInv E N heap)
    (hp : ∀ a b, (nodeAt E heap a).parent = some b → b < heap.length)
    (e : Nat) (s : SearchNode F) (hq : s.parent < heap.length)
    (hs : StepCost E N s.cost) :
    CostInv E N (Goeasystar.relax E heap e s) := by
  unfold Goeasystar.relax
  simp only []
  by_cases hlt : E.f.lt (E.f.add (nodeAt E heap s.parent).costSoFar s.cost)
      (nodeAt E heap e).costSoFar = true
  swap
  · rw [if_neg hlt]; exact hc
  rw [if_pos hlt]
  by_cases hel : e < heap.length
  swap
  · rw [List.set_eq_of_length_le (not_lt.mp hel)]; exact hc
  obtain ⟨hvN, hvq⟩ := hs _ (hc.costN s.parent hq)
  have hqe : s.parent ≠ e := by
    intro h
    rw [h] at hvq hlt
    rw [hvq] at hlt
    cases hlt
  have hne : ∀ j, j ≠ e →
      nodeAt E (heap.set e { nodeAt E heap e with
        costSoFar := E.f.add (nodeAt E heap s.parent).costSoFar s.cost,
        parent := some s.parent }) j = nodeAt E heap j := by
    intro j hj
    rw [nodeAt_set, if_neg (fun h => hj h.1)]
  have hat : nodeAt E (heap.set e { nodeAt E heap e with
        costSoFar := E.f.add (nodeAt E heap s.parent).costSoFar s.cost,
        parent := some s.parent }) e = { nodeAt E heap e with
        costSoFar := E.f.add (nodeAt E heap s.parent).costSoFar s.cost,
        parent := some s.parent } := by
    rw [nodeAt_set, if_pos ⟨rfl, hel⟩]
  have hve : E.f.lt (nodeAt E heap e).costSoFar
      (E.f.add (nodeAt E heap s.parent).costSoFar s.cost) = false := L.asymm _ _ hlt
  refine ⟨?_, ?_, ?_⟩
  · intro i hi
    rw [List.length_set] at hi
    by_cases hie : i = e
    · subst hie; rw [hat]; exact hvN
    · rw [hne i hie]; exact hc.costN i hi
  · intro i q1 hi hq1
    rw [List.length_set] at hi
    by_cases hie : i = e
    · subst hie
      rw [hat] at hq1 ⊢
      simp only [Option.some.injEq] at hq1
      subst hq1
      rw [hne _ hqe]
      exact hvq
    · rw [hne i hie] at hq1 ⊢
      by_cases hq1e : q1 = e
      · subst hq1e
        rw [hat]
        exact L.trans _ _ _ hvN (hc.costN q1 hel) (hc.costN i hi) hve
          (hc.mono i q1 hi hq1)
      · rw [hne q1 hq1e]
        exact hc.mono i q1 hi hq1
  · intro i hi
    rw [List.length_set] at hi
    obtain ⟨lq, hlq⟩ := hc.rooted s.parent hq
    have hnot : e ∉ lq := by
      intro hmem
      have h1 := hlq.cost_le L hc hp hq e hmem
      have := L.trans _ _ _ (hc.costN e hel) (hc.costN s.parent hq) hvN h1 hvq
      rw [this] at hlt
      cases hlt
    have hlq1 : IsChain E (heap.set e { nodeAt E heap e with
        costSoFar := E.f.add (nodeAt E heap s.parent).costSoFar s.cost,
        parent := some s.parent }) s.parent lq :=
      hlq.congr (fun j hj => by rw [hne j (fun h => hnot (h ▸ hj))])
    have he1 := IsChain.link e s.parent lq (by rw [hat]) hlq1
    obtain ⟨l, hl⟩ := hc.rooted i hi
    exact IsChain.reparent he1 (fun j hj => by rw [hne j hj]) hl

end Relaxation

end Goeasystar

namespace Goeasystar

section Ends

variable {F Q : Type}

/-- With readable cells and costs under `CostLaws`, the search loop ends within its
bound, without a panic, and when it meets the goal the walk over the parent links of
the expanded node ends. -/
theorem searchLoop_ends (E : Env F Q) (p : Pathfinder F Q) (g : GridView)
    (T N : F → Prop) (L : CostLaws E T N) (hp : TileCosts p T) (hr : Readable g)
    (hw : 0 ≤ g.width) (hh : 0 ≤ g.height) (sx sy : Int)
    (fuel : Nat) (st : SearchState F Q)
    (hI : Inv E p g sx sy st) (hB : Bounded E g st) (hC : CostInv E N st.heap)
    (hbud : Budget E g fuel st) :
    match searchLoop E p g fuel st with
    | Searched.found par _ _ st1 => ∃ r, parentWalk E st1.heap st1.heap.length par = some r
    | Searched.exhausted _ => True
    | Searched.panic _ => False
    | Searched.outOfFuel _ => False := by
  have key := searchLoop_induction E p g
    (fun fuel st => Inv E p g sx sy st ∧ Bounded E g st ∧ CostInv E N st.heap ∧
      Budget E g fuel st)
    (fun fuel st0 item st => Inv E p g sx sy st ∧ Bounded E g st ∧ CostInv E N st.heap ∧
      Budget E g fuel st ∧ item.value < st.heap.length ∧
      (nodeAt E st.heap item.value).x = (nodeAt E st0.heap item.value).x ∧
      (nodeAt E st.heap item.value).y = (nodeAt E st0.heap item.value).y ∧
      InView g (nodeAt E st0.heap item.value).x (nodeAt E st0.heap item.value).y)
    (fun st0 item s =>
      CandOK E p g item.value (nodeAt E st0.heap item.value).x
        (nodeAt E st0.heap item.value).y s)
    (fun par _ _ st1 => ∃ r, parentWalk E st1.heap st1.heap.length par = some r)
    (fun _ => True) False
    ?_ ?_ ?_ ?_ ?_ ?_ ?_ ?_ ?_ fuel st ⟨hI, hB, hC, hbud⟩
  · cases hres : searchLoop E p g fuel st with
    | found par x y st1 => rw [hres] at key; exact key
    | exhausted st1 => trivial
    | panic st1 => rw [hres] at key; exact key
    | outOfFuel st1 =>
      rw [hres] at key
      exact key.2.2.2.not_zero key.2.1 hw hh
  · intro fuel st hI hlen hpk
    exact peek_isSome hI.1 hlen hpk
  · intro fuel st item hI hlen hpk hc
    obtain ⟨_, hlt, _⟩ := hI.1.pop hlen hpk
    obtain ⟨sn, hsn⟩ := candidates_isSome E p hr st.heap item.value (hI.2.1.inB _ hlt)
    rw [hsn] at hc
    cases hc
  · intro fuel st item sn hI hlen hpk hc
    obtain ⟨hinv, hlt, hperm⟩ := hI.1.pop hlen hpk
    exact ⟨⟨hinv, ⟨hI.2.1.inB, hI.2.1.keysNodup, hI.2.1.keysIn⟩, hI.2.2.1,
      budget_pop hI.2.2.2 hperm, hlt, rfl, rfl, hI.2.1.inB _ hlt⟩,
      candidates_candOK E p g st.heap item.value hc⟩
  · intro fuel st0 item st s e hJ hP _ _ _ _
    obtain ⟨hinv, hbd, hcost, hbud, hlt, hx, hy, hin⟩ := hJ
    have hsp : s.parent < st.heap.length := by rw [hP.1]; exact hlt
    refine ⟨hinv.relax e s hsp, bounded_relax hbd e s,
      costInv_relax L hcost hinv.parentLt e s hsp (stepCost_of_costOK L hp hP.2.2.2.2.2),
      hbud, ?_, ?_, ?_, hin⟩
    · simp only [relax_length]; exact hlt
    · simp only [relax_x]; exact hx
    · simp only [relax_y]; exact hy
  · intro fuel st0 item st s hJ hP hav _ hwk hl
    obtain ⟨hinv, hbd, hcost, hbud, hlt, hx, hy, hin⟩ := hJ
    have hsp : s.parent < st.heap.length := by rw [hP.1]; exact hlt
    have hadj : InView g (adjX E st s) (adjY E st s) := by
      unfold adjX adjY
      rw [hP.1, hx, hy]
      exact inView_of_guarded p hin hP.2.2.2.1 hP.2.2.2.2.1
    refine ⟨hinv.register _ _ _ s hsp (not_avoided_of_lookup hav) hwk,
      bounded_register p hbd _ _ s hadj hl, ?_, budget_register p hbud _ _ _ s hl, ?_, ?_, ?_, hin⟩
    · rw [register_heap]
      exact hcost.append hinv.parentLt _ _ _ _ s.parent s.cost hsp
        (stepCost_of_costOK L hp hP.2.2.2.2.2)
    · rw [register_length]; omega
    · rw [register_node, if_pos hlt]; exact hx
    · rw [register_node, if_pos hlt]; exact hy
  · intro fuel st0 item st s hJ hP _ _
    obtain ⟨hinv, _, hcost, _, hlt, _, _, _⟩ := hJ
    have hsp : s.parent < st.heap.length := by rw [hP.1]; exact hlt
    obtain ⟨l, hl⟩ := hcost.rooted s.parent hsp
    exact parentWalk_of_chain hl _ (hl.length_le hsp hinv.parentLt)
  · intro fuel st0 item st s hJ hP _ _ hwk
    obtain ⟨hinv, hbd, hcost, hbud, hlt, hx, hy, hin⟩ := hJ
    have hadj : InView g (adjX E st s) (adjY E st s) := by
      unfold adjX adjY
      rw [hP.1, hx, hy]
      exact inView_of_guarded p hin hP.2.2.2.1 hP.2.2.2.2.1
    obtain ⟨b, hb⟩ := isTileWalkable_isSome hr p.acceptableTiles hadj
    rw [hb] at hwk
    cases hwk
  · intro fuel st0 item st hJ
    exact ⟨hJ.1, hJ.2.1, hJ.2.2.1, hJ.2.2.2.1⟩
  · intros; trivial

end Ends

end Goeasystar

namespace Goeasystar

section Termination

variable {F Q : Type}

/-- Under `CostLaws`, on readable cells and from a start in bounds, `search` returns a
route or the error "path not found". -/
theorem search_returns (E : Env F Q) (p : Pathfinder F Q) (g : GridView)
    (T N : F → Prop) (L : CostLaws E T N) (hp : TileCosts p T) (hr : Readable g)
    (hw : 0 ≤ g.width) (hh : 0 ≤ g.height) (sx sy ex ey : Int) (hs : InView g sx sy) :
    (∃ r, (search E p g sx sy ex ey).1 = Outcome.route r) ∨
      (search E p g sx sy ex ey).1 = Outcome.error "path not found" := by
  have key := searchLoop_ends E
    { p with startX := sx, startY := sy, endX := ex, endY := ey } g T N L hp hr hw hh
    sx sy (loopBound g)
    (initialState E { p with startX := sx, startY := sy, endX := ex, endY := ey } g sx sy)
    (Inv.initial E { p with startX := sx, startY := sy, endX := ex, endY := ey } g sx sy)
    (bounded_initial E _ g sx sy ⟨rfl, rfl⟩ hs)
    (costInv_initial L _ _ _ _ _)
    (budget_initial E _ g sx sy)
  unfold search
  simp only []
  cases hres : searchLoop E { p with startX := sx, startY := sy, endX := ex, endY := ey } g
      (loopBound g)
      (initialState E { p with startX := sx, startY := sy, endX := ex, endY := ey } g sx sy)
    with
  | found par x y st1 =>
    rw [hres] at key
    obtain ⟨r, hr1⟩ := key
    left
    simp only [buildPath, hr1]
    exact ⟨_, rfl⟩
  | exhausted st1 => right; rfl
  | panic st1 => rw [hres] at key; exact key.elim
  | outOfFuel st1 => rw [hres] at key; exact key.elim

/-- C9, as the code has it. For every configuration with acceptable tiles, a
rectangular grid and start and goal in bounds, whose point costs and tile costs are
costs under `CostLaws` (in binary64: not negative and not NaN), `FindPath` returns a
route or the error "path not found": the search loop ends within `W * H + 1` iterations
without a panic, and the walk over the parent links reaches a node with no parent. -/
theorem FindPath_terminates (E : Env F Q) (p : Pathfinder F Q) (grid : List (List Int))
    (W H : Nat) (sx sy ex ey : Int) (T N : F → Prop) (L : CostLaws E T N)
    (ht : p.acceptableTiles ≠ []) (hg : p.collisionGrid = some grid)
    (hr : Rectangular grid W H) (hs : InBounds W H sx sy) (he : InBounds W H ex ey)
    (hc : TileCosts p T) :
    (∃ r, (FindPath E p sx sy ex ey).1 = Outcome.route r) ∨
      (FindPath E p sx sy ex ey).1 = Outcome.error "path not found" := by
  obtain ⟨hx0, hx1, hy0, hy1⟩ := hs
  obtain ⟨ex0, ex1, ey0, ey1⟩ := he
  have hw := gridView_width hr
  have hh := gridView_height hr
  rw [FindPath_of_rectangular E p ht hg hr hx0 hy0 ex0]
  unfold findPathOn
  rw [hw, hh, if_neg (by omega)]
  by_cases hsame : sx = ex ∧ sy = ey
  · rw [if_pos hsame]
    exact Or.inl ⟨[], rfl⟩
  · rw [if_neg hsame]
    obtain ⟨t, htile⟩ := @gridAt_isSome grid W H hr ex ey ⟨ex0, ex1, ey0, ey1⟩
    have : (gridView grid).tileAt ex ey = some t := htile
    rw [this]
    simp only []
    split_ifs
    · exact search_returns E p (gridView grid) T N L hc (readable_gridView hr)
        (by rw [hw]; omega) (by rw [hh]; omega) sx sy ex ey
        ⟨hx0, by rw [hw]; exact hx1, hy0, by rw [hh]; exact hy1⟩
    · exact Or.inl ⟨[], rfl⟩

end Termination

end Goeasystar

/-! ## The cost laws in binary64 -/

namespace Goeasystar

namespace F64

/-- A tile cost that is not negative and not NaN. -/
def NonNeg : F64 → Prop
  | nan => False
  | inf neg => neg = false
  | fin neg m _ => neg = false ∨ m = 0

/-- A value that is not negative, not NaN and, when finite, `m * 2^e` with `m ≤ 2^53`
and `-1074 ≤ e`, as every rounded value is. -/
def Cost : F64 → Prop
  | nan => False
  | inf neg => neg = false
  | fin neg m e => neg = false ∧ m ≤ 2 ^ 53 ∧ -1074 ≤ e

/-- The rational number `m * 2^e`. -/
def val (m : Nat) (e : Int) : ℚ := (m : ℚ) * (2 : ℚ) ^ e

theorem bitLen_zero (fuel : Nat) : bitLen fuel 0 = 0 := by
  cases fuel <;> simp [bitLen]

theorem bitLen_spec : ∀ (fuel m : Nat), m < fuel →
    m < 2 ^ bitLen fuel m ∧ (m ≠ 0 → 2 ^ (bitLen fuel m - 1) ≤ m) := by
  intro fuel
  induction fuel with
  | zero => intro m h; omega
  | succ fuel ih =>
    intro m hm
    by_cases h0 : m = 0
    · subst h0
      simp [bitLen]
    · have hlt : m / 2 < fuel := by omega
      obtain ⟨h1, h2⟩ := ih (m / 2) hlt
      have hb : bitLen (fuel + 1) m = bitLen fuel (m / 2) + 1 := by
        simp [bitLen, h0]
      rw [hb]
      refine ⟨?_, fun _ => ?_⟩
      · rw [pow_succ]
        omega
      · simp only [Nat.add_sub_cancel]
        by_cases hh : m / 2 = 0
        · rw [hh, bitLen_zero]
          simp
          omega
        · have h3 := h2 hh
          have hpos : 1 ≤ bitLen fuel (m / 2) := by
            by_contra hc
            have : bitLen fuel (m / 2) = 0 := by omega
            rw [this] at h1
            simp at h1
            exact hh h1
          have : 2 ^ bitLen fuel (m / 2) = 2 * 2 ^ (bitLen fuel (m / 2) - 1) := by
            rw [← pow_succ']
            congr 1
            omega
          rw [this]
          omega

theorem lt_pow_bitLen (m : Nat) : m < 2 ^ bitLen (m + 1) m :=
  (bitLen_spec (m + 1) m (Nat.lt_succ_self m)).1

theorem pow_bitLen_le (m : Nat) (h : m ≠ 0) : 2 ^ (bitLen (m + 1) m - 1) ≤ m :=
  (bitLen_spec (m + 1) m (Nat.lt_succ_self m)).2 h

theorem cost_tail (q1 : Nat) (e1 : Int) (hq : q1 ≤ 2 ^ 53) (he : -1074 ≤ e1) :
    Cost (if q1 = 0 then fin false 0 0
      else if e1 + (bitLen (q1 + 1) q1 : Int) > 1024 then inf false else fin false q1 e1) := by
  split_ifs
  · exact ⟨rfl, by norm_num, by norm_num⟩
  · exact rfl
  · exact ⟨rfl, hq, he⟩

/-- Every rounded value that is not negative is a `Cost`. -/
theorem cost_round (m : Nat) (e : Int) : Cost (round false m e) := by
  unfold round
  by_cases h0 : m = 0
  · rw [if_pos h0]
    exact ⟨rfl, by norm_num, by norm_num⟩
  rw [if_neg h0]
  simp only []
  have hbits := lt_pow_bitLen m
  by_cases h1 : max (e + (bitLen (m + 1) m : Int) - 53) (-1074) ≤ e
  · rw [if_pos h1]
    by_cases h2 : e + (bitLen (m + 1) m : Int) > 1024
    · rw [if_pos h2]
      exact rfl
    · rw [if_neg h2]
      have hle : (bitLen (m + 1) m : Int) ≤ 53 := by
        have := le_trans (le_max_left _ _) h1
        omega
      have hle1 : bitLen (m + 1) m ≤ 53 := by exact_mod_cast hle
      refine ⟨rfl, ?_, le_trans (le_max_right _ _) h1⟩
      exact le_of_lt (lt_of_lt_of_le hbits (Nat.pow_le_pow_right (by norm_num) hle1))
  · rw [if_neg h1]
    refine cost_tail _ _ ?_ (le_max_right _ _)
    have hsh : bitLen (m + 1) m ≤
        (max (e + (bitLen (m + 1) m : Int) - 53) (-1074) - e).toNat + 53 := by
      have := le_max_left (e + (bitLen (m + 1) m : Int) - 53) (-1074)
      omega
    have hm : m < 2 ^ (max (e + (bitLen (m + 1) m : Int) - 53) (-1074) - e).toNat
        * 2 ^ 53 := by
      rw [← pow_add]
      exact lt_of_lt_of_le hbits (Nat.pow_le_pow_right (by norm_num) hsh)
    have hq : m / 2 ^ (max (e + (bitLen (m + 1) m : Int) - 53) (-1074) - e).toNat
        < 2 ^ 53 := by
      rw [Nat.div_lt_iff_lt_mul (by positivity)]
      rw [mul_comm]
      exact hm
    split_ifs <;> omega

end F64

end Goeasystar

namespace Goeasystar

namespace F64

theorem two_zpow_pos (e : Int) : (0 : ℚ) < (2 : ℚ) ^ e := zpow_pos (by norm_num) e

theorem val_nonneg (m : Nat) (e : Int) : 0 ≤ val m e :=
  mul_nonneg (Nat.cast_nonneg m) (le_of_lt (two_zpow_pos e))

theorem val_mono {a b : Nat} (h : a ≤ b) (e : Int) : val a e ≤ val b e :=
  mul_le_mul_of_nonneg_right (by exact_mod_cast h) (le_of_lt (two_zpow_pos e))

theorem eq_zero_of_val_le_zero {m : Nat} {e : Int} (h : val m e ≤ 0) : m = 0 := by
  by_contra hm
  have hpos : (0 : ℚ) < m := by exact_mod_cast Nat.pos_of_ne_zero hm
  have : 0 < val m e := mul_pos hpos (two_zpow_pos e)
  exact absurd h (not_le.mpr this)

/-- The value `m * 2^e` on the grid `2^e0`, for `e0 ≤ e`. -/
theorem val_shift (m : Nat) (e e0 : Int) (h : e0 ≤ e) :
    val (m * 2 ^ (e - e0).toNat) e0 = val m e := by
  unfold val
  have hk : ((e - e0).toNat : Int) = e - e0 := Int.toNat_of_nonneg (by omega)
  have h2 : ((2 : ℚ) ^ (e - e0).toNat) * (2 : ℚ) ^ e0 = (2 : ℚ) ^ e := by
    rw [← zpow_natCast, hk, ← zpow_add₀ (by norm_num : (2 : ℚ) ≠ 0)]
    congr 1
    omega
  push_cast
  rw [mul_assoc, h2]

theorem scaled_cast (m : Nat) (e e0 : Int) (h : e0 ≤ e) :
    ((scaled false m e e0 : Int) : ℚ) * (2 : ℚ) ^ e0 = val m e := by
  rw [← val_shift m e e0 h]
  unfold val scaled
  simp only [Bool.false_eq_true, if_false, one_mul]
  push_cast
  ring

theorem scaled_nonneg (m : Nat) (e e0 : Int) : 0 ≤ scaled false m e e0 := by
  unfold scaled
  simp only [Bool.false_eq_true, if_false, one_mul]
  exact Int.ofNat_nonneg _

theorem lt_fin (m1 : Nat) (e1 : Int) (m2 : Nat) (e2 : Int) :
    lt (fin false m1 e1) (fin false m2 e2) = decide (val m1 e1 < val m2 e2) := by
  unfold lt
  simp only []
  rw [decide_eq_decide]
  have h1 := scaled_cast m1 e1 (min e1 e2) (min_le_left _ _)
  have h2 := scaled_cast m2 e2 (min e1 e2) (min_le_right _ _)
  rw [← h1, ← h2]
  rw [mul_lt_mul_right (two_zpow_pos _)]
  exact Int.cast_lt.symm

theorem lt_asymm_f64 (a b : F64) (h : lt a b = true) : lt b a = false := by
  cases a with
  | nan => simp [lt] at h
  | inf na =>
    cases b with
    | nan => simp [lt] at h
    | inf nb => cases na <;> cases nb <;> simp [lt] at h ⊢
    | fin nb mb eb => simp only [lt] at h ⊢; simp [h]
  | fin na ma ea =>
    cases b with
    | nan => simp [lt] at h
    | inf nb => simp only [lt] at h ⊢; simpa using h
    | fin nb mb eb =>
      simp only [lt, decide_eq_true_eq, decide_eq_false_iff_not, not_lt] at h ⊢
      rw [min_comm eb ea]
      exact le_of_lt h

theorem le_trans_f64 (a b c : F64) (ha : Cost a) (hb : Cost b) (hc : Cost c)
    (h1 : lt b a = false) (h2 : lt c b = false) : lt c a = false := by
  cases c with
  | nan => exact hc.elim
  | inf nc =>
    have : nc = false := hc
    subst this
    cases a <;> simp [lt]
  | fin nc mc ec =>
    obtain ⟨hn, _, _⟩ := hc
    subst hn
    cases b with
    | nan => exact hb.elim
    | inf nb =>
      have : nb = false := hb
      subst this
      simp [lt] at h2
    | fin nb mb eb =>
      obtain ⟨hn, _, _⟩ := hb
      subst hn
      cases a with
      | nan => exact ha.elim
      | inf na =>
        have : na = false := ha
        subst this
        simp [lt] at h1
      | fin na ma ea =>
        obtain ⟨hn, _, _⟩ := ha
        subst hn
        rw [lt_fin, decide_eq_false_iff_not, not_lt] at h1 h2 ⊢
        exact le_trans h1 h2

end F64

end Goeasystar

namespace Goeasystar

namespace F64

theorem val_le_iff (a b : Nat) (e : Int) : val a e ≤ val b e ↔ a ≤ b := by
  unfold val
  rw [mul_le_mul_right (two_zpow_pos e)]
  exact Nat.cast_le

theorem lt_tail (q1 : Nat) (e1 : Int) (ma : Nat) (ea : Int) (h : val ma ea ≤ val q1 e1) :
    lt (if q1 = 0 then fin false 0 0
      else if e1 + (bitLen (q1 + 1) q1 : Int) > 1024 then inf false else fin false q1 e1)
      (fin false ma ea) = false := by
  split_ifs with h0
  · subst h0
    have : ma = 0 := eq_zero_of_val_le_zero (by simpa [val] using h)
    subst this
    rw [lt_fin, decide_eq_false_iff_not]
    simp [val]
  · simp [lt]
  · rw [lt_fin, decide_eq_false_iff_not, not_lt]
    exact h

/-- The part of `m * 2^e` above the grid `2^e1` of its rounded value is not below a
value `ma * 2^ea` of binary64 that `m * 2^e` is not below. -/
theorem val_le_truncated (m : Nat) (e : Int) (ma : Nat) (ea : Int) (h0 : m ≠ 0)
    (hma : ma ≤ 2 ^ 53) (hea : -1074 ≤ ea) (h : val ma ea ≤ val m e)
    (he : e < max (e + (bitLen (m + 1) m : Int) - 53) (-1074)) :
    val ma ea ≤ val (m / 2 ^ (max (e + (bitLen (m + 1) m : Int) - 53) (-1074) - e).toNat)
      (max (e + (bitLen (m + 1) m : Int) - 53) (-1074)) := by
  generalize hE : max (e + (bitLen (m + 1) m : Int) - 53) (-1074) = e1 at he ⊢
  by_cases hc : e1 ≤ ea
  · rw [← val_shift ma ea e1 hc, val_le_iff, Nat.le_div_iff_mul_le (by positivity)]
    rw [← val_le_iff _ _ e, val_shift _ e1 e (le_of_lt he), val_shift ma ea e1 hc]
    exact h
  · have hlt : ea < e1 := not_le.mp hc
    have hE1 : e1 = e + (bitLen (m + 1) m : Int) - 53 := by
      rcases max_cases (e + (bitLen (m + 1) m : Int) - 53) (-1074) with ⟨h1, _⟩ | ⟨h1, _⟩
      · rw [← hE, h1]
      · rw [h1] at hE; omega
    have hsh : (e1 - e).toNat + 53 = bitLen (m + 1) m := by omega
    have hlow := pow_bitLen_le m h0
    have hq : 2 ^ 52 ≤ m / 2 ^ (e1 - e).toNat := by
      rw [Nat.le_div_iff_mul_le (by positivity), ← pow_add]
      refine le_trans (Nat.pow_le_pow_right (by norm_num) ?_) hlow
      omega
    refine le_trans (val_mono hma ea) (le_trans ?_ (val_mono hq e1))
    unfold val
    have h53 : (((2 : Nat) ^ 53 : Nat) : ℚ) = (2 : ℚ) ^ (53 : Int) := by norm_num
    have h52 : (((2 : Nat) ^ 52 : Nat) : ℚ) = (2 : ℚ) ^ (52 : Int) := by norm_num
    rw [h53, h52, ← zpow_add₀ (by norm_num : (2 : ℚ) ≠ 0),
      ← zpow_add₀ (by norm_num : (2 : ℚ) ≠ 0)]
    exact zpow_le_zpow_right₀ (by norm_num) (by omega)

/-- Rounding does not go below a value of binary64 that the exact value is not below. -/
theorem round_ge (m : Nat) (e : Int) (ma : Nat) (ea : Int)
    (hma : ma ≤ 2 ^ 53) (hea : -1074 ≤ ea) (h : val ma ea ≤ val m e) :
    lt (round false m e) (fin false ma ea) = false := by
  unfold round
  by_cases h0 : m = 0
  · rw [if_pos h0]
    subst h0
    have : ma = 0 := eq_zero_of_val_le_zero (by simpa [val] using h)
    subst this
    rw [lt_fin, decide_eq_false_iff_not]
    simp [val]
  rw [if_neg h0]
  simp only []
  by_cases h1 : max (e + (bitLen (m + 1) m : Int) - 53) (-1074) ≤ e
  · rw [if_pos h1]
    by_cases h2 : e + (bitLen (m + 1) m : Int) > 1024
    · rw [if_pos h2]
      simp [lt]
    · rw [if_neg h2, lt_fin, decide_eq_false_iff_not, not_lt]
      exact h
  · rw [if_neg h1]
    refine lt_tail _ _ _ _ ?_
    refine le_trans (val_le_truncated m e ma ea h0 hma hea h (not_le.mp h1)) (val_mono ?_ _)
    split_ifs <;> omega

theorem add_fin (m1 : Nat) (e1 : Int) (m2 : Nat) (e2 : Int) :
    ∃ S, add (fin false m1 e1) (fin false m2 e2) = round false S (min e1 e2) ∧
      val S (min e1 e2) = val m1 e1 + val m2 e2 := by
  refine ⟨(scaled false m1 e1 (min e1 e2) + scaled false m2 e2 (min e1 e2)).natAbs, ?_, ?_⟩
  · unfold add
    simp only []
    have : ¬ (scaled false m1 e1 (min e1 e2) + scaled false m2 e2 (min e1 e2) < 0) := by
      have := scaled_nonneg m1 e1 (min e1 e2)
      have := scaled_nonneg m2 e2 (min e1 e2)
      omega
    rw [decide_eq_false this]
  · have hs : (((scaled false m1 e1 (min e1 e2) + scaled false m2 e2 (min e1 e2)).natAbs
        : Nat) : ℚ) = ((scaled false m1 e1 (min e1 e2) : Int) : ℚ)
          + ((scaled false m2 e2 (min e1 e2) : Int) : ℚ) := by
      have h1 := scaled_nonneg m1 e1 (min e1 e2)
      have h2 := scaled_nonneg m2 e2 (min e1 e2)
      rw [← Int.cast_add, ← Int.cast_natCast, Int.natAbs_of_nonneg (by omega)]
    unfold val at *
    rw [hs, add_mul]
    have h1 := scaled_cast m1 e1 (min e1 e2) (min_le_left _ _)
    have h2 := scaled_cast m2 e2 (min e1 e2) (min_le_right _ _)
    unfold val at h1 h2
    rw [h1, h2]

/-- The sum of two costs is a cost that is not less than the first. -/
theorem cost_add (a b : F64) (ha : Cost a) (hb : Cost b) :
    Cost (add a b) ∧ lt (add a b) a = false := by
  cases a with
  | nan => exact ha.elim
  | inf na =>
    have : na = false := ha
    subst this
    cases b with
    | nan => exact hb.elim
    | inf nb =>
      have : nb = false := hb
      subst this
      simp [add, lt, Cost]
    | fin nb mb eb => simp [add, lt, Cost]
  | fin na ma ea =>
    obtain ⟨hn, hma, hea⟩ := ha
    subst hn
    cases b with
    | nan => exact hb.elim
    | inf nb =>
      have : nb = false := hb
      subst this
      simp [add, lt, Cost]
    | fin nb mb eb =>
      obtain ⟨hn, _, _⟩ := hb
      subst hn
      obtain ⟨S, hS, hv⟩ := add_fin ma ea mb eb
      rw [hS]
      refine ⟨cost_round _ _, round_ge _ _ _ _ hma hea ?_⟩
      rw [hv]
      have := val_nonneg mb eb
      linarith

theorem round_ne_nan (neg : Bool) (m : Nat) (e : Int) : round neg m e ≠ nan := by
  unfold round
  simp only []
  split_ifs <;> simp

/-- The product of a positive finite value and a tile cost is a cost. -/
theorem cost_mul (m0 : Nat) (e0 : Int) (h0 : m0 ≠ 0) (c : F64) (hc : NonNeg c) :
    Cost (mul (fin false m0 e0) c) := by
  cases c with
  | nan => exact hc.elim
  | inf nc =>
    have : nc = false := hc
    subst this
    simp [mul, h0, Cost]
  | fin nc mc ec =>
    rcases hc with hn | hm
    · subst hn
      simp only [mul, Bool.xor_false]
      exact cost_round _ _
    · subst hm
      simp only [mul, Nat.mul_zero]
      unfold round
      rw [if_pos rfl]
      exact ⟨rfl, by norm_num, by norm_num⟩

theorem cost_mul_self (x : F64) (hx : x ≠ nan) : Cost (mul x x) := by
  cases x with
  | nan => exact absurd rfl hx
  | inf n => cases n <;> simp [mul, Cost]
  | fin n m e =>
    simp only [mul, Bool.xor_self]
    exact cost_round _ _

theorem cost_sqrt (x : F64) (hx : Cost x) : Cost (sqrt x) := by
  cases x with
  | nan => exact hx.elim
  | inf n =>
    have : n = false := hx
    subst this
    simp [sqrt, Cost]
  | fin n m e =>
    obtain ⟨hn, _, _⟩ := hx
    subst hn
    unfold sqrt
    simp only []
    by_cases hm : m = 0
    · rw [if_pos hm]
      exact ⟨rfl, by norm_num, by norm_num⟩
    · rw [if_neg hm]
      simp only [Bool.false_eq_true, if_false]
      exact cost_round _ _

end F64

/-- The cost laws hold in binary64 for tile costs that are not negative and not NaN. -/
theorem costLaws_goEnv : CostLaws goEnv F64.NonNeg F64.Cost where
  zero := Or.inl rfl
  dist := by
    intro x y ex ey
    unfold getDistance
    exact F64.cost_sqrt _
      (F64.cost_add _ _ (F64.cost_mul_self _ (F64.round_ne_nan _ _ _))
        (F64.cost_mul_self _ (F64.round_ne_nan _ _ _))).1
  straight := fun a c ha hc =>
    F64.cost_add a _ ha (F64.cost_mul 1 0 (by norm_num) c hc)
  diagonal := fun a c ha hc =>
    F64.cost_add a _ ha (F64.cost_mul 6305039478318694 (-52) (by norm_num) c hc)
  asymm := F64.lt_asymm_f64
  trans := F64.le_trans_f64

end Goeasystar

/-! ## Termination -/

namespace Goeasystar

section Diverges

/-- The grid `[[1, 1, 1]]`. -/
def lineGrid : List (List Int) := [[1, 1, 1]]

/-- A pathfinder on `lineGrid` with the acceptable tile `1` and the point cost `-5` set
for `(0, 0)`. -/
def rewardPathfinder : Pathfinder F64 (List Item) :=
  SetAdditionalPointCost (SetAcceptableTiles (SetGrid (NewPathfinder goEnv) (some lineGrid)) [1])
    0 0 (F64.ofInt (-5))

/-- Two nodes that are each other's parent: no walk over the parent links from either
ends, however many steps it takes. -/
theorem parentWalk_cycle {F Q : Type} (E : Env F Q) (heap : List (Node F)) (a b : Nat)
    (ha : (nodeAt E heap a).parent = some b) (hb : (nodeAt E heap b).parent = some a) :
    ∀ fuel, parentWalk E heap fuel a = none ∧ parentWalk E heap fuel b = none := by
  intro fuel
  induction fuel with
  | zero => exact ⟨rfl, rfl⟩
  | succ fuel ih =>
    constructor
    · unfold parentWalk
      rw [ha]
      simp only [ih.2]
    · unfold parentWalk
      rw [hb]
      simp only [ih.1]

theorem tileCosts_squarePathfinder : TileCosts squarePathfinder F64.NonNeg := by
  constructor
  · intro k c h
    have hl : squarePathfinder.additionalPointsToCost
        = [(getHashKeyForPoint 1 1, F64.ofInt 1)] := rfl
    rw [hl, List.lookup_cons] at h
    cases hk : (k == getHashKeyForPoint 1 1) with
    | true =>
      rw [hk] at h
      simp only [Option.some.injEq] at h
      subst h
      exact Or.inl (by decide)
    | false =>
      rw [hk] at h
      simp at h
  · intro t c h
    have hl : squarePathfinder.costMap = [] := rfl
    rw [hl] at h
    simp at h

/-- C9, as amended, on the grid `[[1, 1], [1, 1]]` with diagonals enabled and the point
cost `1` set for `(1, 1)`, in binary64 arithmetic. -/
theorem FindPath_terminates_witness :
    CostLaws goEnv F64.NonNeg F64.Cost ∧ TileCosts squarePathfinder F64.NonNeg ∧
      Rectangular squareGrid 2 2 ∧ InBounds 2 2 0 0 ∧ InBounds 2 2 1 1 ∧
      ((∃ r, (FindPath goEnv squarePathfinder 0 0 1 1).1 = Outcome.route r) ∨
        (FindPath goEnv squarePathfinder 0 0 1 1).1 = Outcome.error "path not found") :=
  ⟨costLaws_goEnv, tileCosts_squarePathfinder, by decide, by decide, by decide,
    FindPath_terminates goEnv squarePathfinder squareGrid 2 2 0 0 1 1 F64.NonNeg F64.Cost
      costLaws_goEnv (by decide) rfl (by decide) (by decide) (by decide)
      tileCosts_squarePathfinder⟩

/-- C9 fails with a negative point cost. On the grid `[[1, 1, 1]]` with the point cost
`-5` set for `(0, 0)`, `FindPath(0, 0, 2, 0)` does not return: the expansion of
`(1, 0)` relaxes the start node, whose cost `2` exceeds `2 + 1.0 * -5`, and makes
`(1, 0)` its parent, so that the nodes of `(0, 0)` and `(1, 0)` are each other's parent
when `(2, 0)` is met, and the walk over the parent links from `(1, 0)` never reaches a
node without a parent. -/
theorem FindPath_negative_cost_diverges :
    Rectangular lineGrid 3 1 ∧ InBounds 3 1 0 0 ∧ InBounds 3 1 2 0 ∧
      rewardPathfinder.collisionGrid = some lineGrid ∧
      rewardPathfinder.acceptableTiles = [1] ∧
      (FindPath goEnv rewardPathfinder 0 0 2 0).1 = Outcome.diverges ∧
      (nodeAt goEnv (FindPath goEnv rewardPathfinder 0 0 2 0).2.heap 0).parent = some 1 ∧
      (nodeAt goEnv (FindPath goEnv rewardPathfinder 0 0 2 0).2.heap 1).parent = some 0 ∧
      ∀ fuel, parentWalk goEnv (FindPath goEnv rewardPathfinder 0 0 2 0).2.heap fuel 1 = none :=
  ⟨by decide, by decide, by decide, rfl, rfl, by decide, by decide, by decide,
    fun fuel => (parentWalk_cycle goEnv _ 0 1 (by decide) (by decide) fuel).2⟩

end Diverges

end Goeasystar

/-! ## The tile of the goal -/

namespace Goeasystar

section GoalTile

variable {F Q : Type}

/-- The pathfinder of `TestSuccessfulPath` asked for a goal on a tile `0`: the grid
`wallGrid` has the tile `0` at `(2, 0)`. -/
theorem gridAt_wallGrid_goal : gridAt wallGrid 2 0 = some 0 := by decide

/-- C11. With acceptable tiles, a rectangular grid and start and goal in bounds and
different: when the tile of the goal is not acceptable `FindPath` returns the empty
route and no error, and when it is acceptable `FindPath` does not return the empty
route. -/
theorem FindPath_goal_tile (E : Env F Q) (p : Pathfinder F Q) (grid : List (List Int))
    (W H : Nat) (sx sy ex ey tile : Int)
    (ht : p.acceptableTiles ≠ []) (hg : p.collisionGrid = some grid)
    (hr : Rectangular grid W H) (hs : InBounds W H sx sy) (he : InBounds W H ex ey)
    (hne : ¬ (sx = ex ∧ sy = ey)) (htile : gridAt grid ex ey = some tile) :
    (tile ∉ p.acceptableTiles → FindPath E p sx sy ex ey = (Outcome.route [], p)) ∧
      (tile ∈ p.acceptableTiles → (FindPath E p sx sy ex ey).1 ≠ Outcome.route []) := by
  constructor
  · intro hnot
    obtain ⟨hx0, hx1, hy0, hy1⟩ := hs
    obtain ⟨ex0, ex1, ey0, ey1⟩ := he
    rw [FindPath_of_rectangular E p ht hg hr hx0 hy0 ex0]
    unfold findPathOn
    rw [gridView_width hr, gridView_height hr, if_neg (by omega), if_neg hne]
    have : (gridView grid).tileAt ex ey = some tile := htile
    rw [this]
    simp only []
    rw [if_neg (by simpa using hnot)]
  · intro hmem hroute
    rw [FindPath_eq_search E p grid W H sx sy ex ey ht hg hr hs he hne ⟨tile, htile, hmem⟩]
      at hroute
    obtain ⟨mid, hmid, _⟩ := search_route E p (gridView grid) sx sy ex ey [] hroute
    cases hmid

/-- C11 on the grid of `TestSuccessfulPath`, for the goal `(2, 0)` on a tile `0`. -/
theorem FindPath_goal_tile_witness :
    gridAt wallGrid 2 0 = some 0 ∧
      ((0 : Int) ∉ wallPathfinder.acceptableTiles →
          FindPath goEnv wallPathfinder 1 2 2 0 = (Outcome.route [], wallPathfinder)) ∧
      ((0 : Int) ∈ wallPathfinder.acceptableTiles →
          (FindPath goEnv wallPathfinder 1 2 2 0).1 ≠ Outcome.route []) :=
  ⟨by decide,
    FindPath_goal_tile goEnv wallPathfinder wallGrid 5 5 1 2 2 0 0 (by decide) rfl (by decide)
      (by decide) (by decide) (by decide) (by decide)⟩

end GoalTile

/-! ## Removing the point costs -/

section RemoveAll

/-- A pathfinder on the grid `[[1, 1], [1, 1]]` with the point cost `7` set for `(1, 1)`
and the point `(0, 1)` avoided. -/
def tollPathfinder : Pathfinder F64 (List Item) :=
  AvoidAdditionalPoint
    (SetAdditionalPointCost
      (SetAcceptableTiles (SetGrid (NewPathfinder goEnv) (some squareGrid)) [1])
      1 1 (F64.ofInt 7))
    0 1

/-- C12 fails: `RemoveAllAdditionalPointCosts` assigns a fresh map to the avoid set,
not to the point costs. After it the point cost `7` of `(1, 1)` is still what
`getTileCost` returns, not the value `0` of the tile-cost table, and the point
`(0, 1)` is no longer avoided. -/
theorem RemoveAllAdditionalPointCosts_keeps_costs :
    (RemoveAllAdditionalPointCosts tollPathfinder).additionalPointsToCost =
        tollPathfinder.additionalPointsToCost ∧
      (RemoveAllAdditionalPointCosts tollPathfinder).additionalPointsToCost ≠ [] ∧
      getTileCost goEnv (RemoveAllAdditionalPointCosts tollPathfinder) (gridView squareGrid)
        1 1 = some (F64.ofInt 7) ∧
      ((RemoveAllAdditionalPointCosts tollPathfinder).costMap.lookup 1).getD goEnv.f.zero
        ≠ F64.ofInt 7 ∧
      Avoided tollPathfinder 0 1 ∧
      ¬ Avoided (RemoveAllAdditionalPointCosts tollPathfinder) 0 1 :=
  ⟨rfl, by decide, by decide, by decide, by decide, by decide⟩

end RemoveAll

end Goeasystar

/-! ## The same configuration gives the same result -/

namespace Goeasystar

section Determinism

variable {F Q : Type}

/-- The configuration of a pathfinder: the grid, the avoided points, the tile costs, the
point costs, the two flags and the acceptable tiles. -/
def SameConfig (p q : Pathfinder F Q) : Prop :=
  p.collisionGrid = q.collisionGrid ∧
  p.additionalPointsToAvoid = q.additionalPointsToAvoid ∧
  p.costMap = q.costMap ∧
  p.additionalPointsToCost = q.additionalPointsToCost ∧
  p.allowCornerCutting = q.allowCornerCutting ∧
  p.acceptableTiles = q.acceptableTiles ∧
  p.diagonalsEnabled = q.diagonalsEnabled

/-- The pathfinder with the fields that a search writes replaced. -/
def withLeftovers (p : Pathfinder F Q) (sx sy : Int) (c : List (GoString × Nat)) (o : Q)
    (h : List (Node F)) : Pathfinder F Q :=
  { p with startX := sx, startY := sy, coordinateToNode := c, openList := o, heap := h }

theorem explore_withLeftovers (E : Env F Q) (p : Pathfinder F Q) (g : GridView)
    (sx sy : Int) (c : List (GoString × Nat)) (o : Q) (h : List (Node F)) :
    ∀ (l : List (SearchNode F)) (st : SearchState F Q),
      explore E (withLeftovers p sx sy c o h) g l st = explore E p g l st := by
  intro l
  induction l with
  | nil => intro st; rfl
  | cons s rest ih =>
    intro st
    rw [explore, explore]
    simp only [ih]
    rfl

theorem searchLoop_withLeftovers (E : Env F Q) (p : Pathfinder F Q) (g : GridView)
    (sx sy : Int) (c : List (GoString × Nat)) (o : Q) (h : List (Node F)) :
    ∀ (fuel : Nat) (st : SearchState F Q),
      searchLoop E (withLeftovers p sx sy c o h) g fuel st = searchLoop E p g fuel st := by
  intro fuel
  induction fuel with
  | zero => intro st; rfl
  | succ fuel ih =>
    intro st
    rw [searchLoop, searchLoop]
    simp only [ih, explore_withLeftovers]
    rfl

theorem search_fst_congr (E : Env F Q) (p q : Pathfinder F Q) (g : GridView)
    (a b c d : Int) (h : SameConfig p q) :
    (search E p g a b c d).1 = (search E q g a b c d).1 := by
  have hq : { q with startX := a, startY := b, endX := c, endY := d } =
      withLeftovers { p with startX := a, startY := b, endX := c, endY := d } a b
        q.coordinateToNode q.openList q.heap := by
    obtain ⟨h1, h2, h3, h4, h5, h6, h7⟩ := h
    cases p
    cases q
    simp only at h1 h2 h3 h4 h5 h6 h7
    subst h1 h2 h3 h4 h5 h6 h7
    rfl
  unfold search
  simp only []
  rw [hq, searchLoop_withLeftovers]
  have hi : initialState E
      (withLeftovers { p with startX := a, startY := b, endX := c, endY := d } a b
        q.coordinateToNode q.openList q.heap) g a b =
      initialState E { p with startX := a, startY := b, endX := c, endY := d } g a b := rfl
  rw [hi]
  cases searchLoop E { p with startX := a, startY := b, endX := c, endY := d } g
    (loopBound g)
    (initialState E { p with startX := a, startY := b, endX := c, endY := d } g a b) <;> rfl

theorem findPathOn_fst_congr (E : Env F Q) (p q : Pathfinder F Q) (g : GridView)
    (a b c d : Int) (h : SameConfig p q) :
    (findPathOn E p g a b c d).1 = (findPathOn E q g a b c d).1 := by
  have ht : p.acceptableTiles = q.acceptableTiles := h.2.2.2.2.2.1
  unfold findPathOn
  rw [ht]
  split_ifs
  · rfl
  · rfl
  · cases g.tileAt c d with
    | none => rfl
    | some t =>
      simp only []
      split_ifs
      · exact search_fst_congr E p q g a b c d h
      · rfl

theorem FindPath_fst_congr (E : Env F Q) (p q : Pathfinder F Q) (a b c d : Int)
    (h : SameConfig p q) : (FindPath E p a b c d).1 = (FindPath E q a b c d).1 := by
  have ht : p.acceptableTiles = q.acceptableTiles := h.2.2.2.2.2.1
  have hg : p.collisionGrid = q.collisionGrid := h.1
  unfold FindPath
  rw [ht, hg]
  by_cases h1 : q.acceptableTiles.length = 0
  · simp only [if_pos h1]
  · simp only [if_neg h1]
    cases q.collisionGrid with
    | none => rfl
    | some grid =>
      simp only []
      by_cases h2 : a < 0 ∨ b < 0 ∨ c < 0 ∨ c < 0
      · simp only [if_pos h2]
      · simp only [if_neg h2]
        cases grid with
        | nil => rfl
        | cons row rest => exact findPathOn_fst_congr E p q _ a b c d h

theorem sameConfig_search (E : Env F Q) (p : Pathfinder F Q) (g : GridView)
    (a b c d : Int) : SameConfig (search E p g a b c d).2 p := by
  unfold search
  simp only []
  cases searchLoop E { p with startX := a, startY := b, endX := c, endY := d } g
    (loopBound g)
    (initialState E { p with startX := a, startY := b, endX := c, endY := d } g a b) <;>
    exact ⟨rfl, rfl, rfl, rfl, rfl, rfl, rfl⟩

theorem sameConfig_refl (p : Pathfinder F Q) : SameConfig p p :=
  ⟨rfl, rfl, rfl, rfl, rfl, rfl, rfl⟩

theorem sameConfig_findPathOn (E : Env F Q) (p : Pathfinder F Q) (g : GridView)
    (a b c d : Int) : SameConfig (findPathOn E p g a b c d).2 p := by
  unfold findPathOn
  by_cases h1 : a > g.width - 1 ∨ b > g.height - 1 ∨ c > g.width - 1 ∨ d > g.height - 1
  · simp only [if_pos h1]
    exact sameConfig_refl p
  · simp only [if_neg h1]
    by_cases h2 : a = c ∧ b = d
    · simp only [if_pos h2]
      exact sameConfig_refl p
    · simp only [if_neg h2]
      cases g.tileAt c d with
      | none => exact sameConfig_refl p
      | some t =>
        simp only []
        by_cases h3 : p.acceptableTiles.contains t = true
        · simp only [if_pos h3]
          exact sameConfig_search E p _ a b c d
        · simp only [if_neg h3]
          exact sameConfig_refl p

/-- A call of `FindPath` leaves the configuration as it was. -/
theorem sameConfig_FindPath (E : Env F Q) (p : Pathfinder F Q) (a b c d : Int) :
    SameConfig (FindPath E p a b c d).2 p := by
  unfold FindPath
  by_cases h1 : p.acceptableTiles.length = 0
  · simp only [if_pos h1]
    exact sameConfig_refl p
  · simp only [if_neg h1]
    cases p.collisionGrid with
    | none => exact sameConfig_refl p
    | some grid =>
      simp only []
      by_cases h2 : a < 0 ∨ b < 0 ∨ c < 0 ∨ c < 0
      · simp only [if_pos h2]
        exact sameConfig_refl p
      · simp only [if_neg h2]
        cases grid with
        | nil => exact sameConfig_refl p
        | cons row rest => exact sameConfig_findPathOn E p _ a b c d

/-- C13. The result of `FindPath` depends on the configuration and the four arguments
only: two pathfinders with the same configuration, whatever their fields `startX`,
`startY`, `endX`, `endY`, `coordinateToNode` and `openList` hold, return the same route
or error; `FindPath` leaves the configuration as it was; and a second call with the
same arguments on the pathfinder that the first call left returns the same result. -/
theorem FindPath_deterministic (E : Env F Q) (p q : Pathfinder F Q) (a b c d : Int)
    (h : SameConfig p q) :
    (FindPath E p a b c d).1 = (FindPath E q a b c d).1 ∧
      SameConfig (FindPath E p a b c d).2 p ∧
      (FindPath E (FindPath E p a b c d).2 a b c d).1 = (FindPath E p a b c d).1 :=
  ⟨FindPath_fst_congr E p q a b c d h, sameConfig_FindPath E p a b c d,
    FindPath_fst_congr E _ p a b c d (sameConfig_FindPath E p a b c d)⟩

/-- C13 on the configuration of `TestSuccessfulPath`, against a pathfinder with the
same configuration and other values in the fields that a search writes. -/
theorem FindPath_deterministic_witness :
    SameConfig wallPathfinder
        (withLeftovers { wallPathfinder with endX := 7, endY := 9 } 4 5
          [(getHashKeyForPoint 0 0, 3)] [⟨2, 11⟩] []) ∧
      ((FindPath goEnv wallPathfinder 1 2 3 2).1 =
          (FindPath goEnv
            (withLeftovers { wallPathfinder with endX := 7, endY := 9 } 4 5
              [(getHashKeyForPoint 0 0, 3)] [⟨2, 11⟩] []) 1 2 3 2).1 ∧
        SameConfig (FindPath goEnv wallPathfinder 1 2 3 2).2 wallPathfinder ∧
        (FindPath goEnv (FindPath goEnv wallPathfinder 1 2 3 2).2 1 2 3 2).1 =
          (FindPath goEnv wallPathfinder 1 2 3 2).1) :=
  ⟨⟨rfl, rfl, rfl, rfl, rfl, rfl, rfl⟩,
    FindPath_deterministic goEnv wallPathfinder _ 1 2 3 2 ⟨rfl, rfl, rfl, rfl, rfl, rfl, rfl⟩⟩

end Determinism

end Goeasystar

/-! ## The cells of a route -/

namespace Goeasystar

section RouteCells

variable {F Q : Type}

/-- A route that is not empty was returned by the search, on a goal with an acceptable
tile. -/
theorem FindPath_route_goal (E : Env F Q) (p : Pathfinder F Q) (sx sy ex ey : Int)
    (r : List Point) (h : (FindPath E p sx sy ex ey).1 = Outcome.route r) (hr : r ≠ []) :
    ∃ grid, p.collisionGrid = some grid ∧ Walkable p (gridView grid) ex ey ∧
      (search E p (gridView grid) sx sy ex ey).1 = Outcome.route r ∧
      ¬ (sx = ex ∧ sy = ey) := by
  unfold FindPath at h
  by_cases h1 : p.acceptableTiles.length = 0
  · rw [if_pos h1] at h; simp at h
  · rw [if_neg h1] at h
    cases hg : p.collisionGrid with
    | none => rw [hg] at h; simp at h
    | some grid =>
      rw [hg] at h
      by_cases h2 : sx < 0 ∨ sy < 0 ∨ ex < 0 ∨ ex < 0
      · simp only [if_pos h2] at h; simp at h
      · simp only [if_neg h2] at h
        cases grid with
        | nil => simp at h
        | cons row rest =>
          simp only [] at h
          unfold findPathOn at h
          by_cases h3 : sx > (gridView (row :: rest)).width - 1 ∨
              sy > (gridView (row :: rest)).height - 1 ∨
              ex > (gridView (row :: rest)).width - 1 ∨
              ey > (gridView (row :: rest)).height - 1
          · rw [if_pos h3] at h; simp at h
          · rw [if_neg h3] at h
            by_cases h4 : sx = ex ∧ sy = ey
            · rw [if_pos h4] at h
              simp only [Outcome.route.injEq] at h
              exact absurd h.symm hr
            · rw [if_neg h4] at h
              cases ht : (gridView (row :: rest)).tileAt ex ey with
              | none => rw [ht] at h; simp at h
              | some t =>
                rw [ht] at h
                simp only [] at h
                by_cases h5 : p.acceptableTiles.contains t = true
                · rw [if_pos h5] at h
                  refine ⟨row :: rest, rfl, ?_, h, h4⟩
                  unfold Walkable isTileWalkable
                  cases hl : p.acceptableTiles with
                  | nil => rw [hl] at h1; simp at h1
                  | cons a l =>
                    simp only [ht]
                    rw [← hl, h5]
                · rw [if_neg h5] at h
                  simp only [Outcome.route.injEq] at h
                  exact absurd h.symm hr

/-- A pathfinder on the grid `[[0, 1]]` with the acceptable tile `1` that avoids the
point `(0, 0)`, whose tile is `0`. -/
def blockedStartPathfinder : Pathfinder F64 (List Item) :=
  AvoidAdditionalPoint (SetAcceptableTiles (SetGrid (NewPathfinder goEnv) (some [[0, 1]])) [1]) 0 0

/-- C14. In a route that `FindPath` returns, every point other than the first has an
acceptable tile and is not avoided. -/
theorem FindPath_route_cells (E : Env F Q) (p : Pathfinder F Q) (sx sy ex ey : Int)
    (r : List Point) (h : (FindPath E p sx sy ex ey).1 = Outcome.route r) :
    ∀ q ∈ r.tail, (∃ grid, p.collisionGrid = some grid ∧ Walkable p (gridView grid) q.X q.Y) ∧
      ¬ Avoided p q.X q.Y := by
  by_cases hr : r = []
  · subst hr; simp
  · obtain ⟨grid, hg, hw, hs, _⟩ := FindPath_route_goal E p sx sy ex ey r h hr
    obtain ⟨mid, rfl, hmid, hgoal⟩ := search_route E p (gridView grid) sx sy ex ey r hs
    intro q hq
    simp only [List.tail_cons, List.mem_append, List.mem_singleton] at hq
    rcases hq with hq | rfl
    · exact ⟨⟨grid, hg, (hmid q hq).2⟩, (hmid q hq).1⟩
    · exact ⟨⟨grid, hg, hw⟩, hgoal⟩

/-- C14 on a route whose first point is avoided and has a tile that is not acceptable:
the start is subject to neither test. -/
theorem FindPath_route_cells_witness :
    (FindPath goEnv blockedStartPathfinder 0 0 1 0).1 = Outcome.route [⟨0, 0⟩, ⟨1, 0⟩] ∧
      Avoided blockedStartPathfinder 0 0 ∧
      ¬ Walkable blockedStartPathfinder (gridView [[0, 1]]) 0 0 ∧
      ∀ q ∈ [(⟨0, 0⟩ : Point), ⟨1, 0⟩].tail,
        (∃ grid, blockedStartPathfinder.collisionGrid = some grid ∧
          Walkable blockedStartPathfinder (gridView grid) q.X q.Y) ∧
        ¬ Avoided blockedStartPathfinder q.X q.Y :=
  ⟨by decide, by decide, by decide,
    FindPath_route_cells goEnv blockedStartPathfinder 0 0 1 0 _ (by decide)⟩

end RouteCells

end Goeasystar

/-! ## The cost of a tile -/

namespace Goeasystar

section TileCost

variable {F Q : Type}

/-- The pathfinders that the public methods produce from `NewPathfinder`. -/
inductive Reachable (E : Env F Q) : Pathfinder F Q → Prop where
  | new : Reachable E (NewPathfinder E)
  | setAcceptableTiles (p : Pathfinder F Q) (t : List Int) :
      Reachable E p → Reachable E (SetAcceptableTiles p t)
  | enableDiagonals (p : Pathfinder F Q) : Reachable E p → Reachable E (EnableDiagonals p)
  | disableDiagonals (p : Pathfinder F Q) : Reachable E p → Reachable E (DisableDiagonals p)
  | setGrid (p : Pathfinder F Q) (grid : Option (List (List Int))) :
      Reachable E p → Reachable E (SetGrid p grid)
  | setAdditionalPointCost (p : Pathfinder F Q) (x y : Int) (cost : F) :
      Reachable E p → Reachable E (SetAdditionalPointCost p x y cost)
  | removeAdditionalPointCost (p : Pathfinder F Q) (x y : Int) :
      Reachable E p → Reachable E (RemoveAdditionalPointCost p x y)
  | removeAllAdditionalPointCosts (p : Pathfinder F Q) :
      Reachable E p → Reachable E (RemoveAllAdditionalPointCosts p)
  | avoidAdditionalPoint (p : Pathfinder F Q) (x y : Int) :
      Reachable E p → Reachable E (AvoidAdditionalPoint p x y)
  | stopAvoidingAdditionalPoint (p : Pathfinder F Q) (x y : Int) :
      Reachable E p → Reachable E (StopAvoidingAdditionalPoint p x y)
  | enableCornerCutting (p : Pathfinder F Q) :
      Reachable E p → Reachable E (EnableCornerCutting p)
  | disableCornerCutting (p : Pathfinder F Q) :
      Reachable E p → Reachable E (DisableCornerCutting p)
  | stopAvoidingAllAdditionalPoints (p : Pathfinder F Q) :
      Reachable E p → Reachable E (StopAvoidingAllAdditionalPoints p)
  | findPath (p : Pathfinder F Q) (a b c d : Int) :
      Reachable E p → Reachable E (FindPath E p a b c d).2

/-- No public method writes the tile-cost table. -/
theorem Reachable.costMap_eq_nil {E : Env F Q} {p : Pathfinder F Q} (h : Reachable E p) :
    p.costMap = [] := by
  induction h with
  | new => rfl
  | findPath p a b c d _ ih => rw [(sameConfig_FindPath E p a b c d).2.2.1]; exact ih
  | _ => assumption

/-- A pathfinder with the grid `[[1, 1], [1, 1]]`, the acceptable tile `1` and no point
cost. -/
def plainPathfinder : Pathfinder F64 (List Item) :=
  SetAcceptableTiles (SetGrid (NewPathfinder goEnv) (some squareGrid)) [1]

theorem reachable_plainPathfinder : Reachable goEnv plainPathfinder :=
  Reachable.setAcceptableTiles _ _ (Reachable.setGrid _ _ Reachable.new)

/-- C18 fails where it says the value is positive: without a point cost `getTileCost`
returns `0`, and `0 < 0` does not hold. -/
theorem getTileCost_not_positive :
    Reachable goEnv plainPathfinder ∧
      plainPathfinder.additionalPointsToCost.lookup (getHashKeyForPoint 1 0) = none ∧
      getTileCost goEnv plainPathfinder (gridView squareGrid) 1 0 = some (F64.ofInt 0) ∧
      goEnv.f.lt goEnv.f.zero (F64.ofInt 0) = false :=
  ⟨reachable_plainPathfinder, by decide, by decide, by decide⟩

end TileCost

end Goeasystar

/-! ## The keys of the registry -/

namespace Goeasystar

section Keys

theorem runeOfInt_of_lt {x : Int} (h0 : 0 ≤ x) (h1 : x < 55296) : runeOfInt x = x.toNat := by
  unfold runeOfInt
  rw [if_pos]
  omega

/-- The UTF-8 encodings of two code points below the surrogates, each followed by
anything, are equal only for equal code points followed by the same. -/
theorem utf8Encode_append_inj (a b : Nat) (s t : List Nat) (ha : a < 55296) (hb : b < 55296)
    (h : utf8Encode a ++ s = utf8Encode b ++ t) : a = b ∧ s = t := by
  unfold utf8Encode at h
  by_cases a1 : a < 0x80
  · rw [if_pos a1] at h
    by_cases b1 : b < 0x80
    · rw [if_pos b1] at h
      simp only [List.cons_append, List.nil_append, List.cons.injEq] at h
      exact h
    · rw [if_neg b1] at h
      by_cases b2 : b < 0x800
      · rw [if_pos b2] at h
        simp only [List.cons_append, List.nil_append, List.cons.injEq] at h
        omega
      · rw [if_neg b2, if_pos (by omega)] at h
        simp only [List.cons_append, List.nil_append, List.cons.injEq] at h
        omega
  · rw [if_neg a1] at h
    by_cases a2 : a < 0x800
    · rw [if_pos a2] at h
      by_cases b1 : b < 0x80
      · rw [if_pos b1] at h
        simp only [List.cons_append, List.nil_append, List.cons.injEq] at h
        omega
      · rw [if_neg b1] at h
        by_cases b2 : b < 0x800
        · rw [if_pos b2] at h
          simp only [List.cons_append, List.nil_append, List.cons.injEq] at h
          refine ⟨by omega, h.2.2⟩
        · rw [if_neg b2, if_pos (by omega)] at h
          simp only [List.cons_append, List.nil_append, List.cons.injEq] at h
          omega
    · rw [if_neg a2, if_pos (by omega)] at h
      by_cases b1 : b < 0x80
      · rw [if_pos b1] at h
        simp only [List.cons_append, List.nil_append, List.cons.injEq] at h
        omega
      · rw [if_neg b1] at h
        by_cases b2 : b < 0x800
        · rw [if_pos b2] at h
          simp only [List.cons_append, List.nil_append, List.cons.injEq] at h
          omega
        · rw [if_neg b2, if_pos (by omega)] at h
          simp only [List.cons_append, List.nil_append, List.cons.injEq] at h
          refine ⟨by omega, h.2.2.2⟩

theorem getHashKeyForPoint_eq (x1 y1 x2 y2 : Int)
    (hx1 : 0 ≤ x1 ∧ x1 < 55296) (hy1 : 0 ≤ y1 ∧ y1 < 55296)
    (hx2 : 0 ≤ x2 ∧ x2 < 55296) (hy2 : 0 ≤ y2 ∧ y2 < 55296)
    (h : getHashKeyForPoint x1 y1 = getHashKeyForPoint x2 y2) : x1 = x2 ∧ y1 = y2 := by
  unfold getHashKeyForPoint stringOfInt at h
  rw [runeOfInt_of_lt hx1.1 hx1.2, runeOfInt_of_lt hy1.1 hy1.2,
    runeOfInt_of_lt hx2.1 hx2.2, runeOfInt_of_lt hy2.1 hy2.2] at h
  rw [List.append_assoc, List.append_assoc] at h
  obtain ⟨hx, hrest⟩ := utf8Encode_append_inj _ _ _ _ (by omega) (by omega) h
  simp only [List.cons_append, List.nil_append, List.cons.injEq, true_and] at hrest
  have hrest1 : utf8Encode y1.toNat ++ [] = utf8Encode y2.toNat ++ [] := by
    rw [List.append_nil, List.append_nil]; exact hrest
  obtain ⟨hy, _⟩ := utf8Encode_append_inj _ _ _ _ (by omega) (by omega) hrest1
  omega

/-- C20, as the code has it. Two distinct points whose coordinates are in `[0, 55296)`
have distinct keys: `string(x)` is the UTF-8 encoding of the code point `x`, so no
coordinate below the surrogate range is corrupted, and on a grid of 100 by 100 cells
every cell has its own key. Keys coincide from the coordinate `55296` on, where
`string(x)` is the replacement character: `(55296, y)` and `(55297, y)` share a key. -/
theorem getHashKeyForPoint_injective (x1 y1 x2 y2 : Int)
    (hx1 : 0 ≤ x1 ∧ x1 < 55296) (hy1 : 0 ≤ y1 ∧ y1 < 55296)
    (hx2 : 0 ≤ x2 ∧ x2 < 55296) (hy2 : 0 ≤ y2 ∧ y2 < 55296)
    (hne : ¬ (x1 = x2 ∧ y1 = y2)) :
    getHashKeyForPoint x1 y1 ≠ getHashKeyForPoint x2 y2 ∧
      getHashKeyForPoint 55296 y1 = getHashKeyForPoint 55297 y1 :=
  ⟨fun h => hne (getHashKeyForPoint_eq x1 y1 x2 y2 hx1 hy1 hx2 hy2 h), rfl⟩

/-- C20 as amended, at the points `(10, 95)` and `(95, 10)`, whose keys are the byte
strings `[10, 95, 95]` and `[95, 95, 10]`. -/
theorem getHashKeyForPoint_injective_witness :
    getHashKeyForPoint 10 95 = [10, 95, 95] ∧ getHashKeyForPoint 95 10 = [95, 95, 10] ∧
      (getHashKeyForPoint 10 95 ≠ getHashKeyForPoint 95 10 ∧
        getHashKeyForPoint 55296 95 = getHashKeyForPoint 55297 95) :=
  ⟨by decide, by decide,
    getHashKeyForPoint_injective 10 95 95 10 (by decide) (by decide) (by decide) (by decide)
      (by decide)⟩

/-- C20 fails as stated: no two distinct points with coordinates in `[0, 100)` have the
same key, whether or not a coordinate is `10` or more. -/
theorem getHashKeyForPoint_no_collision_below_100 :
    ¬ ∃ x1 y1 x2 y2 : Int,
      (0 ≤ x1 ∧ x1 < 100) ∧ (0 ≤ y1 ∧ y1 < 100) ∧ (0 ≤ x2 ∧ x2 < 100) ∧ (0 ≤ y2 ∧ y2 < 100) ∧
      (10 ≤ x1 ∨ 10 ≤ y1 ∨ 10 ≤ x2 ∨ 10 ≤ y2) ∧ (x1, y1) ≠ (x2, y2) ∧
      getHashKeyForPoint x1 y1 = getHashKeyForPoint x2 y2 := by
  rintro ⟨x1, y1, x2, y2, hx1, hy1, hx2, hy2, _, hne, hk⟩
  have hk1 : x1 = x2 ∧ y1 = y2 := by
    unfold getHashKeyForPoint stringOfInt at hk
    rw [runeOfInt_of_lt hx1.1 (by omega), runeOfInt_of_lt hy1.1 (by omega),
      runeOfInt_of_lt hx2.1 (by omega), runeOfInt_of_lt hy2.1 (by omega)] at hk
    unfold utf8Encode at hk
    rw [if_pos (by omega), if_pos (by omega), if_pos (by omega), if_pos (by omega)] at hk
    simp only [List.cons_append, List.nil_append, List.cons.injEq, and_true, true_and] at hk
    omega
  exact hne (by rw [hk1.1, hk1.2])

end Keys

end Goeasystar

/-! ## Grid reads in range and routes without a repeated point -/

namespace Goeasystar

section Safe

variable {F Q : Type}

/-- Every node is the node registered under the key of its own coordinates, and no
node has the coordinates of the goal. -/
structure Registered (E : Env F Q) (p : Pathfinder F Q) (st : SearchState F Q) : Prop where
  reg : ∀ i, i < st.heap.length →
    st.coordinateToNode.lookup
      (getHashKeyForPoint (nodeAt E st.heap i).x (nodeAt E st.heap i).y) = some i
  notGoal : ∀ i, i < st.heap.length →
    ¬ ((nodeAt E st.heap i).x = p.endX ∧ (nodeAt E st.heap i).y = p.endY)

theorem registered_relax {E : Env F Q} {p : Pathfinder F Q} {st : SearchState F Q}
    (h : Registered E p st) (e : Nat) (s : SearchNode F) :
    Registered E p { st with heap := relax E st.heap e s } where
  reg := by
    intro i hi
    simp only [relax_length] at hi
    simp only [relax_x, relax_y]
    exact h.reg i hi
  notGoal := by
    intro i hi
    simp only [relax_length] at hi
    simp only [relax_x, relax_y]
    exact h.notGoal i hi

theorem registered_register {E : Env F Q} {p : Pathfinder F Q} {st : SearchState F Q}
    (h : Registered E p st) (x y : Int) (s : SearchNode F)
    (hl : st.coordinateToNode.lookup (getHashKeyForPoint x y) = none)
    (hg : ¬ (x = p.endX ∧ y = p.endY)) :
    Registered E p (register E p st (getHashKeyForPoint x y) x y s) where
  reg := by
    intro i hi
    rw [register_length] at hi
    rw [register_node]
    show (mapSet st.coordinateToNode (getHashKeyForPoint x y) st.heap.length).lookup _ = _
    rw [lookup_mapSet]
    by_cases h1 : i < st.heap.length
    · rw [if_pos h1]
      have hreg := h.reg i h1
      have hne : getHashKeyForPoint (nodeAt E st.heap i).x (nodeAt E st.heap i).y ≠
          getHashKeyForPoint x y := by
        intro heq
        rw [heq, hl] at hreg
        cases hreg
      rw [if_neg hne]
      exact hreg
    · have h2 : i = st.heap.length := by omega
      rw [if_neg h1, if_pos h2]
      simp only [newNode, if_true, h2]
  notGoal := by
    intro i hi
    rw [register_length] at hi
    rw [register_node]
    by_cases h1 : i < st.heap.length
    · rw [if_pos h1]; exact h.notGoal i h1
    · rw [if_neg h1, if_pos (by omega)]
      exact hg

theorem registered_initial (E : Env F Q) (p : Pathfinder F Q) (g : GridView) (sx sy : Int)
    (hs : p.startX = sx ∧ p.startY = sy) (hne : ¬ (sx = p.endX ∧ sy = p.endY)) :
    Registered E p (initialState E p g sx sy) where
  reg := by
    intro i hi
    have : i = 0 := by simp [initialState] at hi; omega
    subst this
    simp only [initialState, nodeAt, newNode, List.getD_cons_zero, hs.1, hs.2]
    rw [lookup_mapSet, if_pos rfl]
  notGoal := by
    intro i hi
    have : i = 0 := by simp [initialState] at hi; omega
    subst this
    simp only [initialState, nodeAt, newNode, List.getD_cons_zero, hs.1, hs.2]
    exact hne

/-- On readable cells the search loop does not panic, and when it meets the goal the
nodes are in bounds, each registered under its own key, and none at the goal. -/
theorem searchLoop_safe (E : Env F Q) (p : Pathfinder F Q) (g : GridView)
    (hr : Readable g) (sx sy : Int) (fuel : Nat) (st : SearchState F Q)
    (hI : Inv E p g sx sy st) (hB : Bounded E g st) (hR : Registered E p st) :
    match searchLoop E p g fuel st with
    | Searched.found par x y st1 =>
      Inv E p g sx sy st1 ∧ Bounded E g st1 ∧ Registered E p st1 ∧
        par < st1.heap.length ∧ x = p.endX ∧ y = p.endY
    | Searched.exhausted _ => True
    | Searched.panic _ => False
    | Searched.outOfFuel _ => True := by
  have key := searchLoop_induction E p g
    (fun _ st => Inv E p g sx sy st ∧ Bounded E g st ∧ Registered E p st)
    (fun _ st0 item st => Inv E p g sx sy st ∧ Bounded E g st ∧ Registered E p st ∧
      item.value < st.heap.length ∧
      (nodeAt E st.heap item.value).x = (nodeAt E st0.heap item.value).x ∧
      (nodeAt E st.heap item.value).y = (nodeAt E st0.heap item.value).y ∧
      InView g (nodeAt E st0.heap item.value).x (nodeAt E st0.heap item.value).y)
    (fun st0 item s =>
      CandOK E p g item.value (nodeAt E st0.heap item.value).x
        (nodeAt E st0.heap item.value).y s)
    (fun par x y st1 => Inv E p g sx sy st1 ∧ Bounded E g st1 ∧ Registered E p st1 ∧
        par < st1.heap.length ∧ x = p.endX ∧ y = p.endY)
    (fun _ => True) False
    ?_ ?_ ?_ ?_ ?_ ?_ ?_ ?_ ?_ fuel st ⟨hI, hB, hR⟩
  · cases hres : searchLoop E p g fuel st with
    | found par x y st1 => rw [hres] at key; exact key
    | exhausted st1 => trivial
    | panic st1 => rw [hres] at key; exact key
    | outOfFuel st1 => trivial
  · intro fuel st hI hlen hpk
    exact peek_isSome hI.1 hlen hpk
  · intro fuel st item hI hlen hpk hc
    obtain ⟨_, hlt, _⟩ := hI.1.pop hlen hpk
    obtain ⟨sn, hsn⟩ := candidates_isSome E p hr st.heap item.value (hI.2.1.inB _ hlt)
    rw [hsn] at hc
    cases hc
  · intro fuel st item sn hI hlen hpk hc
    obtain ⟨hinv, hlt, _⟩ := hI.1.pop hlen hpk
    exact ⟨⟨hinv, ⟨hI.2.1.inB, hI.2.1.keysNodup, hI.2.1.keysIn⟩,
      ⟨hI.2.2.reg, hI.2.2.notGoal⟩, hlt, rfl, rfl, hI.2.1.inB _ hlt⟩,
      candidates_candOK E p g st.heap item.value hc⟩
  · intro fuel st0 item st s e hJ hP _ _ _ _
    obtain ⟨hinv, hbd, hreg, hlt, hx, hy, hin⟩ := hJ
    have hsp : s.parent < st.heap.length := by rw [hP.1]; exact hlt
    refine ⟨hinv.relax e s hsp, bounded_relax hbd e s, registered_relax hreg e s,
      ?_, ?_, ?_, hin⟩
    · simp only [relax_length]; exact hlt
    · simp only [relax_x]; exact hx
    · simp only [relax_y]; exact hy
  · intro fuel st0 item st s hJ hP hav hgoal hwk hl
    obtain ⟨hinv, hbd, hreg, hlt, hx, hy, hin⟩ := hJ
    have hsp : s.parent < st.heap.length := by rw [hP.1]; exact hlt
    have hadj : InView g (adjX E st s) (adjY E st s) := by
      unfold adjX adjY
      rw [hP.1, hx, hy]
      exact inView_of_guarded p hin hP.2.2.2.1 hP.2.2.2.2.1
    have hng : ¬ (adjX E st s = p.endX ∧ adjY E st s = p.endY) := by
      intro hh
      apply hgoal
      rw [hP.2.1, hP.2.2.1]
      exact ⟨hh.1.symm, hh.2.symm⟩
    refine ⟨hinv.register _ _ _ s hsp (not_avoided_of_lookup hav) hwk,
      bounded_register p hbd _ _ s hadj hl, registered_register hreg _ _ s hl hng,
      ?_, ?_, ?_, hin⟩
    · rw [register_length]; omega
    · rw [register_node, if_pos hlt]; exact hx
    · rw [register_node, if_pos hlt]; exact hy
  · intro fuel st0 item st s hJ hP _ hgoal
    obtain ⟨hinv, hbd, hreg, hlt, _, _, _⟩ := hJ
    refine ⟨hinv, hbd, hreg, by rw [hP.1]; exact hlt, ?_, ?_⟩
    · rw [← hgoal.1]; exact hP.2.1
    · rw [← hgoal.2]; exact hP.2.2.1
  · intro fuel st0 item st s hJ hP _ _ hwk
    obtain ⟨hinv, hbd, hreg, hlt, hx, hy, hin⟩ := hJ
    have hadj : InView g (adjX E st s) (adjY E st s) := by
      unfold adjX adjY
      rw [hP.1, hx, hy]
      exact inView_of_guarded p hin hP.2.2.2.1 hP.2.2.2.2.1
    obtain ⟨b, hb⟩ := isTileWalkable_isSome hr p.acceptableTiles hadj
    rw [hb] at hwk
    cases hwk
  · intro fuel st0 item st hJ
    exact ⟨hJ.1, hJ.2.1, hJ.2.2.1⟩
  · intros; trivial

end Safe

end Goeasystar

namespace Goeasystar

section SafeRoutes

variable {F Q : Type}

/-- C19. With acceptable tiles, a rectangular grid and four coordinates in bounds,
`FindPath` does not panic: every read of the grid (of the tile of the goal, of
`getTileCost` for a candidate, of `isTileWalkable` for a flanking cell or a
destination) is at a row in `[0, H)` and a column in `[0, W)`. -/
theorem FindPath_no_panic (E : Env F Q) (p : Pathfinder F Q) (grid : List (List Int))
    (W H : Nat) (sx sy ex ey : Int)
    (ht : p.acceptableTiles ≠ []) (hg : p.collisionGrid = some grid)
    (hr : Rectangular grid W H) (hs : InBounds W H sx sy) (he : InBounds W H ex ey) :
    (FindPath E p sx sy ex ey).1 ≠ Outcome.panic := by
  obtain ⟨hx0, hx1, hy0, hy1⟩ := hs
  obtain ⟨ex0, ex1, ey0, ey1⟩ := he
  have hw := gridView_width hr
  have hh := gridView_height hr
  rw [FindPath_of_rectangular E p ht hg hr hx0 hy0 ex0]
  unfold findPathOn
  rw [hw, hh, if_neg (by omega)]
  by_cases hsame : sx = ex ∧ sy = ey
  · rw [if_pos hsame]
    simp
  · rw [if_neg hsame]
    obtain ⟨t, htile⟩ := @gridAt_isSome grid W H hr ex ey ⟨ex0, ex1, ey0, ey1⟩
    have : (gridView grid).tileAt ex ey = some t := htile
    rw [this]
    simp only []
    by_cases hacc : p.acceptableTiles.contains t = true
    · rw [if_pos hacc]
      have key := searchLoop_safe E
        { p with startX := sx, startY := sy, endX := ex, endY := ey } (gridView grid)
        (readable_gridView hr) sx sy (loopBound (gridView grid))
        (initialState E { p with startX := sx, startY := sy, endX := ex, endY := ey }
          (gridView grid) sx sy)
        (Inv.initial E { p with startX := sx, startY := sy, endX := ex, endY := ey }
          (gridView grid) sx sy)
        (bounded_initial E _ (gridView grid) sx sy ⟨rfl, rfl⟩
          ⟨hx0, by rw [hw]; exact hx1, hy0, by rw [hh]; exact hy1⟩)
        (registered_initial E _ (gridView grid) sx sy ⟨rfl, rfl⟩ hsame)
      unfold search
      simp only []
      cases hres : searchLoop E { p with startX := sx, startY := sy, endX := ex, endY := ey }
          (gridView grid) (loopBound (gridView grid))
          (initialState E { p with startX := sx, startY := sy, endX := ex, endY := ey }
            (gridView grid) sx sy) with
      | found par x y st1 =>
        simp only [buildPath]
        cases parentWalk E st1.heap st1.heap.length par <;> simp
      | exhausted st1 => simp
      | panic st1 => rw [hres] at key; exact key.elim
      | outOfFuel st1 => simp
    · rw [if_neg hacc]
      simp

/-- C19 on the configuration of `TestSuccessfulPath`. -/
theorem FindPath_no_panic_witness :
    Rectangular wallGrid 5 5 ∧ InBounds 5 5 1 2 ∧ InBounds 5 5 3 2 ∧
      (FindPath goEnv wallPathfinder 1 2 3 2).1 ≠ Outcome.panic :=
  ⟨by decide, by decide, by decide,
    FindPath_no_panic goEnv wallPathfinder wallGrid 5 5 1 2 3 2 (by decide) rfl (by decide)
      (by decide) (by decide)⟩

/-- A walk over the parent links that ends has followed a chain to a node without a
parent. -/
theorem parentWalk_chain (E : Env F Q) (heap : List (Node F)) :
    ∀ (fuel i : Nat) (l : List Point), parentWalk E heap fuel i = some l →
      ∃ c, IsChain E heap i c ∧ pointOf E heap i :: l = c.map (pointOf E heap) := by
  intro fuel
  induction fuel with
  | zero => intro i l hw; simp [parentWalk] at hw
  | succ fuel ih =>
    intro i l hw
    unfold parentWalk at hw
    cases hp : (nodeAt E heap i).parent with
    | none =>
      rw [hp] at hw
      simp only [Option.some.injEq] at hw
      subst hw
      exact ⟨[i], IsChain.root i hp, rfl⟩
    | some q =>
      rw [hp] at hw
      simp only [] at hw
      cases hq : parentWalk E heap fuel q with
      | none => rw [hq] at hw; simp at hw
      | some l1 =>
        rw [hq] at hw
        simp only [Option.some.injEq] at hw
        subst hw
        obtain ⟨c, hc, hcl⟩ := ih q l1 hq
        refine ⟨i :: c, IsChain.link i q c hp hc, ?_⟩
        rw [List.map_cons, ← hcl]
        rfl

/-- Distinct points in bounds are at most as many as the cells of the grid. -/
theorem length_le_of_nodup_inBounds (W H : Nat) (l : List Point) (hn : l.Nodup)
    (hb : ∀ q ∈ l, InBounds W H q.X q.Y) : l.length ≤ W * H := by
  have hinj : ∀ a ∈ l, ∀ b ∈ l,
      (a.X.toNat, a.Y.toNat) = (b.X.toNat, b.Y.toNat) → a = b := by
    intro a ha b hb1 hab
    obtain ⟨a1, _, a2, _⟩ := hb a ha
    obtain ⟨b1, _, b2, _⟩ := hb b hb1
    simp only [Prod.mk.injEq] at hab
    cases a
    cases b
    simp only [Point.mk.injEq]
    simp only at a1 a2 b1 b2 hab
    omega
  have hnd : (l.map (fun q : Point => (q.X.toNat, q.Y.toNat))).Nodup :=
    List.Nodup.map_on hinj hn
  have hsub : l.map (fun q : Point => (q.X.toNat, q.Y.toNat)) ⊆
      List.product (List.range W) (List.range H) := by
    intro c hc
    obtain ⟨q, hq, rfl⟩ := List.mem_map.mp hc
    obtain ⟨q1, q2, q3, q4⟩ := hb q hq
    exact List.pair_mem_product.mpr
      ⟨List.mem_range.mpr (by omega), List.mem_range.mpr (by omega)⟩
  have hle := (List.subperm_of_subset hnd hsub).length_le
  rw [List.length_map] at hle
  exact le_trans hle (le_of_eq ((List.length_product _ _).trans (by simp)))

/-- A route of the search has no point twice, and its points are cells of the grid. -/
theorem search_simple (E : Env F Q) (p : Pathfinder F Q) (g : GridView) (hr : Readable g)
    (sx sy ex ey : Int) (hs : InView g sx sy) (he : InView g ex ey)
    (hne : ¬ (sx = ex ∧ sy = ey)) (r : List Point)
    (h : (search E p g sx sy ex ey).1 = Outcome.route r) :
    r.Nodup ∧ ∀ q ∈ r, InView g q.X q.Y := by
  have key := searchLoop_safe E
    { p with startX := sx, startY := sy, endX := ex, endY := ey } g hr sx sy (loopBound g)
    (initialState E { p with startX := sx, startY := sy, endX := ex, endY := ey } g sx sy)
    (Inv.initial E { p with startX := sx, startY := sy, endX := ex, endY := ey } g sx sy)
    (bounded_initial E _ g sx sy ⟨rfl, rfl⟩ hs)
    (registered_initial E _ g sx sy ⟨rfl, rfl⟩ hne)
  unfold search at h
  simp only [] at h
  cases hres : searchLoop E { p with startX := sx, startY := sy, endX := ex, endY := ey } g
      (loopBound g)
      (initialState E { p with startX := sx, startY := sy, endX := ex, endY := ey } g sx sy)
    with
  | exhausted st1 => rw [hres] at h; simp at h
  | panic st1 => rw [hres] at h; simp at h
  | outOfFuel st1 => rw [hres] at h; simp at h
  | found par x y st1 =>
    rw [hres] at h key
    obtain ⟨hinv, hbd, hreg, hpar, hx, hy⟩ := key
    simp only [buildPath] at h
    cases hw : parentWalk E st1.heap st1.heap.length par with
    | none => rw [hw] at h; simp at h
    | some l =>
      rw [hw] at h
      simp only [Outcome.route.injEq] at h
      obtain ⟨c, hc, hcl⟩ := parentWalk_chain E st1.heap _ par l hw
      have hlt := hc.lt_length hpar hinv.parentLt
      have hpts : (⟨x, y⟩ : Point) ::
          ⟨(nodeAt E st1.heap par).x, (nodeAt E st1.heap par).y⟩ :: l =
          ⟨x, y⟩ :: c.map (pointOf E st1.heap) := by
        rw [← hcl]; rfl
      rw [hpts] at h
      subst h
      have hinj : ∀ a ∈ c, ∀ b ∈ c, pointOf E st1.heap a = pointOf E st1.heap b → a = b := by
        intro a ha b hb hab
        simp only [pointOf, Point.mk.injEq] at hab
        have h1 := hreg.reg a (hlt a ha)
        have h2 := hreg.reg b (hlt b hb)
        rw [hab.1, hab.2, h2] at h1
        simp only [Option.some.injEq] at h1
        exact h1.symm
      have hnd : (c.map (pointOf E st1.heap)).Nodup := List.Nodup.map_on hinj hc.nodup
      have hgoal : (⟨x, y⟩ : Point) ∉ c.map (pointOf E st1.heap) := by
        intro hmem
        obtain ⟨a, ha, hpa⟩ := List.mem_map.mp hmem
        simp only [pointOf, Point.mk.injEq] at hpa
        exact hreg.notGoal a (hlt a ha) ⟨by rw [hpa.1, hx], by rw [hpa.2, hy]⟩
      refine ⟨List.nodup_reverse.mpr (List.nodup_cons.mpr ⟨hgoal, hnd⟩), ?_⟩
      intro q hq
      rw [List.mem_reverse, List.mem_cons] at hq
      rcases hq with rfl | hq
      · simp only [hx, hy]
        exact he
      · obtain ⟨a, ha, rfl⟩ := List.mem_map.mp hq
        exact hbd.inB a (hlt a ha)

end SafeRoutes

end Goeasystar

namespace Goeasystar

section SimpleRoute

variable {F Q : Type}

/-- C15. With acceptable tiles, a rectangular grid of `W` columns and `H` rows and
start and goal in bounds, a route that `FindPath` returns has no point twice, so that
it has at most `W * H` points: the walk over the parent links that ended met every node
once, the nodes have their own coordinates each, and no node is at the goal. This holds
for all point costs, the non-negative ones among them. -/
theorem FindPath_route_simple (E : Env F Q) (p : Pathfinder F Q) (grid : List (List Int))
    (W H : Nat) (sx sy ex ey : Int) (r : List Point)
    (hg : p.collisionGrid = some grid) (hr : Rectangular grid W H)
    (hs : InBounds W H sx sy) (he : InBounds W H ex ey)
    (h : (FindPath E p sx sy ex ey).1 = Outcome.route r) :
    r.Nodup ∧ r.length ≤ W * H := by
  by_cases hnil : r = []
  · subst hnil
    exact ⟨List.nodup_nil, Nat.zero_le _⟩
  · obtain ⟨grid1, hg1, _, hsearch, hne⟩ := FindPath_route_goal E p sx sy ex ey r h hnil
    rw [hg] at hg1
    simp only [Option.some.injEq] at hg1
    subst hg1
    have hw := gridView_width hr
    have hh := gridView_height hr
    obtain ⟨hx0, hx1, hy0, hy1⟩ := hs
    obtain ⟨ex0, ex1, ey0, ey1⟩ := he
    obtain ⟨hnd, hin⟩ := search_simple E p (gridView grid) (readable_gridView hr) sx sy ex ey
      ⟨hx0, by rw [hw]; exact hx1, hy0, by rw [hh]; exact hy1⟩
      ⟨ex0, by rw [hw]; exact ex1, ey0, by rw [hh]; exact ey1⟩ hne r hsearch
    refine ⟨hnd, length_le_of_nodup_inBounds W H r hnd ?_⟩
    intro q hq
    obtain ⟨q1, q2, q3, q4⟩ := hin q hq
    rw [hw] at q2
    rw [hh] at q4
    exact ⟨q1, q2, q3, q4⟩

/-- C15 on the configuration of `TestAvoidAdditionalPoint`. -/
theorem FindPath_route_simple_witness :
    (FindPath goEnv wallAvoidPathfinder 1 2 3 2).1 =
        Outcome.route [⟨1, 2⟩, ⟨1, 3⟩, ⟨1, 4⟩, ⟨2, 4⟩, ⟨3, 4⟩, ⟨3, 3⟩, ⟨3, 2⟩] ∧
      Rectangular wallGrid 5 5 ∧
      [(⟨1, 2⟩ : Point), ⟨1, 3⟩, ⟨1, 4⟩, ⟨2, 4⟩, ⟨3, 4⟩, ⟨3, 3⟩, ⟨3, 2⟩].Nodup ∧
      [(⟨1, 2⟩ : Point), ⟨1, 3⟩, ⟨1, 4⟩, ⟨2, 4⟩, ⟨3, 4⟩, ⟨3, 3⟩, ⟨3, 2⟩].length ≤ 5 * 5 :=
  ⟨by decide, by decide,
    FindPath_route_simple goEnv wallAvoidPathfinder wallGrid 5 5 1 2 3 2 _ rfl (by decide)
      (by decide) (by decide) (by decide)⟩

end SimpleRoute

end Goeasystar

/-! ## The node that the loop takes from the open list -/

namespace Goeasystar

section Pop

variable {F Q : Type}

/-- Source: `FindPath`, one iteration of the loop `for { ... }` that neither returns nor
panics: the state at the head of the next iteration. -/
def searchStep (E : Env F Q) (p : Pathfinder F Q) (g : GridView)
    (st : SearchState F Q) : Option (SearchState F Q) :=
  if E.pq.len st.openList = 0 then none
  else
    match E.pq.peekAndShift st.openList maxInt64 with
    | (none, _) => none
    | (some item, q) =>
      match candidates E p g st.heap item.value with
      | none => none
      | some sn =>
        match explore E p g (E.sort (searchNodesLess E st.heap) sn)
            { st with openList := q } with
        | Explored.done st1 => some st1
        | _ => none

/-- The loop continues from the state that one iteration leaves. -/
theorem searchLoop_searchStep (E : Env F Q) (p : Pathfinder F Q) (g : GridView)
    (fuel : Nat) (st st1 : SearchState F Q) (h : searchStep E p g st = some st1) :
    searchLoop E p g (fuel + 1) st = searchLoop E p g fuel st1 := by
  unfold searchStep at h
  rw [searchLoop]
  by_cases hlen : E.pq.len st.openList = 0
  · rw [if_pos hlen] at h; cases h
  · rw [if_neg hlen] at h ⊢
    rcases hpk : E.pq.peekAndShift st.openList maxInt64 with ⟨oi, q⟩
    rw [hpk] at h
    cases oi with
    | none => cases h
    | some item =>
      simp only [] at h ⊢
      cases hc : candidates E p g st.heap item.value with
      | none => rw [hc] at h; cases h
      | some sn =>
        rw [hc] at h
        simp only [] at h ⊢
        cases hex : explore E p g (E.sort (searchNodesLess E st.heap) sn)
            { st with openList := q } with
        | found par x y st2 => rw [hex] at h; cases h
        | panic => rw [hex] at h; cases h
        | done st2 =>
          rw [hex] at h
          simp only [Option.some.injEq] at h
          rw [h]

/-- The pathfinder of `TestSuccessfulPath` in the loop of `FindPath(1, 2, 3, 2)`. -/
def wallSearch : Pathfinder F64 (List Item) :=
  { wallPathfinder with startX := 1, startY := 2, endX := 3, endY := 2 }

/-- C16 fails. In `FindPath(1, 2, 3, 2)` of `TestSuccessfulPath` the first iteration
pushes the nodes of `(0, 2)`, `(1, 1)` and `(1, 3)` with the priorities `500`, `423` and
`423`, in this order, and `Push` appends an item without restoring the heap order; the
second iteration takes the first item, the node of `(0, 2)` with priority `500`, while
the open list holds the priority `423`. -/
theorem searchLoop_pop_not_lowest :
    ∃ st1 : SearchState F64 (List Item),
      searchStep goEnv wallSearch (gridView wallGrid)
        (initialState goEnv wallSearch (gridView wallGrid) 1 2) = some st1 ∧
      (search goEnv wallPathfinder (gridView wallGrid) 1 2 3 2).1 =
        (match searchLoop goEnv wallSearch (gridView wallGrid)
            ((gridView wallGrid).width * (gridView wallGrid).height).toNat st1 with
          | Searched.found par x y st => buildPath goEnv st.heap par x y
          | Searched.exhausted _ => Outcome.error "path not found"
          | Searched.panic _ => Outcome.panic
          | Searched.outOfFuel _ => Outcome.diverges) ∧
      goEnv.pq.items st1.openList = [⟨1, 500⟩, ⟨2, 423⟩, ⟨3, 423⟩] ∧
      (goEnv.pq.peekAndShift st1.openList maxInt64).1 = some ⟨1, 500⟩ ∧
      (⟨2, 423⟩ : Item) ∈ goEnv.pq.items st1.openList ∧
      (⟨2, 423⟩ : Item).priority < (⟨1, 500⟩ : Item).priority := by
  have hstep : ∃ st1, searchStep goEnv wallSearch (gridView wallGrid)
      (initialState goEnv wallSearch (gridView wallGrid) 1 2) = some st1 ∧
      goEnv.pq.items st1.openList = [⟨1, 500⟩, ⟨2, 423⟩, ⟨3, 423⟩] := by
    have hmap : (searchStep goEnv wallSearch (gridView wallGrid)
        (initialState goEnv wallSearch (gridView wallGrid) 1 2)).map
          (fun st => goEnv.pq.items st.openList) =
        some [⟨1, 500⟩, ⟨2, 423⟩, ⟨3, 423⟩] := by decide
    cases h : searchStep goEnv wallSearch (gridView wallGrid)
        (initialState goEnv wallSearch (gridView wallGrid) 1 2) with
    | none => rw [h] at hmap; cases hmap
    | some st1 =>
      rw [h] at hmap
      exact ⟨st1, rfl, by simpa using hmap⟩
  obtain ⟨st1, hst, hitems⟩ := hstep
  have hq : st1.openList = [⟨1, 500⟩, ⟨2, 423⟩, ⟨3, 423⟩] := hitems
  refine ⟨st1, hst, ?_, hitems, ?_, ?_, by decide⟩
  · unfold search
    simp only []
    have hb : loopBound (gridView wallGrid) =
        ((gridView wallGrid).width * (gridView wallGrid).height).toNat + 1 := rfl
    rw [hb]
    have hl := searchLoop_searchStep goEnv wallSearch (gridView wallGrid)
      ((gridView wallGrid).width * (gridView wallGrid).height).toNat _ st1 hst
    have hw : ({ wallPathfinder with startX := 1, startY := 2, endX := 3, endY := 2 } :
        Pathfinder F64 (List Item)) = wallSearch := rfl
    rw [hw, hl]
    cases searchLoop goEnv wallSearch (gridView wallGrid)
      ((gridView wallGrid).width * (gridView wallGrid).height).toNat st1 <;> rfl
  · rw [hq]
    decide
  · rw [hitems]
    decide

end Pop

end Goeasystar

/-! ## The order of the candidates -/

namespace Goeasystar

namespace F64

/-- The rational number `(-1)^neg * m * 2^e`. -/
def sval (neg : Bool) (m : Nat) (e : Int) : ℚ := (if neg then -1 else 1) * val m e

theorem scaled_cast_signed (neg : Bool) (m : Nat) (e e0 : Int) (h : e0 ≤ e) :
    ((scaled neg m e e0 : Int) : ℚ) * (2 : ℚ) ^ e0 = sval neg m e := by
  have h1 := scaled_cast m e e0 h
  cases neg with
  | false => simpa [sval] using h1
  | true =>
    unfold scaled at h1 ⊢
    unfold sval
    simp only [Bool.false_eq_true, if_false, one_mul, if_true] at h1 ⊢
    rw [← h1]
    push_cast
    ring

theorem lt_fin_signed (n1 : Bool) (m1 : Nat) (e1 : Int) (n2 : Bool) (m2 : Nat) (e2 : Int) :
    lt (fin n1 m1 e1) (fin n2 m2 e2) = decide (sval n1 m1 e1 < sval n2 m2 e2) := by
  unfold lt
  simp only []
  rw [decide_eq_decide]
  have h1 := scaled_cast_signed n1 m1 e1 (min e1 e2) (min_le_left _ _)
  have h2 := scaled_cast_signed n2 m2 e2 (min e1 e2) (min_le_right _ _)
  rw [← h1, ← h2]
  rw [mul_lt_mul_right (two_zpow_pos _)]
  exact Int.cast_lt.symm

/-- On values that are not NaN, `a ≤ b` (not `b < a`) is transitive. -/
theorem le_trans_of_ne_nan (a b c : F64) (ha : a ≠ nan) (hb : b ≠ nan) (hc : c ≠ nan)
    (h1 : lt b a = false) (h2 : lt c b = false) : lt c a = false := by
  cases a with
  | nan => exact absurd rfl ha
  | inf na =>
    cases b with
    | nan => exact absurd rfl hb
    | inf nb =>
      cases c with
      | nan => exact absurd rfl hc
      | inf nc => cases na <;> cases nb <;> cases nc <;> simp [lt] at h1 h2 ⊢
      | fin nc mc ec => cases na <;> cases nb <;> simp [lt] at h1 h2 ⊢
    | fin nb mb eb =>
      cases c with
      | nan => exact absurd rfl hc
      | inf nc => cases na <;> cases nc <;> simp [lt] at h1 h2 ⊢
      | fin nc mc ec => cases na <;> simp [lt] at h1 ⊢
  | fin na ma ea =>
    cases b with
    | nan => exact absurd rfl hb
    | inf nb =>
      cases c with
      | nan => exact absurd rfl hc
      | inf nc => cases nb <;> cases nc <;> simp [lt] at h1 h2 ⊢
      | fin nc mc ec => cases nb <;> simp [lt] at h1 h2
    | fin nb mb eb =>
      cases c with
      | nan => exact absurd rfl hc
      | inf nc => cases nc <;> simp [lt] at h2 ⊢
      | fin nc mc ec =>
        rw [lt_fin_signed, decide_eq_false_iff_not, not_lt] at h1 h2 ⊢
        exact le_trans h1 h2

end F64

section Ranking

variable {F Q : Type}

/-- Source: `searchNodes.Less`, the value `iCost` of a candidate:
`cost + getDistance(destination, goal) * costPrecision`. -/
def rankCost (E : Env F Q) (heap : List (Node F)) (s : SearchNode F) : F :=
  E.f.add s.cost (E.f.mul
    (getDistance E ((nodeAt E heap s.parent).x + s.x) ((nodeAt E heap s.parent).y + s.y)
      s.endX s.endY) E.f.costPrecision)

/-- The value that the comment on the sort names, `cost + heuristic distance`:
`cost + getDistance(destination, goal)`. -/
def plainRank (E : Env F Q) (heap : List (Node F)) (s : SearchNode F) : F :=
  E.f.add s.cost
    (getDistance E ((nodeAt E heap s.parent).x + s.x) ((nodeAt E heap s.parent).y + s.y)
      s.endX s.endY)

theorem searchNodesLess_eq (E : Env F Q) (heap : List (Node F)) (a b : SearchNode F) :
    searchNodesLess E heap a b = E.f.lt (rankCost E heap b) (rankCost E heap a) := rfl

/-- Insertion of `x` into a list in which no element is less than a later one keeps
that, for a comparison that is asymmetric and whose negation is transitive. -/
theorem insertRev_pairwise {α : Type} (less : α → α → Bool) (S : α → Prop)
    (hasym : ∀ a b, less a b = true → less b a = false)
    (htrans : ∀ a b c, S a → S b → S c → less a b = false → less b c = false →
      less a c = false)
    (x : α) (hx : S x) :
    ∀ (acc : List α), (∀ a ∈ acc, S a) → acc.Pairwise (fun a b => less a b = false) →
      (insertRev less x acc).Pairwise (fun a b => less a b = false) := by
  intro acc
  induction acc with
  | nil => intro _ _; simp [insertRev]
  | cons e r ih =>
    intro hS hp
    have he : S e := hS e (List.mem_cons_self _ _)
    have hr : ∀ a ∈ r, S a := fun a ha => hS a (List.mem_cons_of_mem _ ha)
    rw [List.pairwise_cons] at hp
    unfold insertRev
    by_cases hl : less x e = true
    · rw [if_pos hl, List.pairwise_cons]
      refine ⟨?_, ih hr hp.2⟩
      intro y hy
      rcases List.mem_cons.mp ((insertRev_perm less x r).mem_iff.mp hy) with rfl | hy
      · exact hasym _ _ hl
      · exact hp.1 y hy
    · have hl1 : less x e = false := by simpa using hl
      rw [if_neg hl, List.pairwise_cons, List.pairwise_cons]
      refine ⟨?_, hp⟩
      intro y hy
      rcases List.mem_cons.mp hy with rfl | hy
      · exact hl1
      · exact htrans x e y hx he (hr y hy) hl1 (hp.1 y hy)

/-- Insertion sort leaves no element less than an earlier one. -/
theorem insertionSort_pairwise {α : Type} (less : α → α → Bool) (S : α → Prop)
    (hasym : ∀ a b, less a b = true → less b a = false)
    (htrans : ∀ a b c, S a → S b → S c → less a b = false → less b c = false →
      less a c = false)
    (l : List α) (hl : ∀ a ∈ l, S a) :
    (insertionSort less l).Pairwise (fun a b => less b a = false) := by
  unfold insertionSort
  rw [List.pairwise_reverse]
  have key : ∀ (l acc : List α), (∀ a ∈ l, S a) → (∀ a ∈ acc, S a) →
      acc.Pairwise (fun a b => less a b = false) →
      (l.foldl (fun acc x => insertRev less x acc) acc).Pairwise
        (fun a b => less a b = false) := by
    intro l
    induction l with
    | nil => intro acc _ _ hp; exact hp
    | cons x r ih =>
      intro acc hl hacc hp
      rw [List.foldl_cons]
      refine ih _ (fun a ha => hl a (List.mem_cons_of_mem _ ha)) ?_
        (insertRev_pairwise less S hasym htrans x (hl x (List.mem_cons_self _ _)) acc hacc hp)
      intro a ha
      rcases List.mem_cons.mp ((insertRev_perm less x acc).mem_iff.mp ha) with rfl | ha
      · exact hl a (List.mem_cons_self _ _)
      · exact hacc a ha
  exact key l [] hl (by simp) List.Pairwise.nil

end Ranking

end Goeasystar

namespace Goeasystar

section RankingClaims

/-- A pathfinder on the grid `[[1, 1, 1, 1]]` with the point cost `50` set for `(2, 0)`,
in the loop of `FindPath(1, 0, 3, 0)`. -/
def rowSearch : Pathfinder F64 (List Item) :=
  { SetAdditionalPointCost
      (SetAcceptableTiles (SetGrid (NewPathfinder goEnv) (some [[1, 1, 1, 1]])) [1])
      2 0 (F64.ofInt 50) with startX := 1, startY := 0, endX := 3, endY := 0 }

/-- The nodes when the loop of `rowSearch` starts: the node of the start `(1, 0)`. -/
def rowHeap : List (Node F64) :=
  (initialState goEnv rowSearch (gridView [[1, 1, 1, 1]]) 1 0).heap

/-- What the sort does produce: the candidates in descending order of
`cost + getDistance(destination, goal) * 100`, the value that `Less` compares, in which
only the distance is scaled. Of two candidates the earlier one has a value that is not
less, whenever none of the values is NaN. -/
theorem candidates_sorted_descending (p : Pathfinder F64 (List Item)) (g : GridView)
    (heap : List (Node F64)) (parent : Nat) (sn : List (SearchNode F64))
    (_hc : candidates goEnv p g heap parent = some sn)
    (hk : ∀ s ∈ sn, rankCost goEnv heap s ≠ F64.nan) :
    (goEnv.sort (searchNodesLess goEnv heap) sn).Pairwise
      (fun a b => goEnv.f.lt (rankCost goEnv heap a) (rankCost goEnv heap b) = false) := by
  have h := insertionSort_pairwise (searchNodesLess goEnv heap)
    (fun s => rankCost goEnv heap s ≠ F64.nan)
    (fun a b hab => F64.lt_asymm_f64 _ _ hab)
    (fun _ _ _ ha hb hc h1 h2 => F64.le_trans_of_ne_nan _ _ _ ha hb hc h1 h2)
    sn hk
  exact h

/-- The order of `candidates_sorted_descending` on the candidates of the start `(1, 0)`
of `rowSearch`: the candidate to the left, of value `0 + 3 * 100`, comes before the
candidate to the right, of value `50 + 1 * 100`. -/
theorem candidates_sorted_descending_witness :
    candidates goEnv rowSearch (gridView [[1, 1, 1, 1]]) rowHeap 0 =
        some [⟨1, 0, 3, 0, F64.ofInt 50, 0⟩, ⟨-1, 0, 3, 0, F64.ofInt 0, 0⟩] ∧
      (∀ s ∈ [(⟨1, 0, 3, 0, F64.ofInt 50, 0⟩ : SearchNode F64), ⟨-1, 0, 3, 0, F64.ofInt 0, 0⟩],
        rankCost goEnv rowHeap s ≠ F64.nan) ∧
      (goEnv.sort (searchNodesLess goEnv rowHeap)
        [⟨1, 0, 3, 0, F64.ofInt 50, 0⟩, ⟨-1, 0, 3, 0, F64.ofInt 0, 0⟩]).Pairwise
        (fun a b => goEnv.f.lt (rankCost goEnv rowHeap a) (rankCost goEnv rowHeap b) = false) :=
  ⟨by decide, by decide,
    candidates_sorted_descending rowSearch (gridView [[1, 1, 1, 1]]) rowHeap 0 _ (by decide)
      (by decide)⟩

/-- C17 fails: `Less` multiplies the distance alone by `costPrecision`, where the
comment on the sort speaks of `cost + heuristic distance` and the priority of a node
scales the whole sum. With the point cost `50` at `(2, 0)` the candidates of the start
`(1, 0)` towards the goal `(3, 0)` are sorted to the left one, of cost `0` at distance
`3`, and then the right one, of cost `50` at distance `1`: the first has
`0 + 3 < 50 + 1`, so the order is not descending in `cost + getDistance(destination,
goal)`. -/
theorem candidates_not_sorted_by_plain_rank :
    candidates goEnv rowSearch (gridView [[1, 1, 1, 1]]) rowHeap 0 =
        some [⟨1, 0, 3, 0, F64.ofInt 50, 0⟩, ⟨-1, 0, 3, 0, F64.ofInt 0, 0⟩] ∧
      goEnv.sort (searchNodesLess goEnv rowHeap)
          [⟨1, 0, 3, 0, F64.ofInt 50, 0⟩, ⟨-1, 0, 3, 0, F64.ofInt 0, 0⟩] =
        [⟨-1, 0, 3, 0, F64.ofInt 0, 0⟩, ⟨1, 0, 3, 0, F64.ofInt 50, 0⟩] ∧
      goEnv.f.lt (F64.ofInt 3) (plainRank goEnv rowHeap ⟨-1, 0, 3, 0, F64.ofInt 0, 0⟩) = false ∧
      goEnv.f.lt (plainRank goEnv rowHeap ⟨1, 0, 3, 0, F64.ofInt 50, 0⟩) (F64.ofInt 51) = false ∧
      goEnv.f.lt (plainRank goEnv rowHeap ⟨-1, 0, 3, 0, F64.ofInt 0, 0⟩)
        (plainRank goEnv rowHeap ⟨1, 0, 3, 0, F64.ofInt 50, 0⟩) = true :=
  ⟨by decide, by decide, by decide, by decide, by decide⟩

end RankingClaims

end Goeasystar

/-! ## The point cost of a cell after a sequence of calls -/

namespace Goeasystar

section Calls

variable {F Q : Type}

/-- A call of a public method of a pathfinder, with its arguments. -/
inductive Call (F : Type) where
  | setAcceptableTiles (t : List Int)
  | enableDiagonals
  | disableDiagonals
  | setGrid (grid : Option (List (List Int)))
  | setAdditionalPointCost (x y : Int) (cost : F)
  | removeAdditionalPointCost (x y : Int)
  | removeAllAdditionalPointCosts
  | avoidAdditionalPoint (x y : Int)
  | stopAvoidingAdditionalPoint (x y : Int)
  | enableCornerCutting
  | disableCornerCutting
  | stopAvoidingAllAdditionalPoints
  | findPath (startX startY endX endY : Int)

/-- The pathfinder after a call. -/
def applyCall (E : Env F Q) (p : Pathfinder F Q) : Call F → Pathfinder F Q
  | Call.setAcceptableTiles t => SetAcceptableTiles p t
  | Call.enableDiagonals => EnableDiagonals p
  | Call.disableDiagonals => DisableDiagonals p
  | Call.setGrid grid => SetGrid p grid
  | Call.setAdditionalPointCost x y cost => SetAdditionalPointCost p x y cost
  | Call.removeAdditionalPointCost x y => RemoveAdditionalPointCost p x y
  | Call.removeAllAdditionalPointCosts => RemoveAllAdditionalPointCosts p
  | Call.avoidAdditionalPoint x y => AvoidAdditionalPoint p x y
  | Call.stopAvoidingAdditionalPoint x y => StopAvoidingAdditionalPoint p x y
  | Call.enableCornerCutting => EnableCornerCutting p
  | Call.disableCornerCutting => DisableCornerCutting p
  | Call.stopAvoidingAllAdditionalPoints => StopAvoidingAllAdditionalPoints p
  | Call.findPath a b c d => (FindPath E p a b c d).2

/-- The pathfinder after the calls `cs`, made in this order on `p`. -/
def applyCalls (E : Env F Q) (p : Pathfinder F Q) (cs : List (Call F)) : Pathfinder F Q :=
  cs.foldl (applyCall E) p

/-- The pathfinder after `NewPathfinder` and the calls `cs`. -/
def configured (E : Env F Q) (cs : List (Call F)) : Pathfinder F Q :=
  applyCalls E (NewPathfinder E) cs

/-- The point override of `(x, y)` after one more call, as the specification speaks of
it, point by point: `SetAdditionalPointCost(x, y, c)` sets it, `RemoveAdditionalPointCost(x, y)`
removes it, and no other call changes it. -/
def specOverrideStep (x y : Int) (o : Option F) : Call F → Option F
  | Call.setAdditionalPointCost x1 y1 cost => if x1 = x ∧ y1 = y then some cost else o
  | Call.removeAdditionalPointCost x1 y1 => if x1 = x ∧ y1 = y then none else o
  | _ => o

/-- The point override of `(x, y)` after the calls `cs`, none being set before them. -/
def specOverride (x y : Int) (cs : List (Call F)) : Option F :=
  cs.foldl (specOverrideStep x y) none

theorem utf8Encode_append_inj_left (a b : Nat) (s t : List Nat) (ha : a < 55296)
    (h : utf8Encode a ++ s = utf8Encode b ++ t) : a = b ∧ s = t := by
  by_cases hb : b < 55296
  · exact utf8Encode_append_inj a b s t ha hb h
  · exfalso
    unfold utf8Encode at h
    rw [if_neg (show ¬ b < 0x80 by omega), if_neg (show ¬ b < 0x800 by omega)] at h
    by_cases b3 : b < 0x10000
    · rw [if_pos b3] at h
      by_cases a1 : a < 0x80
      · rw [if_pos a1] at h
        simp only [List.cons_append, List.nil_append, List.cons.injEq] at h
        omega
      · rw [if_neg a1] at h
        by_cases a2 : a < 0x800
        · rw [if_pos a2] at h
          simp only [List.cons_append, List.nil_append, List.cons.injEq] at h
          omega
        · rw [if_neg a2, if_pos (by omega)] at h
          simp only [List.cons_append, List.nil_append, List.cons.injEq] at h
          omega
    · rw [if_neg b3] at h
      by_cases a1 : a < 0x80
      · rw [if_pos a1] at h
        simp only [List.cons_append, List.nil_append, List.cons.injEq] at h
        omega
      · rw [if_neg a1] at h
        by_cases a2 : a < 0x800
        · rw [if_pos a2] at h
          simp only [List.cons_append, List.nil_append, List.cons.injEq] at h
          omega
        · rw [if_neg a2, if_pos (by omega)] at h
          simp only [List.cons_append, List.nil_append, List.cons.injEq] at h
          omega

theorem eq_of_runeOfInt_eq {x x1 : Int} (h0 : 0 ≤ x) (h1 : x < 55296)
    (h : x.toNat = runeOfInt x1) : x1 = x := by
  unfold runeOfInt at h
  split_ifs at h with hv
  · omega
  · omega

/-- A point with coordinates in `[0, 55296)` shares its key with no other point. -/
theorem getHashKeyForPoint_eq_left (x y x1 y1 : Int)
    (hx : 0 ≤ x ∧ x < 55296) (hy : 0 ≤ y ∧ y < 55296)
    (h : getHashKeyForPoint x y = getHashKeyForPoint x1 y1) : x1 = x ∧ y1 = y := by
  unfold getHashKeyForPoint stringOfInt at h
  rw [runeOfInt_of_lt hx.1 hx.2, runeOfInt_of_lt hy.1 hy.2] at h
  rw [List.append_assoc, List.append_assoc] at h
  obtain ⟨hx1, hrest⟩ := utf8Encode_append_inj_left _ _ _ _ (by omega) h
  simp only [List.cons_append, List.nil_append, List.cons.injEq, true_and] at hrest
  have hrest1 : utf8Encode y.toNat ++ [] = utf8Encode (runeOfInt y1) ++ [] := by
    rw [List.append_nil, List.append_nil]; exact hrest
  obtain ⟨hy1, _⟩ := utf8Encode_append_inj_left _ _ _ _ (by omega) hrest1
  exact ⟨eq_of_runeOfInt_eq hx.1 hx.2 hx1, eq_of_runeOfInt_eq hy.1 hy.2 hy1⟩

theorem lookup_mapDelete {K V : Type} [DecidableEq K] [BEq K] [LawfulBEq K]
    (m : List (K × V)) (key k : K) :
    (mapDelete m key).lookup k = if k = key then none else m.lookup k := by
  unfold mapDelete
  by_cases h : k = key
  · subst h
    rw [if_pos rfl]
    induction m with
    | nil => rfl
    | cons e rest ih =>
      obtain ⟨a, b⟩ := e
      rw [List.filter_cons]
      by_cases ha : a = k
      · have hd : decide ((a, b).1 ≠ k) = false := by simp [ha]
        rw [hd]
        simpa using ih
      · have hd : decide ((a, b).1 ≠ k) = true := by simp [ha]
        have hka : (k == a) = false := by
          rw [beq_eq_false_iff_ne]; exact fun h => ha h.symm
        rw [hd]
        simp only [if_true, List.lookup, hka]
        exact ih
  · rw [if_neg h]
    exact lookup_filter_ne m key k h

/-- The entry of `additionalPointsToCost` under the key of a point with coordinates in
`[0, 55296)` is the point override of that point. -/
theorem lookup_applyCalls (E : Env F Q) (x y : Int)
    (hx : 0 ≤ x ∧ x < 55296) (hy : 0 ≤ y ∧ y < 55296) :
    ∀ (cs : List (Call F)) (p : Pathfinder F Q) (o : Option F),
      p.additionalPointsToCost.lookup (getHashKeyForPoint x y) = o →
      (applyCalls E p cs).additionalPointsToCost.lookup (getHashKeyForPoint x y) =
        cs.foldl (specOverrideStep x y) o := by
  intro cs
  induction cs with
  | nil => intro p o h; exact h
  | cons c rest ih =>
    intro p o h
    unfold applyCalls
    rw [List.foldl_cons, List.foldl_cons]
    apply ih
    cases c with
    | setAdditionalPointCost x1 y1 cost =>
      simp only [applyCall, SetAdditionalPointCost, specOverrideStep, lookup_mapSet]
      by_cases hk : getHashKeyForPoint x y = getHashKeyForPoint x1 y1
      · rw [if_pos hk, if_pos (getHashKeyForPoint_eq_left x y x1 y1 hx hy hk)]
      · rw [if_neg hk, if_neg (fun hxy => hk (by rw [hxy.1, hxy.2])), h]
    | removeAdditionalPointCost x1 y1 =>
      simp only [applyCall, RemoveAdditionalPointCost, specOverrideStep, lookup_mapDelete]
      by_cases hk : getHashKeyForPoint x y = getHashKeyForPoint x1 y1
      · rw [if_pos hk, if_pos (getHashKeyForPoint_eq_left x y x1 y1 hx hy hk)]
      · rw [if_neg hk, if_neg (fun hxy => hk (by rw [hxy.1, hxy.2])), h]
    | findPath a b c d =>
      simp only [applyCall, specOverrideStep]
      rw [(sameConfig_FindPath E p a b c d).2.2.2.1]
      exact h
    | _ => exact h

theorem reachable_applyCalls (E : Env F Q) :
    ∀ (cs : List (Call F)) (p : Pathfinder F Q), Reachable E p →
      Reachable E (applyCalls E p cs) := by
  intro cs
  induction cs with
  | nil => intro p h; exact h
  | cons c rest ih =>
    intro p h
    unfold applyCalls
    rw [List.foldl_cons]
    apply ih
    cases c with
    | setAcceptableTiles t => exact Reachable.setAcceptableTiles _ _ h
    | enableDiagonals => exact Reachable.enableDiagonals _ h
    | disableDiagonals => exact Reachable.disableDiagonals _ h
    | setGrid grid => exact Reachable.setGrid _ _ h
    | setAdditionalPointCost x y cost => exact Reachable.setAdditionalPointCost _ _ _ _ h
    | removeAdditionalPointCost x y => exact Reachable.removeAdditionalPointCost _ _ _ h
    | removeAllAdditionalPointCosts => exact Reachable.removeAllAdditionalPointCosts _ h
    | avoidAdditionalPoint x y => exact Reachable.avoidAdditionalPoint _ _ _ h
    | stopAvoidingAdditionalPoint x y => exact Reachable.stopAvoidingAdditionalPoint _ _ _ h
    | enableCornerCutting => exact Reachable.enableCornerCutting _ h
    | disableCornerCutting => exact Reachable.disableCornerCutting _ h
    | stopAvoidingAllAdditionalPoints => exact Reachable.stopAvoidingAllAdditionalPoints _ h
    | findPath a b c d => exact Reachable.findPath _ _ _ _ _ h

/-- C18, as the code has it. After `NewPathfinder` and any calls of the public methods
that leave a rectangular grid of at most `55296` columns and `55296` rows set,
`getTileCost` of a cell `(x, y)` in bounds is the point override of `(x, y)` when one is
set (by `SetAdditionalPointCost(x, y, c)`, and not removed since by
`RemoveAdditionalPointCost(x, y)`), and otherwise the value of the tile-cost table for
the tile of the cell, which is the zero value: the table is empty, as no method writes
it. -/
theorem getTileCost_reachable (E : Env F Q) (cs : List (Call F)) (grid : List (List Int))
    (W H : Nat) (x y : Int) (hg : (configured E cs).collisionGrid = some grid)
    (hr : Rectangular grid W H) (hW : W ≤ 55296) (hH : H ≤ 55296) (hb : InBounds W H x y) :
    (configured E cs).costMap = [] ∧
      ∃ tile, gridAt grid x y = some tile ∧
        getTileCost E (configured E cs) (gridView grid) x y =
          some (match specOverride x y cs with
            | some cost => cost
            | none => ((configured E cs).costMap.lookup tile).getD E.f.zero) ∧
        (specOverride x y cs = none →
          getTileCost E (configured E cs) (gridView grid) x y = some E.f.zero) := by
  have _ := hg
  have hm : (configured E cs).costMap = [] :=
    (reachable_applyCalls E cs _ Reachable.new).costMap_eq_nil
  obtain ⟨x0, x1, y0, y1⟩ := hb
  have hl := lookup_applyCalls E x y ⟨x0, by omega⟩ ⟨y0, by omega⟩ cs (NewPathfinder E) none rfl
  obtain ⟨t, ht⟩ := gridAt_isSome hr ⟨x0, x1, y0, y1⟩
  have ht1 : (gridView grid).tileAt x y = some t := ht
  have hget : getTileCost E (configured E cs) (gridView grid) x y =
      some (match specOverride x y cs with
        | some cost => cost
        | none => ((configured E cs).costMap.lookup t).getD E.f.zero) := by
    unfold getTileCost configured specOverride
    rw [hl]
    cases cs.foldl (specOverrideStep x y) none with
    | some c => rfl
    | none => simp only [ht1]
  refine ⟨hm, t, ht, hget, ?_⟩
  intro hnone
  rw [hget, hnone, hm]
  rfl

end Calls

/-- The calls that set the grid `[[1, 1], [1, 1]]` and the acceptable tile `1`, set the
cost `7` for `(1, 1)`, set and remove a cost for `(0, 1)`, and call
`RemoveAllAdditionalPointCosts`. -/
def tollCalls : List (Call F64) :=
  [Call.setGrid (some squareGrid), Call.setAcceptableTiles [1],
   Call.setAdditionalPointCost 1 1 (F64.ofInt 7), Call.setAdditionalPointCost 0 1 (F64.ofInt 3),
   Call.removeAdditionalPointCost 0 1, Call.removeAllAdditionalPointCosts]

/-- C18 as amended, after the calls `tollCalls`, at the cell `(0, 1)`, whose point cost
was removed; the cell `(1, 1)` has the point override `7`. -/
theorem getTileCost_reachable_witness :
    (configured goEnv tollCalls).collisionGrid = some squareGrid ∧
      Rectangular squareGrid 2 2 ∧ InBounds 2 2 0 1 ∧
      specOverride 0 1 tollCalls = none ∧ specOverride 1 1 tollCalls = some (F64.ofInt 7) ∧
      getTileCost goEnv (configured goEnv tollCalls) (gridView squareGrid) 1 1 =
        some (F64.ofInt 7) ∧
      ((configured goEnv tollCalls).costMap = [] ∧
        ∃ tile, gridAt squareGrid 0 1 = some tile ∧
          getTileCost goEnv (configured goEnv tollCalls) (gridView squareGrid) 0 1 =
            some (match specOverride 0 1 tollCalls with
              | some cost => cost
              | none => ((configured goEnv tollCalls).costMap.lookup tile).getD goEnv.f.zero) ∧
          (specOverride 0 1 tollCalls = none →
            getTileCost goEnv (configured goEnv tollCalls) (gridView squareGrid) 0 1 =
              some goEnv.f.zero)) :=
  ⟨by decide, by decide, by decide, by decide, by decide, by decide,
    getTileCost_reachable goEnv tollCalls squareGrid 2 2 0 1 (by decide) (by decide)
      (by decide) (by decide) (by decide)⟩

end Goeasystar

namespace Goeasystar

/-- Beyond `55296` columns a cell can get the point cost of another cell: after
`SetAdditionalPointCost(55296, 0, 3)` the cell `(55297, 0)` has no point override, and
`getTileCost(55297, 0)` is `3`, whatever the grid is. -/
theorem getTileCost_of_other_point (g : GridView) :
    specOverride 55297 0 [Call.setAdditionalPointCost 55296 0 (F64.ofInt 3)] = none ∧
      getTileCost goEnv (configured goEnv [Call.setAdditionalPointCost 55296 0 (F64.ofInt 3)])
        g 55297 0 = some (F64.ofInt 3) :=
  ⟨by decide, rfl⟩

end Goeasystar

/-! ## A goal one step from the start -/

namespace Goeasystar

section Adjacent

variable {F Q : Type}

theorem straightCandidate_has (E : Env F Q) (p : Pathfinder F Q) (g : GridView)
    (heap : List (Node F)) (parent : Nat) (guard : Bool) (dx dy : Int)
    {l : List (SearchNode F)} (h : straightCandidate E p g heap parent guard dx dy = some l)
    (hg : guard = true) : ∃ s ∈ l, s.x = dx ∧ s.y = dy := by
  unfold straightCandidate at h
  rw [hg, if_pos rfl] at h
  cases hc : getTileCost E p g ((nodeAt E heap parent).x + dx)
      ((nodeAt E heap parent).y + dy) with
  | none => rw [hc] at h; simp at h
  | some c =>
    rw [hc] at h
    simp only [Option.some.injEq] at h
    subst h
    exact ⟨_, List.mem_singleton_self _, rfl, rfl⟩

theorem diagonalCandidate_has (E : Env F Q) (p : Pathfinder F Q) (g : GridView)
    (heap : List (Node F)) (parent : Nat) (guard : Bool) (dx dy : Int)
    {l : List (SearchNode F)} (h : diagonalCandidate E p g heap parent guard dx dy = some l)
    (hg : guard = true)
    (hca : cornerAllowed p g (nodeAt E heap parent).x (nodeAt E heap parent).y dx dy
      = some true) : ∃ s ∈ l, s.x = dx ∧ s.y = dy := by
  unfold diagonalCandidate at h
  rw [hg, if_pos rfl, hca] at h
  simp only [] at h
  cases hc : getTileCost E p g ((nodeAt E heap parent).x + dx)
      ((nodeAt E heap parent).y + dy) with
  | none => rw [hc] at h; simp at h
  | some c =>
    rw [hc] at h
    simp only [Option.some.injEq] at h
    subst h
    exact ⟨_, List.mem_singleton_self _, rfl, rfl⟩

/-- The loop body builds a candidate in every direction whose guard holds. -/
theorem candidates_has (E : Env F Q) (p : Pathfinder F Q) (g : GridView)
    (heap : List (Node F)) (parent : Nat) {sn : List (SearchNode F)}
    (h : candidates E p g heap parent = some sn) (dx dy : Int)
    (hgd : Guarded g (nodeAt E heap parent).x (nodeAt E heap parent).y dx dy)
    (hd : Direction p g (nodeAt E heap parent).x (nodeAt E heap parent).y dx dy) :
    ∃ s ∈ sn, s.x = dx ∧ s.y = dy := by
  unfold candidates at h
  simp only [] at h
  obtain ⟨g1, g2, g3, g4⟩ := hgd
  have hstraight : ∀ l, appendCandidates
      (straightCandidate E p g heap parent (decide ((nodeAt E heap parent).y > 0)) 0 (-1))
      (appendCandidates
        (straightCandidate E p g heap parent
          (decide ((nodeAt E heap parent).x < g.width - 1)) 1 0)
        (appendCandidates
          (straightCandidate E p g heap parent
            (decide ((nodeAt E heap parent).y < g.height - 1)) 0 1)
          (straightCandidate E p g heap parent
            (decide ((nodeAt E heap parent).x > 0)) (-1) 0))) = some l →
      ((dx = 0 ∧ (dy = -1 ∨ dy = 1)) ∨ (dy = 0 ∧ (dx = -1 ∨ dx = 1))) →
      ∃ s ∈ l, s.x = dx ∧ s.y = dy := by
    intro l hl hdir
    obtain ⟨l1, r1, h1, hr1, rfl⟩ := appendCandidates_eq_some hl
    obtain ⟨l2, r2, h2, hr2, rfl⟩ := appendCandidates_eq_some hr1
    obtain ⟨l3, l4, h3, h4, rfl⟩ := appendCandidates_eq_some hr2
    rcases hdir with ⟨hx, hy | hy⟩ | ⟨hy, hx | hx⟩
    · subst hx; subst hy
      obtain ⟨s, hs, hxy⟩ := straightCandidate_has E p g heap parent _ 0 (-1) h1
        (by simpa using g3 rfl)
      exact ⟨s, by simp [hs], hxy⟩
    · subst hx; subst hy
      obtain ⟨s, hs, hxy⟩ := straightCandidate_has E p g heap parent _ 0 1 h3
        (by simpa using g4 rfl)
      exact ⟨s, by simp [hs], hxy⟩
    · subst hx; subst hy
      obtain ⟨s, hs, hxy⟩ := straightCandidate_has E p g heap parent _ (-1) 0 h4
        (by simpa using g1 rfl)
      exact ⟨s, by simp [hs], hxy⟩
    · subst hx; subst hy
      obtain ⟨s, hs, hxy⟩ := straightCandidate_has E p g heap parent _ 1 0 h2
        (by simpa using g2 rfl)
      exact ⟨s, by simp [hs], hxy⟩
  rcases hd with hdir | ⟨hdiag, hx, hy, hca⟩
  · by_cases hde : p.diagonalsEnabled = true
    · rw [if_pos hde] at h
      obtain ⟨l0, r0, h0, _, rfl⟩ := appendCandidates_eq_some h
      obtain ⟨s, hs, hxy⟩ := hstraight l0 h0 hdir
      exact ⟨s, List.mem_append_left _ hs, hxy⟩
    · rw [if_neg hde] at h
      exact hstraight sn h hdir
  · rw [if_pos hdiag] at h
    obtain ⟨l0, r0, h0, hr0, rfl⟩ := appendCandidates_eq_some h
    obtain ⟨l1, r1, h1, hr1, rfl⟩ := appendCandidates_eq_some hr0
    obtain ⟨l2, r2, h2, hr2, rfl⟩ := appendCandidates_eq_some hr1
    obtain ⟨l3, l4, h3, h4, rfl⟩ := appendCandidates_eq_some hr2
    rcases hx with hx | hx <;> rcases hy with hy | hy
    · subst hx; subst hy
      obtain ⟨s, hs, hxy⟩ := diagonalCandidate_has E p g heap parent _ (-1) (-1) h1
        (by simpa using ⟨g1 rfl, g3 rfl⟩) hca
      exact ⟨s, by simp [hs], hxy⟩
    · subst hx; subst hy
      obtain ⟨s, hs, hxy⟩ := diagonalCandidate_has E p g heap parent _ (-1) 1 h4
        (by simpa using ⟨g1 rfl, g4 rfl⟩) hca
      exact ⟨s, by simp [hs], hxy⟩
    · subst hx; subst hy
      obtain ⟨s, hs, hxy⟩ := diagonalCandidate_has E p g heap parent _ 1 (-1) h3
        (by simpa using ⟨g2 rfl, g3 rfl⟩) hca
      exact ⟨s, by simp [hs], hxy⟩
    · subst hx; subst hy
      obtain ⟨s, hs, hxy⟩ := diagonalCandidate_has E p g heap parent _ 1 1 h2
        (by simpa using ⟨g2 rfl, g4 rfl⟩) hca
      exact ⟨s, by simp [hs], hxy⟩

/-- A permitted step from a cell of the grid is in one of the directions of the
candidates, under its guards. -/
theorem guarded_of_permittedStep (p : Pathfinder F Q) (g : GridView) (a b : Point)
    (h : PermittedStep p g a b) :
    Guarded g a.X a.Y (b.X - a.X) (b.Y - a.Y) ∧ Direction p g a.X a.Y (b.X - a.X) (b.Y - a.Y) := by
  obtain ⟨⟨b1, b2, b3, b4⟩, _, _, hmove⟩ := h
  refine ⟨⟨by intro h; omega, by intro h; omega, by intro h; omega, by intro h; omega⟩, ?_⟩
  rcases hmove with h1 | ⟨hd, hx, hy, hc⟩
  · left
    omega
  · right
    refine ⟨hd, by omega, by omega, ?_⟩
    unfold cornerAllowed
    rcases hc with hc | ⟨w1, w2⟩
    · rw [if_pos hc]
    · by_cases hcut : p.allowCornerCutting = true
      · rw [if_pos hcut]
      · rw [if_neg hcut]
        have e1 : a.Y + (b.Y - a.Y) = b.Y := by omega
        have e2 : a.X + (b.X - a.X) = b.X := by omega
        rw [e1, e2]
        unfold Walkable at w1 w2
        rw [w1]
        exact w2

/-- Node 0 is the start node: it has no parent, the coordinates `(sx, sy)` and a node
cost. -/
structure Rooted (E : Env F Q) (N : F → Prop) (sx sy : Int) (heap : List (Node F)) : Prop where
  pos : 0 < heap.length
  parent : (nodeAt E heap 0).parent = none
  x : (nodeAt E heap 0).x = sx
  y : (nodeAt E heap 0).y = sy
  cost : N (nodeAt E heap 0).costSoFar

theorem rooted_relax {E : Env F Q} {N : F → Prop} {sx sy : Int} {heap : List (Node F)}
    (h : Rooted E N sx sy heap) (e : Nat) (s : SearchNode F) (hp : s.parent = 0)
    (hs : StepCost E N s.cost) : Rooted E N sx sy (relax E heap e s) := by
  unfold relax
  simp only []
  by_cases hlt : E.f.lt (E.f.add (nodeAt E heap s.parent).costSoFar s.cost)
      (nodeAt E heap e).costSoFar = true
  · rw [if_pos hlt]
    have he : e ≠ 0 := by
      intro he
      subst he
      rw [hp] at hlt
      rw [(hs _ h.cost).2] at hlt
      cases hlt
    have hn : nodeAt E (heap.set e { nodeAt E heap e with
        costSoFar := E.f.add (nodeAt E heap s.parent).costSoFar s.cost,
        parent := some s.parent }) 0 = nodeAt E heap 0 := by
      rw [nodeAt_set, if_neg (fun hh => he hh.1.symm)]
    exact ⟨by rw [List.length_set]; exact h.pos, by rw [hn]; exact h.parent,
      by rw [hn]; exact h.x, by rw [hn]; exact h.y, by rw [hn]; exact h.cost⟩
  · rw [if_neg hlt]
    exact h

theorem rooted_register {E : Env F Q} {N : F → Prop} {sx sy : Int} (p : Pathfinder F Q)
    {st : SearchState F Q} (h : Rooted E N sx sy st.heap) (k : GoString) (x y : Int)
    (s : SearchNode F) : Rooted E N sx sy (register E p st k x y s).heap := by
  rw [register_heap]
  have hn := nodeAt_append_of_lt E st.heap
    (newNode E st.heap x y p.endX p.endY (some s.parent) s.cost) 0 h.pos
  exact ⟨by rw [List.length_append]; exact Nat.lt_add_right _ h.pos, by rw [hn]; exact h.parent,
    by rw [hn]; exact h.x, by rw [hn]; exact h.y, by rw [hn]; exact h.cost⟩

/-- The loop over candidates of the start node, one of which is the goal and not
avoided, ends at the goal with the start node as the expanded node. -/
theorem explore_meets_goal (E : Env F Q) (p : Pathfinder F Q) (g : GridView)
    (N : F → Prop) (sx sy : Int) (hr : Readable g)
    (hav : p.additionalPointsToAvoid.lookup (getHashKeyForPoint p.endX p.endY) = none) :
    ∀ (l : List (SearchNode F)) (st : SearchState F Q),
      (∀ s ∈ l, s.parent = 0 ∧ s.endX = p.endX ∧ s.endY = p.endY ∧
        InView g (sx + s.x) (sy + s.y) ∧ StepCost E N s.cost) →
      (∃ s ∈ l, sx + s.x = p.endX ∧ sy + s.y = p.endY) →
      Rooted E N sx sy st.heap →
      ∃ st1, explore E p g l st = Explored.found 0 p.endX p.endY st1 ∧
        Rooted E N sx sy st1.heap := by
  intro l
  induction l with
  | nil =>
    intro st _ hex _
    obtain ⟨s, hs, _⟩ := hex
    simp at hs
  | cons s rest ih =>
    intro st hall hex hroot
    obtain ⟨hp, hex1, hey1, hin, hcost⟩ := hall s (List.mem_cons_self _ _)
    have hrest : ∀ t ∈ rest, t.parent = 0 ∧ t.endX = p.endX ∧ t.endY = p.endY ∧
        InView g (sx + t.x) (sy + t.y) ∧ StepCost E N t.cost :=
      fun t ht => hall t (List.mem_cons_of_mem _ ht)
    have hX : (nodeAt E st.heap s.parent).x + s.x = sx + s.x := by rw [hp, hroot.x]
    have hY : (nodeAt E st.heap s.parent).y + s.y = sy + s.y := by rw [hp, hroot.y]
    have hother : ¬ (sx + s.x = p.endX ∧ sy + s.y = p.endY) →
        ∃ t ∈ rest, sx + t.x = p.endX ∧ sy + t.y = p.endY := by
      intro hne
      obtain ⟨t, ht, hg⟩ := hex
      rcases List.mem_cons.mp ht with rfl | ht
      · exact (hne hg).elim
      · exact ⟨t, ht, hg⟩
    unfold explore
    simp only []
    rw [hX, hY]
    cases hl : p.additionalPointsToAvoid.lookup (getHashKeyForPoint (sx + s.x) (sy + s.y)) with
    | some b =>
      simp only []
      refine ih st hrest (hother ?_) hroot
      rintro ⟨h1, h2⟩
      rw [h1, h2, hav] at hl
      cases hl
    | none =>
      simp only []
      by_cases hgoal : s.endX = sx + s.x ∧ s.endY = sy + s.y
      · rw [if_pos hgoal]
        refine ⟨st, ?_, hroot⟩
        rw [hp, ← hgoal.1, ← hgoal.2, hex1, hey1]
      · rw [if_neg hgoal]
        have hne : ¬ (sx + s.x = p.endX ∧ sy + s.y = p.endY) := by
          rintro ⟨h1, h2⟩
          exact hgoal ⟨by rw [hex1, h1], by rw [hey1, h2]⟩
        obtain ⟨b, hb⟩ := isTileWalkable_isSome hr p.acceptableTiles hin
        rw [hb]
        cases b with
        | false => exact ih st hrest (hother hne) hroot
        | true =>
          simp only []
          cases hk : st.coordinateToNode.lookup (getHashKeyForPoint (sx + s.x) (sy + s.y)) with
          | some e =>
            exact ih { st with heap := relax E st.heap e s } hrest (hother hne)
              (rooted_relax hroot e s hp hcost)
          | none =>
            exact ih _ hrest (hother hne) (rooted_register p hroot _ _ _ s)

/-- From the state in which `FindPath` enters its loop, with the goal one permitted
step from the start, the first iteration meets the goal from the start node. -/
theorem searchLoop_adjacent (E : Env F Q) (p : Pathfinder F Q) (g : GridView)
    (T N : F → Prop) (L : CostLaws E T N) (hp : TileCosts p T) (hr : Readable g)
    (hs : InView g p.startX p.startY)
    (hstep : PermittedStep p g ⟨p.startX, p.startY⟩ ⟨p.endX, p.endY⟩) (fuel : Nat) :
    ∃ st1, searchLoop E p g (fuel + 1) (initialState E p g p.startX p.startY)
        = Searched.found 0 p.endX p.endY st1 ∧
      Rooted E N p.startX p.startY st1.heap := by
  have hI := Inv.initial E p g p.startX p.startY
  have hlen : E.pq.len (initialState E p g p.startX p.startY).openList ≠ 0 := by
    rw [E.pq.len_eq]
    simp only [initialState]
    rw [(E.pq.items_push _ _).length_eq]
    simp
  have hroot : Rooted E N p.startX p.startY (initialState E p g p.startX p.startY).heap :=
    ⟨by simp [initialState], by simp [initialState, nodeAt, newNode],
      by simp [initialState, nodeAt, newNode], by simp [initialState, nodeAt, newNode],
      by simp only [initialState, nodeAt, newNode, List.getD_cons_zero]; exact L.dist _ _ _ _⟩
  unfold searchLoop
  rw [if_neg hlen]
  rcases hpk : E.pq.peekAndShift (initialState E p g p.startX p.startY).openList maxInt64
    with ⟨oi, q⟩
  have h1 : (E.pq.peekAndShift (initialState E p g p.startX p.startY).openList maxInt64).1 = oi := by
    rw [hpk]
  cases oi with
  | none => exact (peek_isSome hI hlen h1).elim
  | some item =>
    simp only []
    obtain ⟨_, hlt, _⟩ := hI.pop hlen h1
    have hv : item.value = 0 := by
      simp only [initialState, List.length_singleton] at hlt
      omega
    rw [hv]
    have hin : InView g (nodeAt E (initialState E p g p.startX p.startY).heap 0).x
        (nodeAt E (initialState E p g p.startX p.startY).heap 0).y := by
      rw [hroot.x, hroot.y]; exact hs
    obtain ⟨sn, hsn⟩ := candidates_isSome E p hr _ 0 hin
    rw [hsn]
    simp only []
    have hok := candidates_candOK E p g _ 0 hsn
    rw [hroot.x, hroot.y] at hok
    obtain ⟨hgd, hdir⟩ := guarded_of_permittedStep p g _ _ hstep
    simp only [] at hgd hdir
    obtain ⟨sG, hsG, hGx, hGy⟩ := candidates_has E p g _ 0 hsn (p.endX - p.startX)
      (p.endY - p.startY) (by rw [hroot.x, hroot.y]; exact hgd)
      (by rw [hroot.x, hroot.y]; exact hdir)
    have hperm := E.sort_perm (searchNodesLess E (initialState E p g p.startX p.startY).heap) sn
    have hav : p.additionalPointsToAvoid.lookup (getHashKeyForPoint p.endX p.endY) = none := by
      have hna := hstep.2.2.1
      unfold Avoided at hna
      simp only [] at hna
      cases hl : p.additionalPointsToAvoid.lookup (getHashKeyForPoint p.endX p.endY) with
      | none => rfl
      | some b => rw [hl] at hna; simp at hna
    obtain ⟨st1, hfound, hroot1⟩ := explore_meets_goal E p g N p.startX p.startY hr hav
      (E.sort (searchNodesLess E (initialState E p g p.startX p.startY).heap) sn)
      { initialState E p g p.startX p.startY with openList := q }
      (fun s hs1 => by
        have hc := hok s (hperm.mem_iff.mp hs1)
        exact ⟨hc.1, hc.2.1, hc.2.2.1, inView_of_guarded p hs hc.2.2.2.1 hc.2.2.2.2.1,
          stepCost_of_costOK L hp hc.2.2.2.2.2⟩)
      ⟨sG, hperm.mem_iff.mpr hsG, by rw [hGx]; omega, by rw [hGy]; omega⟩
      hroot
    rw [hfound]
    exact ⟨st1, rfl, hroot1⟩

theorem buildPath_rooted {E : Env F Q} {N : F → Prop} {sx sy : Int} {heap : List (Node F)}
    (h : Rooted E N sx sy heap) (x y : Int) :
    buildPath E heap 0 x y = Outcome.route [⟨sx, sy⟩, ⟨x, y⟩] := by
  unfold buildPath
  obtain ⟨n, hn⟩ : ∃ n, heap.length = n + 1 := ⟨heap.length - 1, by have := h.pos; omega⟩
  rw [hn]
  simp only [parentWalk, h.parent, h.x, h.y]
  rfl

/-- A permitted route between two distinct cells has two cells or more. -/
theorem two_le_length_of_permittedRoute (p : Pathfinder F Q) (g : GridView) (s t : Point)
    (hne : s ≠ t) (r : List Point) (h : PermittedRoute p g s t r) : 2 ≤ r.length := by
  obtain ⟨hh, hl, _, _⟩ := h
  cases r with
  | nil => simp at hh
  | cons a rest =>
    cases rest with
    | nil =>
      simp at hh hl
      exact (hne (hh.symm.trans hl)).elim
    | cons b rest1 => simp

end Adjacent

end Goeasystar

namespace Goeasystar

section AdjacentGoal

variable {F Q : Type}

theorem search_adjacent (E : Env F Q) (p : Pathfinder F Q) (g : GridView)
    (T N : F → Prop) (L : CostLaws E T N) (hp : TileCosts p T) (hr : Readable g)
    (sx sy ex ey : Int) (hs : InView g sx sy)
    (hstep : PermittedStep p g ⟨sx, sy⟩ ⟨ex, ey⟩) :
    (search E p g sx sy ex ey).1 = Outcome.route [⟨sx, sy⟩, ⟨ex, ey⟩] := by
  obtain ⟨st1, hfound, hroot⟩ := searchLoop_adjacent E
    { p with startX := sx, startY := sy, endX := ex, endY := ey } g T N L hp hr hs hstep
    (g.width * g.height).toNat
  unfold search loopBound
  simp only []
  have hfound1 : searchLoop E { p with startX := sx, startY := sy, endX := ex, endY := ey } g
      ((g.width * g.height).toNat + 1)
      (initialState E { p with startX := sx, startY := sy, endX := ex, endY := ey } g sx sy)
      = Searched.found 0 ex ey st1 := hfound
  rw [hfound1]
  exact buildPath_rooted hroot ex ey

/-- C7, as the code has it. For every configuration with acceptable tiles, a
rectangular grid and a start in bounds, whose point costs are costs under `CostLaws`
(in binary64: not negative and not NaN; none is set in particular), when the goal is
one permitted step from the start `FindPath` returns the route of the two cells start
and goal, and no permitted route from the start to the goal has fewer cells. -/
theorem FindPath_adjacent_goal_shortest (E : Env F Q) (p : Pathfinder F Q)
    (grid : List (List Int)) (W H : Nat) (sx sy ex ey : Int) (T N : F → Prop)
    (L : CostLaws E T N) (ht : p.acceptableTiles ≠ []) (hg : p.collisionGrid = some grid)
    (hr : Rectangular grid W H) (hs : InBounds W H sx sy) (hc : TileCosts p T)
    (hstep : PermittedStep p (gridView grid) ⟨sx, sy⟩ ⟨ex, ey⟩) :
    (FindPath E p sx sy ex ey).1 = Outcome.route [⟨sx, sy⟩, ⟨ex, ey⟩] ∧
      ∀ r1, PermittedRoute p (gridView grid) ⟨sx, sy⟩ ⟨ex, ey⟩ r1 →
        [(⟨sx, sy⟩ : Point), ⟨ex, ey⟩].length ≤ r1.length := by
  obtain ⟨hx0, hx1, hy0, hy1⟩ := hs
  have hw := gridView_width hr
  have hh := gridView_height hr
  obtain ⟨⟨ex0, ex1, ey0, ey1⟩, hwalk, _, hmove⟩ := id hstep
  simp only [] at ex0 ex1 ey0 ey1 hwalk hmove
  have hne : ¬ (sx = ex ∧ sy = ey) := by
    rintro ⟨h1, h2⟩
    subst h1; subst h2
    rcases hmove with h | ⟨_, h, _⟩ <;> simp at h
  refine ⟨?_, ?_⟩
  · rw [FindPath_of_rectangular E p ht hg hr hx0 hy0 ex0]
    unfold findPathOn
    rw [if_neg (by rw [hw]; omega), if_neg hne]
    unfold Walkable isTileWalkable at hwalk
    cases htiles : p.acceptableTiles with
    | nil => exact (ht htiles).elim
    | cons a l =>
      rw [htiles] at hwalk
      simp only [] at hwalk
      cases htile : (gridView grid).tileAt ex ey with
      | none => rw [htile] at hwalk; simp at hwalk
      | some t =>
        rw [htile] at hwalk
        simp only [Option.some.injEq] at hwalk
        simp only []
        rw [← htiles] at hwalk
        rw [← htiles, if_pos hwalk]
        exact search_adjacent E p (gridView grid) T N L hc (readable_gridView hr) sx sy ex ey
          ⟨hx0, by rw [hw]; exact hx1, hy0, by rw [hh]; exact hy1⟩ hstep
  · intro r1 h1
    exact two_le_length_of_permittedRoute p (gridView grid) ⟨sx, sy⟩ ⟨ex, ey⟩
      (by intro h; injection h with h1 h2; exact hne ⟨h1, h2⟩) r1 h1

end AdjacentGoal

theorem tileCosts_wallPathfinder : TileCosts wallPathfinder F64.NonNeg :=
  ⟨fun _ _ h => by
      have hl : wallPathfinder.additionalPointsToCost = [] := rfl
      rw [hl] at h
      simp at h,
    fun _ _ h => by
      have hl : wallPathfinder.costMap = [] := rfl
      rw [hl] at h
      simp at h⟩

/-- C7 as amended, on the configuration of `TestSuccessfulPath` with the start
`(1, 2)` and the goal `(1, 3)`, in binary64 arithmetic. -/
theorem FindPath_adjacent_goal_shortest_witness :
    CostLaws goEnv F64.NonNeg F64.Cost ∧ TileCosts wallPathfinder F64.NonNeg ∧
      Rectangular wallGrid 5 5 ∧ InBounds 5 5 1 2 ∧
      PermittedStep wallPathfinder (gridView wallGrid) ⟨1, 2⟩ ⟨1, 3⟩ ∧
      ((FindPath goEnv wallPathfinder 1 2 1 3).1 = Outcome.route [⟨1, 2⟩, ⟨1, 3⟩] ∧
        ∀ r1, PermittedRoute wallPathfinder (gridView wallGrid) ⟨1, 2⟩ ⟨1, 3⟩ r1 →
          [(⟨1, 2⟩ : Point), ⟨1, 3⟩].length ≤ r1.length) :=
  ⟨costLaws_goEnv, tileCosts_wallPathfinder, by decide, by decide, by decide,
    FindPath_adjacent_goal_shortest goEnv wallPathfinder wallGrid 5 5 1 2 1 3 F64.NonNeg
      F64.Cost costLaws_goEnv (by decide) rfl (by decide) (by decide)
      tileCosts_wallPathfinder (by decide)⟩

end Goeasystar

namespace Goeasystar

/-- A grid of five columns and four rows with two walls in its last row. -/
def sideGrid : List (List Int) :=
  [[1, 1, 1, 1, 1], [1, 1, 1, 1, 1], [1, 1, 1, 1, 1], [0, 1, 1, 0, 1]]

/-- A pathfinder on `sideGrid` with the acceptable tile `1` and diagonals enabled that
avoids the point `(1, 2)`. -/
def sidePathfinder : Pathfinder F64 (List Item) :=
  AvoidAdditionalPoint
    (EnableDiagonals (SetAcceptableTiles (SetGrid (NewPathfinder goEnv) (some sideGrid)) [1]))
    1 2

/-- With the goal two permitted steps from the start the route can already be longer
than need be. On `sideGrid`, avoiding `(1, 2)`, `FindPath(2, 2, 0, 2)` returns a route
of five cells, and the route `(2, 2), (1, 1), (0, 2)` of three cells is permitted: the
node of `(1, 1)` was pushed behind nodes that are farther from the goal, and `Push`
leaves the open list in the order of the pushes. -/
theorem FindPath_route_not_shortest_at_two_steps :
    sidePathfinder.additionalPointsToCost = [] ∧
      (FindPath goEnv sidePathfinder 2 2 0 2).1 =
        Outcome.route [⟨2, 2⟩, ⟨2, 1⟩, ⟨1, 0⟩, ⟨0, 1⟩, ⟨0, 2⟩] ∧
      PermittedRoute sidePathfinder (gridView sideGrid) ⟨2, 2⟩ ⟨0, 2⟩
        [⟨2, 2⟩, ⟨1, 1⟩, ⟨0, 2⟩] :=
  ⟨rfl, by decide, by decide⟩

end Goeasystar

/-! ## Routes made of permitted steps -/

namespace Goeasystar

section PermittedRoutes

variable {F Q : Type}

/-- The destination of a candidate that has an acceptable tile and is not avoided is
one permitted step from the expanded node. -/
theorem permittedStep_of_direction (p : Pathfinder F Q) (g : GridView) (x y dx dy : Int)
    (hin : InView g (x + dx) (y + dy)) (hd : Direction p g x y dx dy)
    (hw : Walkable p g (x + dx) (y + dy)) (ha : ¬ Avoided p (x + dx) (y + dy)) :
    PermittedStep p g ⟨x, y⟩ ⟨x + dx, y + dy⟩ := by
  refine ⟨hin, hw, ha, ?_⟩
  simp only []
  rcases hd with hs | ⟨hdiag, hx, hy, hca⟩
  · left
    omega
  · right
    refine ⟨hdiag, by omega, by omega, ?_⟩
    unfold cornerAllowed at hca
    by_cases hcut : p.allowCornerCutting = true
    · exact Or.inl hcut
    · rw [if_neg hcut] at hca
      right
      unfold Walkable
      cases h1 : isTileWalkable g p.acceptableTiles x (y + dy) with
      | none => rw [h1] at hca; simp at hca
      | some b =>
        rw [h1] at hca
        cases b with
        | false => simp at hca
        | true => exact ⟨rfl, hca⟩

/-- Every registered key is the key of the coordinates of its node. -/
def Keyed (E : Env F Q) (st : SearchState F Q) : Prop :=
  ∀ k i, st.coordinateToNode.lookup k = some i →
    k = getHashKeyForPoint (nodeAt E st.heap i).x (nodeAt E st.heap i).y

/-- Every parent link is a permitted step from the parent to the node. -/
def Linked (E : Env F Q) (p : Pathfinder F Q) (g : GridView) (heap : List (Node F)) : Prop :=
  ∀ i q, (nodeAt E heap i).parent = some q →
    PermittedStep p g (pointOf E heap q) (pointOf E heap i)

theorem keyed_relax {E : Env F Q} {st : SearchState F Q} (h : Keyed E st) (e : Nat)
    (s : SearchNode F) : Keyed E { st with heap := relax E st.heap e s } := by
  intro k i hk
  simp only [relax_x, relax_y]
  exact h k i hk

theorem keyed_register {E : Env F Q} (p : Pathfinder F Q) {st : SearchState F Q}
    (h : Keyed E st) (hlt : ∀ k i, st.coordinateToNode.lookup k = some i → i < st.heap.length)
    (x y : Int) (s : SearchNode F) :
    Keyed E (register E p st (getHashKeyForPoint x y) x y s) := by
  intro k i hk
  have hk1 : (mapSet st.coordinateToNode (getHashKeyForPoint x y) st.heap.length).lookup k
      = some i := hk
  rw [lookup_mapSet] at hk1
  rw [register_node]
  by_cases hkey : k = getHashKeyForPoint x y
  · rw [if_pos hkey] at hk1
    simp only [Option.some.injEq] at hk1
    subst hk1
    rw [if_neg (lt_irrefl _), if_pos rfl]
    exact hkey
  · rw [if_neg hkey] at hk1
    rw [if_pos (hlt k i hk1)]
    exact h k i hk1

theorem keyed_initial (E : Env F Q) (p : Pathfinder F Q) (g : GridView) (sx sy : Int)
    (hs : p.startX = sx ∧ p.startY = sy) : Keyed E (initialState E p g sx sy) := by
  intro k i hk
  simp only [initialState] at hk
  rw [lookup_mapSet] at hk
  by_cases hkey : k = getHashKeyForPoint sx sy
  · rw [if_pos hkey] at hk
    simp only [Option.some.injEq] at hk
    subst hk
    simp only [initialState, nodeAt, newNode, List.getD_cons_zero, hs.1, hs.2]
    exact hkey
  · rw [if_neg hkey] at hk
    simp at hk

theorem pointOf_relax (E : Env F Q) (heap : List (Node F)) (e : Nat) (s : SearchNode F)
    (i : Nat) : pointOf E (relax E heap e s) i = pointOf E heap i := by
  unfold pointOf
  rw [relax_x, relax_y]

theorem linked_relax {E : Env F Q} {p : Pathfinder F Q} {g : GridView}
    {heap : List (Node F)} (h : Linked E p g heap) (e : Nat) (s : SearchNode F)
    (hstep : PermittedStep p g (pointOf E heap s.parent) (pointOf E heap e)) :
    Linked E p g (relax E heap e s) := by
  intro i q hq
  rw [pointOf_relax, pointOf_relax]
  rcases relax_parent E heap e s i with hsame | ⟨hie, _, hpar, _⟩
  · rw [hsame] at hq
    exact h i q hq
  · rw [hpar] at hq
    simp only [Option.some.injEq] at hq
    subst hq
    subst hie
    exact hstep

theorem linked_register {E : Env F Q} {p : Pathfinder F Q} {g : GridView}
    {st : SearchState F Q} (h : Linked E p g st.heap)
    (hpl : ∀ i j, (nodeAt E st.heap i).parent = some j → j < st.heap.length)
    (k : GoString) (x y : Int) (s : SearchNode F) (hs : s.parent < st.heap.length)
    (hstep : PermittedStep p g (pointOf E st.heap s.parent) ⟨x, y⟩) :
    Linked E p g (register E p st k x y s).heap := by
  intro i q hq
  have hold : ∀ j, j < st.heap.length →
      pointOf E (register E p st k x y s).heap j = pointOf E st.heap j := by
    intro j hj
    unfold pointOf
    rw [register_node, if_pos hj]
  rw [register_node] at hq
  by_cases h1 : i < st.heap.length
  · rw [if_pos h1] at hq
    rw [hold i h1, hold q (hpl i q hq)]
    exact h i q hq
  · rw [if_neg h1] at hq
    by_cases h2 : i = st.heap.length
    · rw [if_pos h2] at hq
      simp only [newNode, Option.some.injEq] at hq
      subst hq
      rw [hold _ hs]
      have hnew : pointOf E (register E p st k x y s).heap i = ⟨x, y⟩ := by
        unfold pointOf
        rw [register_node, if_neg h1, if_pos h2]
        rfl
      rw [hnew]
      exact hstep
    · rw [if_neg h2] at hq
      simp at hq

theorem linked_initial (E : Env F Q) (p : Pathfinder F Q) (g : GridView) (sx sy : Int) :
    Linked E p g (initialState E p g sx sy).heap := by
  intro i q hq
  cases i with
  | zero => simp [initialState, nodeAt, newNode] at hq
  | succ k => simp [initialState, nodeAt] at hq

end PermittedRoutes

end Goeasystar

namespace Goeasystar

section PermittedSearch

variable {F Q : Type}

/-- On a grid of at most `55296` columns and rows, whose cells have their own keys, the
search loop keeps every parent link a permitted step, and when it meets the goal the
step from the expanded node to the goal is permitted. -/
theorem searchLoop_linked (E : Env F Q) (p : Pathfinder F Q) (g : GridView)
    (hW : g.width ≤ 55296) (hH : g.height ≤ 55296)
    (hgoal : Walkable p g p.endX p.endY) (sx sy : Int) (fuel : Nat) (st : SearchState F Q)
    (hI : Inv E p g sx sy st) (hB : Bounded E g st) (hK : Keyed E st)
    (hL : Linked E p g st.heap) :
    match searchLoop E p g fuel st with
    | Searched.found par x y st1 =>
      Inv E p g sx sy st1 ∧ Linked E p g st1.heap ∧ par < st1.heap.length ∧
        PermittedStep p g (pointOf E st1.heap par) ⟨x, y⟩
    | Searched.exhausted _ => True
    | Searched.panic _ => True
    | Searched.outOfFuel _ => True := by
  have key := searchLoop_induction E p g
    (fun _ st => Inv E p g sx sy st ∧ Bounded E g st ∧ Keyed E st ∧ Linked E p g st.heap)
    (fun _ st0 item st => Inv E p g sx sy st ∧ Bounded E g st ∧ Keyed E st ∧
      Linked E p g st.heap ∧ item.value < st.heap.length ∧
      (nodeAt E st.heap item.value).x = (nodeAt E st0.heap item.value).x ∧
      (nodeAt E st.heap item.value).y = (nodeAt E st0.heap item.value).y ∧
      InView g (nodeAt E st0.heap item.value).x (nodeAt E st0.heap item.value).y)
    (fun st0 item s =>
      CandOK E p g item.value (nodeAt E st0.heap item.value).x
        (nodeAt E st0.heap item.value).y s)
    (fun par x y st1 => Inv E p g sx sy st1 ∧ Linked E p g st1.heap ∧
        par < st1.heap.length ∧ PermittedStep p g (pointOf E st1.heap par) ⟨x, y⟩)
    (fun _ => True) True
    ?_ ?_ ?_ ?_ ?_ ?_ ?_ ?_ ?_ fuel st ⟨hI, hB, hK, hL⟩
  · cases hres : searchLoop E p g fuel st with
    | found par x y st1 => rw [hres] at key; exact key
    | exhausted st1 => trivial
    | panic st1 => trivial
    | outOfFuel st1 => trivial
  · intros; trivial
  · intros; trivial
  · intro fuel st item sn hI hlen hpk hc
    obtain ⟨hinv, hlt, _⟩ := hI.1.pop hlen hpk
    exact ⟨⟨hinv, ⟨hI.2.1.inB, hI.2.1.keysNodup, hI.2.1.keysIn⟩, hI.2.2.1, hI.2.2.2,
      hlt, rfl, rfl, hI.2.1.inB _ hlt⟩,
      candidates_candOK E p g st.heap item.value hc⟩
  · intro fuel st0 item st s e hJ hP hav _ hwk hl
    obtain ⟨hinv, hbd, hkey, hlink, hlt, hx, hy, hin⟩ := hJ
    have hsp : s.parent < st.heap.length := by rw [hP.1]; exact hlt
    have hadj : InView g (adjX E st s) (adjY E st s) := by
      unfold adjX adjY
      rw [hP.1, hx, hy]
      exact inView_of_guarded p hin hP.2.2.2.1 hP.2.2.2.2.1
    have hdir : Direction p g (nodeAt E st.heap s.parent).x (nodeAt E st.heap s.parent).y
        s.x s.y := by
      rw [hP.1, hx, hy]; exact hP.2.2.2.2.1
    have hke := hkey _ e hl
    obtain ⟨a1, a2, a3, a4⟩ := hadj
    obtain ⟨hex, hey⟩ := getHashKeyForPoint_eq_left (adjX E st s) (adjY E st s) _ _
      ⟨a1, by omega⟩ ⟨a3, by omega⟩ hke
    have hstep : PermittedStep p g (pointOf E st.heap s.parent) (pointOf E st.heap e) := by
      have := permittedStep_of_direction p g _ _ s.x s.y ⟨a1, a2, a3, a4⟩ hdir hwk
        (not_avoided_of_lookup hav)
      unfold pointOf
      rw [hex, hey]
      exact this
    refine ⟨hinv.relax e s hsp, bounded_relax hbd e s, keyed_relax hkey e s,
      linked_relax hlink e s hstep, ?_, ?_, ?_, hin⟩
    · simp only [relax_length]; exact hlt
    · simp only [relax_x]; exact hx
    · simp only [relax_y]; exact hy
  · intro fuel st0 item st s hJ hP hav _ hwk hl
    obtain ⟨hinv, hbd, hkey, hlink, hlt, hx, hy, hin⟩ := hJ
    have hsp : s.parent < st.heap.length := by rw [hP.1]; exact hlt
    have hadj : InView g (adjX E st s) (adjY E st s) := by
      unfold adjX adjY
      rw [hP.1, hx, hy]
      exact inView_of_guarded p hin hP.2.2.2.1 hP.2.2.2.2.1
    have hdir : Direction p g (nodeAt E st.heap s.parent).x (nodeAt E st.heap s.parent).y
        s.x s.y := by
      rw [hP.1, hx, hy]; exact hP.2.2.2.2.1
    have hstep : PermittedStep p g (pointOf E st.heap s.parent)
        ⟨adjX E st s, adjY E st s⟩ :=
      permittedStep_of_direction p g _ _ s.x s.y hadj hdir hwk (not_avoided_of_lookup hav)
    refine ⟨hinv.register _ _ _ s hsp (not_avoided_of_lookup hav) hwk,
      bounded_register p hbd _ _ s hadj hl, keyed_register p hkey hinv.regLt _ _ s,
      linked_register hlink hinv.parentLt _ _ _ s hsp hstep, ?_, ?_, ?_, hin⟩
    · rw [register_length]; omega
    · rw [register_node, if_pos hlt]; exact hx
    · rw [register_node, if_pos hlt]; exact hy
  · intro fuel st0 item st s hJ hP hav hg
    obtain ⟨hinv, hbd, hkey, hlink, hlt, hx, hy, hin⟩ := hJ
    have hadj : InView g (adjX E st s) (adjY E st s) := by
      unfold adjX adjY
      rw [hP.1, hx, hy]
      exact inView_of_guarded p hin hP.2.2.2.1 hP.2.2.2.2.1
    have hdir : Direction p g (nodeAt E st.heap s.parent).x (nodeAt E st.heap s.parent).y
        s.x s.y := by
      rw [hP.1, hx, hy]; exact hP.2.2.2.2.1
    have hwk : Walkable p g (adjX E st s) (adjY E st s) := by
      rw [← hg.1, ← hg.2, hP.2.1, hP.2.2.1]
      exact hgoal
    exact ⟨hinv, hlink, by rw [hP.1]; exact hlt,
      permittedStep_of_direction p g _ _ s.x s.y hadj hdir hwk (not_avoided_of_lookup hav)⟩
  · intros; trivial
  · intro fuel st0 item st hJ
    exact ⟨hJ.1, hJ.2.1, hJ.2.2.1, hJ.2.2.2.1⟩
  · intros; trivial

theorem permittedChain_append (p : Pathfinder F Q) (g : GridView) (b : Point) :
    ∀ (l : List Point), PermittedChain p g l →
      (∀ a, l.getLast? = some a → PermittedStep p g a b) → PermittedChain p g (l ++ [b]) := by
  intro l
  induction l with
  | nil => intro _ _; trivial
  | cons a rest ih =>
    intro hch hlast
    cases rest with
    | nil =>
      exact ⟨hlast a rfl, trivial⟩
    | cons c rest1 =>
      obtain ⟨h1, h2⟩ := hch
      refine ⟨h1, ih h2 ?_⟩
      intro a1 ha1
      apply hlast
      rw [List.getLast?_cons_cons]
      exact ha1

/-- The points of a chain of parent links, from the node without a parent on, are a
sequence of permitted steps. -/
theorem permittedChain_of_chain {E : Env F Q} {p : Pathfinder F Q} {g : GridView}
    {heap : List (Node F)} (hL : Linked E p g heap) {i : Nat} {c : List Nat}
    (h : IsChain E heap i c) :
    PermittedChain p g (c.map (pointOf E heap)).reverse ∧
      (c.map (pointOf E heap)).reverse.getLast? = some (pointOf E heap i) := by
  induction h with
  | root i _ => exact ⟨trivial, rfl⟩
  | link i q l hq _ ih =>
    rw [List.map_cons, List.reverse_cons]
    refine ⟨permittedChain_append p g _ _ ih.1 ?_, by simp⟩
    intro a ha
    rw [ih.2] at ha
    simp only [Option.some.injEq] at ha
    subst ha
    exact hL i q hq

/-- Whether steps are permitted does not depend on the start and the goal that a search
has stored in the pathfinder. -/
theorem permittedChain_endpoints (p : Pathfinder F Q) (g : GridView) (sx sy ex ey : Int) :
    ∀ (l : List Point),
      PermittedChain { p with startX := sx, startY := sy, endX := ex, endY := ey } g l →
      PermittedChain p g l := by
  intro l
  induction l with
  | nil => intro _; trivial
  | cons a rest ih =>
    intro h
    cases rest with
    | nil => trivial
    | cons b rest1 => exact ⟨h.1, ih h.2⟩

/-- On a grid of at most `55296` columns and rows, a route of the search is a permitted
route from the start to the goal. -/
theorem search_permitted (E : Env F Q) (p : Pathfinder F Q) (g : GridView)
    (hW : g.width ≤ 55296) (hH : g.height ≤ 55296)
    (sx sy ex ey : Int) (hs : InView g sx sy) (hgoal : Walkable p g ex ey) (r : List Point)
    (h : (search E p g sx sy ex ey).1 = Outcome.route r) :
    PermittedRoute p g ⟨sx, sy⟩ ⟨ex, ey⟩ r := by
  obtain ⟨mid, hmid, _, _⟩ := search_route E p g sx sy ex ey r h
  have key := searchLoop_linked E
    { p with startX := sx, startY := sy, endX := ex, endY := ey } g hW hH hgoal sx sy
    (loopBound g)
    (initialState E { p with startX := sx, startY := sy, endX := ex, endY := ey } g sx sy)
    (Inv.initial E { p with startX := sx, startY := sy, endX := ex, endY := ey } g sx sy)
    (bounded_initial E _ g sx sy ⟨rfl, rfl⟩ hs)
    (keyed_initial E _ g sx sy ⟨rfl, rfl⟩)
    (linked_initial E _ g sx sy)
  have hchain : PermittedChain p g r := by
    unfold search at h
    simp only [] at h
    cases hres : searchLoop E { p with startX := sx, startY := sy, endX := ex, endY := ey } g
        (loopBound g)
        (initialState E { p with startX := sx, startY := sy, endX := ex, endY := ey } g sx sy)
      with
    | exhausted st1 => rw [hres] at h; simp at h
    | panic st1 => rw [hres] at h; simp at h
    | outOfFuel st1 => rw [hres] at h; simp at h
    | found par x y st1 =>
      rw [hres] at h key
      obtain ⟨_, hlink, _, hstep⟩ := key
      simp only [buildPath] at h
      cases hw : parentWalk E st1.heap st1.heap.length par with
      | none => rw [hw] at h; simp at h
      | some l =>
        rw [hw] at h
        simp only [Outcome.route.injEq] at h
        obtain ⟨c, hc, hcl⟩ := parentWalk_chain E st1.heap _ par l hw
        have hpts : (⟨x, y⟩ : Point) ::
            ⟨(nodeAt E st1.heap par).x, (nodeAt E st1.heap par).y⟩ :: l =
            ⟨x, y⟩ :: c.map (pointOf E st1.heap) := by
          rw [← hcl]; rfl
        rw [hpts] at h
        subst h
        rw [List.reverse_cons]
        obtain ⟨hch, hlast⟩ := permittedChain_of_chain hlink hc
        refine permittedChain_endpoints p g sx sy ex ey _
          (permittedChain_append _ g _ _ hch ?_)
        intro a ha
        rw [hlast] at ha
        simp only [Option.some.injEq] at ha
        subst ha
        exact hstep
  subst hmid
  refine ⟨rfl, ?_, hs, hchain⟩
  rw [← List.cons_append, List.getLast?_append]
  rfl

/-- With a rectangular grid of at most `55296` columns and rows and the start in bounds,
a route that `FindPath` returns and that is not empty is a permitted route from the
start to the goal. -/
theorem FindPath_route_permitted (E : Env F Q) (p : Pathfinder F Q) (grid : List (List Int))
    (W H : Nat) (sx sy ex ey : Int) (r : List Point)
    (hg : p.collisionGrid = some grid) (hr : Rectangular grid W H)
    (hW : W ≤ 55296) (hH : H ≤ 55296) (hs : InBounds W H sx sy)
    (h : (FindPath E p sx sy ex ey).1 = Outcome.route r) (hne : r ≠ []) :
    PermittedRoute p (gridView grid) ⟨sx, sy⟩ ⟨ex, ey⟩ r := by
  obtain ⟨grid1, hg1, hwalk, hsearch, _⟩ := FindPath_route_goal E p sx sy ex ey r h hne
  rw [hg] at hg1
  simp only [Option.some.injEq] at hg1
  subst hg1
  have hw := gridView_width hr
  have hh := gridView_height hr
  obtain ⟨hx0, hx1, hy0, hy1⟩ := hs
  exact search_permitted E p (gridView grid) (by rw [hw]; omega) (by rw [hh]; omega)
    sx sy ex ey ⟨hx0, by rw [hw]; exact hx1, hy0, by rw [hh]; exact hy1⟩ hwalk r hsearch

end PermittedSearch

end Goeasystar

/-! ## The cost of the returned route without point costs -/

namespace Goeasystar

section CostMinimal

variable {F Q : Type}

/-- C6, as the code has it. For every configuration with a rectangular grid of at most
`55296` columns and rows, the start in bounds, no point cost and the tile-cost table
empty (as `NewPathfinder` leaves it; no method writes it), in float arithmetic with
`1.0 * 0 = 0`, `1.4 * 0 = 0`, `0 + 0 = 0` and not `0 < 0`: a route that `FindPath`
returns and that is not empty is a permitted route from the start to the goal, its
total cost is zero, and no permitted route from the start to the goal costs less. -/
theorem FindPath_cost_minimal_without_overrides (E : Env F Q) (p : Pathfinder F Q)
    (grid : List (List Int)) (W H : Nat) (sx sy ex ey : Int) (r : List Point)
    (hg : p.collisionGrid = some grid) (hr : Rectangular grid W H)
    (hW : W ≤ 55296) (hH : H ≤ 55296) (hs : InBounds W H sx sy)
    (hc : p.additionalPointsToCost = []) (hm : p.costMap = [])
    (h1 : E.f.mul E.f.straightCost E.f.zero = E.f.zero)
    (h2 : E.f.mul E.f.diagonalCost E.f.zero = E.f.zero)
    (h3 : E.f.add E.f.zero E.f.zero = E.f.zero)
    (h4 : E.f.lt E.f.zero E.f.zero = false)
    (h : (FindPath E p sx sy ex ey).1 = Outcome.route r) (hne : r ≠ []) :
    PermittedRoute p (gridView grid) ⟨sx, sy⟩ ⟨ex, ey⟩ r ∧
      routeCost E p (gridView grid) r = E.f.zero ∧
      ∀ r1, PermittedRoute p (gridView grid) ⟨sx, sy⟩ ⟨ex, ey⟩ r1 →
        E.f.lt (routeCost E p (gridView grid) r1) (routeCost E p (gridView grid) r) = false := by
  refine ⟨FindPath_route_permitted E p grid W H sx sy ex ey r hg hr hW hH hs h hne,
    routeCost_no_overrides E p _ hc hm h1 h2 h3 r, ?_⟩
  intro r1 _
  rw [routeCost_no_overrides E p _ hc hm h1 h2 h3, routeCost_no_overrides E p _ hc hm h1 h2 h3]
  exact h4

end CostMinimal

/-- C6 as amended, on the configuration of `TestSuccessfulPath`: the route of five cells
is a permitted route of cost zero, and so is the permitted route through the row
`y = 4`. -/
theorem FindPath_cost_minimal_without_overrides_witness :
    Rectangular wallGrid 5 5 ∧ InBounds 5 5 1 2 ∧
      (FindPath goEnv wallPathfinder 1 2 3 2).1 =
        Outcome.route [⟨1, 2⟩, ⟨1, 3⟩, ⟨2, 3⟩, ⟨3, 3⟩, ⟨3, 2⟩] ∧
      PermittedRoute wallPathfinder (gridView wallGrid) ⟨1, 2⟩ ⟨3, 2⟩
        [⟨1, 2⟩, ⟨1, 3⟩, ⟨1, 4⟩, ⟨2, 4⟩, ⟨3, 4⟩, ⟨3, 3⟩, ⟨3, 2⟩] ∧
      (PermittedRoute wallPathfinder (gridView wallGrid) ⟨1, 2⟩ ⟨3, 2⟩
          [⟨1, 2⟩, ⟨1, 3⟩, ⟨2, 3⟩, ⟨3, 3⟩, ⟨3, 2⟩] ∧
        routeCost goEnv wallPathfinder (gridView wallGrid)
          [⟨1, 2⟩, ⟨1, 3⟩, ⟨2, 3⟩, ⟨3, 3⟩, ⟨3, 2⟩] = goEnv.f.zero ∧
        ∀ r1, PermittedRoute wallPathfinder (gridView wallGrid) ⟨1, 2⟩ ⟨3, 2⟩ r1 →
          goEnv.f.lt (routeCost goEnv wallPathfinder (gridView wallGrid) r1)
            (routeCost goEnv wallPathfinder (gridView wallGrid)
              [⟨1, 2⟩, ⟨1, 3⟩, ⟨2, 3⟩, ⟨3, 3⟩, ⟨3, 2⟩]) = false) :=
  ⟨by decide, by decide, by decide, by decide,
    FindPath_cost_minimal_without_overrides goEnv wallPathfinder wallGrid 5 5 1 2 3 2 _
      rfl (by decide) (by decide) (by decide) (by decide) rfl rfl (by decide) (by decide)
      (by decide) (by decide) (by decide) (by decide)⟩

end Goeasystar
